import Mathlib

/-!
# LSB steganography in BMP images: encoder and decoder

A shallow embedding of `encode.c`, `decode.c` and `common.c`.

Conventions of the embedding.

* A `char` is represented by its 8-bit pattern, a natural number below 256.
  The operators `>>`, `&`, `|` and `<<` are applied by the C code to promoted
  `int` values and the result is stored back into a `char`; on bit patterns
  this is the corresponding operation on naturals followed by `% 256`
  (for `i < 8` bit `i` of a sign-extended value is bit `i` of the pattern).
* A C string held in a buffer is the list of the bytes of the buffer; as in C
  it ends at the first zero byte (or at the end of the list).
* A stream (`FILE`) is the list of the bytes of the file, a position and the
  end-of-file indicator. The error indicator is never set on such a stream,
  so the `ferror` branches of the code are never taken.
* `uint` (a typedef of `types.h`) is `unsigned int`, 32 bits wide; `int` is 32
  bits wide and `long` is 64 bits wide (`sizeof(long) = 8`).
* A function returns `none` where the C code uses an object whose value is
  indeterminate or writes past the end of an array. The encoder reads with
  `fread(buf, size, 1, f)` and uses the buffer without looking at the result:
  when the file ends first the element is read in part, and the C standard
  leaves its value indeterminate, so the bytes written from it are not
  determined by the files. The one exception is the array `magic_str` of
  `find_magic_string`, compared after a short read: the bytes it holds before
  the loop are an argument of the function.
* A call of `fseek` with a negative offset fails: it leaves the stream where
  it is and sets no error indicator, so a test of `ferror` behind it passes.
-/

namespace Stego

/-! ## Types and constants (`types.h`, `common.h`) -/

/-- Modelled from the spec: the enum `Status` of `types.h`, a header that is
not among the sources; its two values are the ones the code returns. -/
inductive Status where
  | e_success : Status
  | e_failure : Status
deriving DecidableEq, Repr

/-- The string `MAGIC_STRING`, the two characters `#*`. -/
def MAGIC_STRING : List Nat := [35, 42]

/-- The string `ENC_DATA_SEPARATOR_STRING`, the character `*`. -/
def ENC_DATA_SEPARATOR_STRING : List Nat := [42]

def MAX_SECRET_BUF_SIZE : Nat := 1

def MAX_IMAGE_BUF_SIZE : Nat := MAX_SECRET_BUF_SIZE * 8

def MAX_FILE_SUFFIX : Nat := 4

/-! ## Bit packing -/

/-- One iteration of the loop of `encode_byte_to_lsb`:
`image_buffer[i] = ((data >> i) & 1) | ((image_buffer[i] >> 1) << 1)`. -/
def encode_byte_to_lsb_step (data : Nat) (image_buffer : List Nat) (i : Nat) : List Nat :=
  image_buffer.set i ((((data >>> i) &&& 1) ||| ((image_buffer.getD i 0 >>> 1) <<< 1)) % 256)

/-- The function `encode_byte_to_lsb` of `encode.c`: the loop runs `i` over
`0 .. MAX_IMAGE_BUF_SIZE - 1`; the buffer is returned next to the status. -/
def encode_byte_to_lsb (data : Nat) (image_buffer : List Nat) : Status × List Nat :=
  (Status.e_success,
    (List.range MAX_IMAGE_BUF_SIZE).foldl (encode_byte_to_lsb_step data) image_buffer)

/-- One iteration of the loop of `get_data_from_byte_array`:
`*data = *data | ((byte_buffer[i] & 1) << i)`. -/
def get_data_from_byte_array_step (byte_buffer : List Nat) (data : Nat) (i : Nat) : Nat :=
  (data ||| ((byte_buffer.getD i 0 &&& 1) <<< i)) % 256

/-- The function `get_data_from_byte_array` of `decode.c`: `*data = 0`, then the
loop over `i < MAX_IMAGE_BUF_SIZE`; the data byte is returned next to the
status. The buffer is only read. -/
def get_data_from_byte_array (byte_buffer : List Nat) : Status × Nat :=
  (Status.e_success,
    (List.range MAX_IMAGE_BUF_SIZE).foldl (get_data_from_byte_array_step byte_buffer) 0)

/-! ## C strings -/

/-- The characters of the C string held in a buffer: the bytes before the
first zero byte. -/
def cstr (s : List Nat) : List Nat := s.takeWhile (fun c => c != 0)

/-- The library function `strlen`. -/
def strlen (s : List Nat) : Nat := (cstr s).length

/-- The call `strstr(file_name, ".")`: the part of the string that starts at
its first `.`, or `none` (a null pointer) when the string has none. -/
def strstr_dot : List Nat → Option (List Nat)
  | [] => none
  | c :: cs => if c = 0 then none else if c = 46 then some (c :: cs) else strstr_dot cs

/-- The call `strncmp(s1, s2, n) == 0`. -/
def strncmp_eq : List Nat → List Nat → Nat → Bool
  | _, _, 0 => true
  | s1, s2, n + 1 =>
    if s1.headD 0 ≠ s2.headD 0 then false
    else if s1.headD 0 = 0 then true
    else strncmp_eq s1.tail s2.tail n

/-- The function `get_file_extension` of `common.c`. The second component is
what `strcpy` stores into `file_extension` (nothing on failure). -/
def get_file_extension (file_name : List Nat) : Status × List Nat :=
  match strstr_dot file_name with
  | none => (Status.e_failure, [])
  | some extn_start =>
    let extn_start := extn_start.tail
    if strlen extn_start ≥ MAX_FILE_SUFFIX then (Status.e_failure, [])
    else (Status.e_success, cstr extn_start)

/-! ## Streams -/

/-- A stdio stream over a file: the bytes of the file, the position indicator
and the end-of-file indicator. -/
structure FILE where
  data : List Nat
  pos : Nat
  eof : Bool
deriving DecidableEq, Repr

/-- The stream returned by `fopen(name, "rb")` on a file with the given bytes. -/
def fopen_rb (bytes : List Nat) : FILE := ⟨bytes, 0, false⟩

/-- The stream returned by `fopen(name, "wb")`: the file is created empty. -/
def fopen_wb : FILE := ⟨[], 0, false⟩

def rewind (f : FILE) : FILE := { f with pos := 0, eof := false }

/-- The call `fseek(f, offset, SEEK_SET)` for an offset that is not negative. -/
def fseek_set (f : FILE) (offset : Nat) : FILE := { f with pos := offset, eof := false }

/-- The call `fread(buf, size, 1, f)`: the bytes obtained (fewer than `size`
when the file ends first, and then the end-of-file indicator is set). -/
def fread (size : Nat) (f : FILE) : List Nat × FILE :=
  let got := (f.data.drop f.pos).take size
  (got, { f with pos := f.pos + got.length, eof := f.eof || decide (got.length < size) })

/-- The call `fwrite(buf, size, 1, f)` with `size` the length of `buf`. Writing
behind the end of the file fills the gap with zero bytes. -/
def fwrite (buf : List Nat) (f : FILE) : FILE :=
  if buf = [] then f
  else
    let old := f.data ++ List.replicate (f.pos - f.data.length) 0
    { f with data := old.take f.pos ++ buf ++ old.drop (f.pos + buf.length),
             pos := f.pos + buf.length }

/-- The value of a 4-byte little-endian object. -/
def le32 (b : List Nat) : Nat :=
  b.getD 0 0 % 256 + 256 * (b.getD 1 0 % 256) + 65536 * (b.getD 2 0 % 256)
    + 16777216 * (b.getD 3 0 % 256)

/-- Conversion of a 32-bit pattern to `int`. -/
def to_int (u : Nat) : Int := if u % 4294967296 < 2147483648 then (u % 4294967296 : Nat)
  else ((u % 4294967296 : Nat) : Int) - 4294967296

/-! ## `common.c` and the geometry readers -/

/-- The function `get_image_data_offset` of `common.c`; `none` when the file
ends before the four bytes at offset 10. -/
def get_image_data_offset (fptr_bmp_image : FILE) : Option (Int × FILE) :=
  let f := fseek_set fptr_bmp_image 10
  let r := fread 4 f
  if r.1.length < 4 then none else some (to_int (le32 r.1), r.2)

/-- The product `width * height * 3` in `uint` arithmetic. -/
def image_capacity (width height : Nat) : Nat := (width * height * 3) % 4294967296

/-- The function `get_image_size_for_bmp` of `encode.c`; `none` when the file
ends before the two fields at offsets 18 and 22. -/
def get_image_size_for_bmp (fptr_image : FILE) : Option (Nat × FILE) :=
  let f := fseek_set (rewind fptr_image) 18
  let w := fread 4 f
  let h := fread 4 w.2
  if w.1.length < 4 ∨ h.1.length < 4 then none
  else some (image_capacity (le32 w.1) (le32 h.1), h.2)

/-- The loop of `get_file_size`: one byte is read per iteration, and `size`
is incremented (in `uint` arithmetic) unless the end of the file was hit. -/
def get_file_size_loop : Nat → FILE → Nat → Nat × FILE
  | 0, f, size => (size, f)
  | fuel + 1, f, size =>
    let r := fread 1 f
    if r.2.eof then (size, r.2)
    else get_file_size_loop fuel r.2 ((size + 1) % 4294967296)

/-- The function `get_file_size` of `encode.c`: it returns `size - 1` in `uint`
arithmetic. The loop runs at most once per byte of the file, plus once. -/
def get_file_size (fptr : FILE) : Nat × FILE :=
  let r := get_file_size_loop (fptr.data.length + 1) (rewind fptr) 0
  ((r.1 + 4294967295) % 4294967296, r.2)

/-- The capacity test of `do_encoding` (lines 95 to 99), in `uint` arithmetic:
`image_byte_size >= total_encoded_msg_byte_size * 8`. -/
def capacity_check (image_byte_size secret_msg_byte_size : Nat) : Bool :=
  let magic_str_byte_size := strlen MAGIC_STRING
  let file_ext_byte_size := MAX_FILE_SUFFIX
  let file_size_str_byte_size := 8 + 1
  let total_encoded_msg_byte_size :=
    (secret_msg_byte_size + magic_str_byte_size + file_ext_byte_size
      + file_size_str_byte_size) % 4294967296
  decide (image_byte_size ≥ (total_encoded_msg_byte_size * 8) % 4294967296)

/-! ## The encoder (`encode.c`) -/

/-- The function `copy_bmp_header`. The number of bytes copied is the value of
`get_image_size_for_bmp` converted to `int`. A negative value makes `malloc`
fail for ever; on a file shorter than that `fread` reads its one element in
part, and the bytes that `fwrite` then takes from the buffer are
indeterminate: both give `none`. -/
def copy_bmp_header (fptr_src_image fptr_dest_image : FILE) : Option (Status × FILE × FILE) :=
  match get_image_size_for_bmp fptr_src_image with
  | none => none
  | some (size, src) =>
    let bmp_pixel_data_offset := to_int size
    if bmp_pixel_data_offset < 0 then none
    else
      let r := fread bmp_pixel_data_offset.toNat (rewind src)
      if r.1.length < bmp_pixel_data_offset.toNat then none
      else some (Status.e_success, r.2, fwrite r.1 (rewind fptr_dest_image))

/-- The function `encode_string_to_image`: one 8-byte block is read, stamped
and written per character of the string. Where the source cannot fill the
block, `fread` reads its one element in part and the code stamps and writes
the buffer all the same; the bytes written are then indeterminate (`none`). -/
def encode_string_to_image : List Nat → FILE → FILE → Option (Status × FILE × FILE)
  | [], src, dest => some (Status.e_success, src, dest)
  | ch :: rest, src, dest =>
    if ch = 0 then some (Status.e_success, src, dest)
    else
      let r := fread MAX_IMAGE_BUF_SIZE src
      if r.1.length < MAX_IMAGE_BUF_SIZE then none
      else encode_string_to_image rest r.2 (fwrite (encode_byte_to_lsb ch r.1).2 dest)

/-- The function `encode_magic_string`: both streams are positioned at the
pixel data offset of the source, then `MAGIC_STRING` is stamped. For an offset
that is negative as an `int` the two calls of `fseek` fail, the test of
`ferror` passes, and the string is stamped where the streams are: the source
behind the offset field, where `get_image_data_offset` left it, and the
destination where it was. -/
def encode_magic_string (fptr_src_image fptr_dest_image : FILE) :
    Option (Status × FILE × FILE) :=
  match get_image_data_offset fptr_src_image with
  | none => none
  | some (bmp_pixel_data_offset, src) =>
    if bmp_pixel_data_offset < 0 then
      encode_string_to_image MAGIC_STRING src fptr_dest_image
    else
      encode_string_to_image MAGIC_STRING (fseek_set src bmp_pixel_data_offset.toNat)
        (fseek_set fptr_dest_image bmp_pixel_data_offset.toNat)

/-- Modelled from the spec: the value of `a && b` for two statuses, converted
back to `Status`. The enum is declared in `types.h`, which is not among the
sources; its values are taken in the order `e_success = 0`, `e_failure = 1`.
On two equal statuses the result is that status for either order. -/
def status_and : Status → Status → Status
  | Status.e_failure, Status.e_failure => Status.e_failure
  | _, _ => Status.e_success

/-- The function `encode_secret_file_extn`: the extension, then the separator. -/
def encode_secret_file_extn (file_extn : List Nat) (fptr_src_image fptr_dest_image : FILE) :
    Option (Status × FILE × FILE) :=
  match encode_string_to_image file_extn fptr_src_image fptr_dest_image with
  | none => none
  | some (encode_file_extn_status, src, dest) =>
    match encode_string_to_image ENC_DATA_SEPARATOR_STRING src dest with
    | none => none
    | some (encode_file_extn_terminator_status, src, dest) =>
      some (status_and encode_file_extn_terminator_status encode_file_extn_status, src, dest)

/-- The `while(num != 0)` loop of `itoa`: the characters stored at
`str[0], str[1], ...`, least significant digit first. -/
def itoa_loop : Nat → Nat → List Nat
  | 0, _ => []
  | fuel + 1, num => if num = 0 then [] else (num % 10 + 48) :: itoa_loop fuel (num / 10)

/-- One iteration of the reversing loop of `itoa`. -/
def itoa_swap (str_len : Nat) (str : List Nat) (i : Nat) : List Nat :=
  let temp := str.getD i 0
  (str.set i (str.getD (str_len - i - 1) 0)).set (str_len - i - 1) temp

/-- The function `itoa` of `encode.c` for `num ≥ 0`: the bytes it leaves at the
start of `str`, terminator included. For `num = 0` the stores `str[0] = '0'`
and `str[1] = 0` are followed by `str[i] = 0` with `i = 0`. -/
def itoa (num : Nat) : List Nat :=
  let str := if num = 0 then [48, 0] else []
  let digits := itoa_loop num num
  let str := digits ++ [0] ++ str.drop (digits.length + 1)
  let str_len := strlen str
  (List.range (str_len / 2)).foldl (itoa_swap str_len) str

/-- The function `encode_secret_file_size`. The array `file_size_as_str` has
`sizeof(long) + 1 = 9` bytes; `strcat` needs the digits, the separator and the
terminator to fit, otherwise it writes past the end (`none`). -/
def encode_secret_file_size (file_size : Nat) (fptr_src_image fptr_dest_image : FILE) :
    Option (Status × FILE × FILE) :=
  if file_size = 0 then some (Status.e_failure, fptr_src_image, fptr_dest_image)
  else
    let file_size_as_str := itoa file_size
    if strlen file_size_as_str + 2 > 8 + 1 then none
    else
      encode_string_to_image (cstr file_size_as_str ++ ENC_DATA_SEPARATOR_STRING ++ [0])
        fptr_src_image fptr_dest_image

/-- The function `encode_secret_file_data`: the payload is read into a buffer,
the separator and a terminator are appended, and the buffer is stamped as a
string. -/
def encode_secret_file_data (size_secret_file : Nat)
    (fptr_src_image fptr_dest_image fptr_secret_data : FILE) :
    Option (Status × FILE × FILE × FILE) :=
  let r := fread size_secret_file (rewind fptr_secret_data)
  if r.1.length < size_secret_file then none
  else
    let secret_data := r.1 ++ [ENC_DATA_SEPARATOR_STRING.headD 0, 0]
    match encode_string_to_image secret_data fptr_src_image fptr_dest_image with
    | none => none
    | some (st, src, dest) => some (st, src, dest, r.2)

/-- The loop of `copy_remaining_img_data`: bytes are copied one at a time
until the source hits the end of the file. -/
def copy_remaining_img_data_loop : Nat → FILE → FILE → FILE × FILE
  | 0, src, dest => (src, dest)
  | fuel + 1, src, dest =>
    let r := fread 1 src
    if r.2.eof then (r.2, dest)
    else copy_remaining_img_data_loop fuel r.2 (fwrite r.1 dest)

/-- The function `copy_remaining_img_data`. -/
def copy_remaining_img_data (fptr_src fptr_dest : FILE) : Status × FILE × FILE :=
  (Status.e_success, copy_remaining_img_data_loop (fptr_src.data.length + 1) fptr_src fptr_dest)

/-- Modelled from the spec: the structure `EncodeInfo` of `encode.h`, a header
that is not among the sources, with the fields that `encode.c` uses: the name
of the secret file, the three streams, the extension and the size of the
secret file. A stream that is not open is `none`. -/
structure EncodeInfo where
  secret_fname : List Nat
  fptr_src_image : Option FILE
  fptr_secret : Option FILE
  fptr_stego_image : Option FILE
  extn_secret_file : List Nat
  size_secret_file : Nat
deriving DecidableEq, Repr

/-- The messages `do_encoding` prints on `stderr`, one per failing step. -/
inductive EncodeError where
  | file_error : EncodeError
  | no_data_to_encode : EncodeError
  | image_not_large_enough : EncodeError
  | header_copy_failed : EncodeError
  | magic_string_failed : EncodeError
  | extension_acquisition_failed : EncodeError
  | extension_encoding_failed : EncodeError
  | size_encoding_failed : EncodeError
  | data_encoding_failed : EncodeError
  | remaining_data_failed : EncodeError
deriving DecidableEq, Repr

/-- The function `open_files`. The arguments are the contents of the source
image and of the secret file (`none`: the file cannot be opened) and whether the
output image can be created; it is created empty. -/
def open_files (src_image secret : Option (List Nat)) (stego_creatable : Bool)
    (encInfo : EncodeInfo) : Status × EncodeInfo :=
  match src_image with
  | none => (Status.e_failure, encInfo)
  | some img =>
    let encInfo := { encInfo with fptr_src_image := some (fopen_rb img) }
    match secret with
    | none => (Status.e_failure, encInfo)
    | some sec =>
      let encInfo := { encInfo with fptr_secret := some (fopen_rb sec) }
      if stego_creatable then
        (Status.e_success, { encInfo with fptr_stego_image := some fopen_wb })
      else (Status.e_failure, encInfo)

/-- What a run of `do_encoding` leaves: the status, the message printed when
it failed, and the session with its streams. -/
structure EncodeResult where
  status : Status
  message : Option EncodeError
  encInfo : EncodeInfo
deriving DecidableEq, Repr

/-- Lines 162 to 175 of `do_encoding`: the rest of the image is copied and the
session is closed. -/
def do_encoding_copy_remaining (encInfo : EncodeInfo) (src dest : FILE) : Option EncodeResult :=
  let cp := copy_remaining_img_data src dest
  let encInfo := { encInfo with fptr_src_image := some cp.2.1, fptr_stego_image := some cp.2.2 }
  if cp.1 = Status.e_failure then
    some ⟨Status.e_failure, some EncodeError.remaining_data_failed, encInfo⟩
  else some ⟨Status.e_success, none, encInfo⟩

/-- Lines 153 to 160 of `do_encoding`, then the rest: the secret data. -/
def do_encoding_secret_data (encInfo : EncodeInfo) (src dest sec : FILE) :
    Option EncodeResult :=
  match encode_secret_file_data encInfo.size_secret_file src dest sec with
  | none => none
  | some (secret_data_encode_status, src, dest, sec) =>
    let encInfo := { encInfo with fptr_src_image := some src, fptr_stego_image := some dest,
                                  fptr_secret := some sec }
    if secret_data_encode_status = Status.e_failure then
      some ⟨Status.e_failure, some EncodeError.data_encoding_failed, encInfo⟩
    else do_encoding_copy_remaining encInfo src dest

/-- Lines 144 to 151 of `do_encoding`, then the rest: the size of the secret
file. -/
def do_encoding_secret_size (encInfo : EncodeInfo) (secret_msg_byte_size : Nat)
    (src dest sec : FILE) : Option EncodeResult :=
  match encode_secret_file_size secret_msg_byte_size src dest with
  | none => none
  | some (file_size_encode_status, src, dest) =>
    let encInfo := { encInfo with fptr_src_image := some src, fptr_stego_image := some dest }
    if file_size_encode_status = Status.e_failure then
      some ⟨Status.e_failure, some EncodeError.size_encoding_failed, encInfo⟩
    else
      do_encoding_secret_data { encInfo with size_secret_file := secret_msg_byte_size }
        src dest sec

/-- Lines 125 to 142 of `do_encoding`, then the rest: the extension of the
secret file is taken from its name and stamped. -/
def do_encoding_extension (encInfo : EncodeInfo) (secret_msg_byte_size : Nat)
    (src dest sec : FILE) : Option EncodeResult :=
  let fe := get_file_extension encInfo.secret_fname
  if fe.1 = Status.e_failure then
    some ⟨Status.e_failure, some EncodeError.extension_acquisition_failed, encInfo⟩
  else
    let file_extn := fe.2
    match encode_secret_file_extn file_extn src dest with
    | none => none
    | some (sec_file_extn_encode_status, src, dest) =>
      let encInfo := { encInfo with extn_secret_file := file_extn,
                                    fptr_src_image := some src, fptr_stego_image := some dest }
      if sec_file_extn_encode_status = Status.e_failure then
        some ⟨Status.e_failure, some EncodeError.extension_encoding_failed, encInfo⟩
      else do_encoding_secret_size encInfo secret_msg_byte_size src dest sec

/-- Lines 115 to 123 of `do_encoding`, then the rest: the magic string. -/
def do_encoding_magic (encInfo : EncodeInfo) (secret_msg_byte_size : Nat)
    (src dest sec : FILE) : Option EncodeResult :=
  match encode_magic_string src dest with
  | none => none
  | some (magic_string_encode_status, src, dest) =>
    let encInfo := { encInfo with fptr_src_image := some src, fptr_stego_image := some dest }
    if magic_string_encode_status = Status.e_failure then
      some ⟨Status.e_failure, some EncodeError.magic_string_failed, encInfo⟩
    else do_encoding_extension encInfo secret_msg_byte_size src dest sec

/-- Lines 106 to 113 of `do_encoding`, then the rest: the header. -/
def do_encoding_header (encInfo : EncodeInfo) (secret_msg_byte_size : Nat)
    (src dest sec : FILE) : Option EncodeResult :=
  match copy_bmp_header src dest with
  | none => none
  | some (header_copy_staus, src, dest) =>
    let encInfo := { encInfo with fptr_src_image := some src, fptr_stego_image := some dest }
    if header_copy_staus = Status.e_failure then
      some ⟨Status.e_failure, some EncodeError.header_copy_failed, encInfo⟩
    else do_encoding_magic encInfo secret_msg_byte_size src dest sec

/-- Lines 84 to 104 of `do_encoding`, then the rest: the size of the secret
message is checked, then the capacity of the image. -/
def do_encoding_checks (encInfo : EncodeInfo) (src sec dest : FILE) : Option EncodeResult :=
  let fs := get_file_size sec
  let secret_msg_byte_size := (fs.1 + 1) % 4294967296
  let encInfo := { encInfo with fptr_secret := some fs.2 }
  if secret_msg_byte_size = 0 then
    some ⟨Status.e_failure, some EncodeError.no_data_to_encode, encInfo⟩
  else
    match get_image_size_for_bmp src with
    | none => none
    | some (image_byte_size, src) =>
      let encInfo := { encInfo with fptr_src_image := some src }
      if capacity_check image_byte_size secret_msg_byte_size = false then
        some ⟨Status.e_failure, some EncodeError.image_not_large_enough, encInfo⟩
      else do_encoding_header encInfo secret_msg_byte_size src dest fs.2

/-- The function `do_encoding`. The arguments stand for the file system: the
contents of the source image and of the secret file (`none`: the file cannot
be opened), whether the output image can be created, and the name of the
secret file. The steps after the opening of the files are the definitions
above, each followed by the rest of the function. -/
def do_encoding (src_image secret : Option (List Nat)) (stego_creatable : Bool)
    (secret_fname : List Nat) : Option EncodeResult :=
  let opened := open_files src_image secret stego_creatable
    { secret_fname := secret_fname, fptr_src_image := none, fptr_secret := none,
      fptr_stego_image := none, extn_secret_file := [], size_secret_file := 0 }
  if opened.1 = Status.e_failure then
    some ⟨Status.e_failure, some EncodeError.file_error, opened.2⟩
  else
    match opened.2.fptr_src_image, opened.2.fptr_secret, opened.2.fptr_stego_image with
    | some src, some sec, some dest => do_encoding_checks opened.2 src sec dest
    | _, _, _ => none

/-! ## The decoder (`decode.c`) -/

/-- The loop of the function `atoi` of `decode.c`. An `int` overflow of
`strToNum * 10 + (str[i] - '0')` is not modelled (`none`). -/
def atoi_loop : List Nat → Nat → Option Nat
  | [], strToNum => some strToNum
  | ch :: rest, strToNum =>
    if ch = 0 then some strToNum
    else if 48 ≤ ch ∧ ch ≤ 57 then
      if strToNum * 10 + (ch - 48) > 2147483647 then none
      else atoi_loop rest (strToNum * 10 + (ch - 48))
    else some strToNum

/-- The function `atoi` of `decode.c`. -/
def atoi (str : List Nat) : Option Int :=
  let startCharNumFlag : Bool := decide (48 ≤ str.headD 0 ∧ str.headD 0 ≤ 57)
  let startCharSignFlag : Bool := decide (str.headD 0 = 43 ∨ str.headD 0 = 45)
  if !startCharNumFlag && !startCharSignFlag then some 0
  else
    let sign : Bool := decide (str.headD 0 = 45)
    let i := if startCharNumFlag then 0 else 1
    match atoi_loop (str.drop i) 0 with
    | none => none
    | some strToNum => some (if sign then - (strToNum : Int) else (strToNum : Int))

/-- The function `is_magic_string`. -/
def is_magic_string (str : List Nat) : Status :=
  if strncmp_eq str MAGIC_STRING (strlen MAGIC_STRING) then Status.e_success
  else Status.e_failure

/-- The loop of `find_magic_string`: `k` iterations are left, `i` is the index
of the next character of `magic_str`. -/
def find_magic_string_loop : Nat → Nat → List Nat → FILE → List Nat × FILE
  | 0, _, magic_str, f => (magic_str, f)
  | k + 1, i, magic_str, f =>
    let r := fread MAX_IMAGE_BUF_SIZE f
    if r.2.eof then (magic_str, r.2)
    else find_magic_string_loop k (i + 1) (magic_str.set i (get_data_from_byte_array r.1).2) r.2

/-- The function `find_magic_string`. The array `magic_str` is not initialised
by the code: its two bytes before the loop are the argument `stale`. For an
offset that is negative as an `int` the call of `fseek` fails, the test of
`ferror` passes, and the blocks are read from where `get_image_data_offset`
left the stream, behind the offset field. -/
def find_magic_string (stale : Nat × Nat) (fptr_steg_img : FILE) : Option (Status × FILE) :=
  match get_image_data_offset fptr_steg_img with
  | none => none
  | some (bmp_image_data_offset, f) =>
    let f := if bmp_image_data_offset < 0 then f else fseek_set f bmp_image_data_offset.toNat
    let r := find_magic_string_loop (strlen MAGIC_STRING) 0 [stale.1, stale.2] f
    some (is_magic_string r.1, r.2)

/-- The `while(1)` loop shared by `get_secret_data_file_extn` and by the size
field of `copy_data_to_secret_data_file`: blocks are read and unpacked into
`buf[0], buf[1], ...` until the end of the file or until a character is `*`.
The result is `buf[0 .. i-1]` and the stream; `i` is the length of the list. -/
def read_until_separator : Nat → FILE → List Nat → List Nat × FILE
  | 0, f, buf => (buf, f)
  | fuel + 1, f, buf =>
    let r := fread MAX_IMAGE_BUF_SIZE f
    if r.2.eof then (buf, r.2)
    else
      let ch := (get_data_from_byte_array r.1).2
      if ch = 42 then (buf, r.2)
      else read_until_separator fuel r.2 (buf ++ [ch])

/-- The fields of `DecodeInfo` used by `do_decoding`. -/
structure DecodeInfo where
  fptr_secret : Option FILE
  extn_secret_file : List Nat
  fptr_stego_image : Option FILE
deriving DecidableEq, Repr

/-- The function `get_secret_data_file_extn`. The loop stores at index `i` of
the 4-byte array `extn_secret_file` and the terminator is stored at the final
`i`: an index of 4 or more is a write past the end (`none`). -/
def get_secret_data_file_extn (fptr_steg_img : FILE) : Option (Status × List Nat × FILE) :=
  let r := read_until_separator (fptr_steg_img.data.length + 1) fptr_steg_img []
  if r.1.length ≥ MAX_FILE_SUFFIX then none
  else some (Status.e_success, r.1 ++ [0], r.2)

/-- The function `create_secret_data_file`: the output file is created empty
when it can be. The file name is not modelled. -/
def create_secret_data_file (secret_creatable : Bool) : Status × Option FILE :=
  if secret_creatable then (Status.e_success, some fopen_wb) else (Status.e_failure, none)

/-- The loop that reads the secret message in `copy_data_to_secret_data_file`:
`k` iterations are left, the list is `secret_msg[0 .. i-1]`. -/
def read_secret_msg : Nat → FILE → List Nat → List Nat × FILE
  | 0, f, secret_msg => (secret_msg, f)
  | k + 1, f, secret_msg =>
    let r := fread MAX_IMAGE_BUF_SIZE f
    if r.2.eof then (secret_msg, r.2)
    else read_secret_msg k r.2 (secret_msg ++ [(get_data_from_byte_array r.1).2])

/-- The function `copy_data_to_secret_data_file`. The array `msg_size` has 10
bytes (an index of 10 or more is a write past the end); a negative size makes
the store of the terminator fall outside the allocated block. Both give
`none`. -/
def copy_data_to_secret_data_file (fptr_steg_img fptr_sec_data_file : FILE) :
    Option (Status × FILE × FILE) :=
  let r := read_until_separator (fptr_steg_img.data.length + 1) fptr_steg_img []
  if r.1.length ≥ 10 then none
  else
    let msg_size := r.1 ++ [0]
    match atoi msg_size with
    | none => none
    | some msg_size_i =>
      if msg_size_i < 0 then none
      else
        let m := read_secret_msg msg_size_i.toNat r.2 []
        let secret_msg := m.1 ++ [0]
        some (Status.e_success, m.2, fwrite (cstr secret_msg) fptr_sec_data_file)

/-- The messages `do_decoding` prints on `stderr`, one per failing step. -/
inductive DecodeError where
  | file_opening_failed : DecodeError
  | no_data_encoded : DecodeError
  | extension_acquisition_failed : DecodeError
  | file_creation_failed : DecodeError
  | data_copy_failed : DecodeError
deriving DecidableEq, Repr

/-- What a run of `do_decoding` leaves: the status, the message printed when
it failed, and the session with its streams. -/
structure DecodeResult where
  status : Status
  message : Option DecodeError
  decInfo : DecodeInfo
deriving DecidableEq, Repr

/-- The function `do_decoding`. The arguments stand for the file system (the
contents of the image, `none` when it cannot be opened, and whether the output
file can be created) and for the bytes found in `magic_str` before it is
written. -/
def do_decoding (stego_image : Option (List Nat)) (secret_creatable : Bool)
    (stale : Nat × Nat) : Option DecodeResult :=
  let decInfo : DecodeInfo :=
    { fptr_secret := none, extn_secret_file := [], fptr_stego_image := none }
  match stego_image with
  | none => some ⟨Status.e_failure, some DecodeError.file_opening_failed, decInfo⟩
  | some img =>
    let decInfo := { decInfo with fptr_stego_image := some (fopen_rb img) }
    match find_magic_string stale (fopen_rb img) with
    | none => none
    | some (find_magic_string_status, f) =>
    let decInfo := { decInfo with fptr_stego_image := some f }
    if find_magic_string_status = Status.e_failure then
      some ⟨Status.e_failure, some DecodeError.no_data_encoded, decInfo⟩
    else
    match get_secret_data_file_extn f with
    | none => none
    | some (get_secret_data_file_extn_status, extn, f) =>
    let decInfo := { decInfo with extn_secret_file := extn, fptr_stego_image := some f }
    if get_secret_data_file_extn_status = Status.e_failure then
      some ⟨Status.e_failure, some DecodeError.extension_acquisition_failed, decInfo⟩
    else
    let created := create_secret_data_file secret_creatable
    let decInfo := { decInfo with fptr_secret := created.2 }
    match created.1, created.2 with
    | Status.e_success, some out =>
      match copy_data_to_secret_data_file f out with
      | none => none
      | some (copy_status, f, out) =>
        let decInfo := { decInfo with fptr_stego_image := some f, fptr_secret := some out }
        if copy_status = Status.e_failure then
          some ⟨Status.e_failure, some DecodeError.data_copy_failed, decInfo⟩
        else some ⟨Status.e_success, none, decInfo⟩
    | _, _ => some ⟨Status.e_failure, some DecodeError.file_creation_failed, decInfo⟩

/-! ## Helpers for stating the properties -/

/-- The contents of a file seen from a position that may lie behind its end:
the gap is filled with zero bytes by the next write. -/
def padded (d : List Nat) (p : Nat) : List Nat := d ++ List.replicate (p - d.length) 0

/-- The pixel data offset of an image: the 4-byte field at byte 10. -/
def pixel_data_offset (img : List Nat) : Nat := le32 ((img.drop 10).take 4)

/-- The width of an image: the 4-byte field at byte 18. -/
def bmp_width (img : List Nat) : Nat := le32 ((img.drop 18).take 4)

/-- The height of an image: the 4-byte field at byte 22. -/
def bmp_height (img : List Nat) : Nat := le32 ((img.drop 22).take 4)


/-- The blocks obtained by stamping the characters of `text`, one after the
other, on successive 8-byte blocks of `carrier`. -/
def stamp : List Nat → List Nat → List Nat
  | [], _ => []
  | ch :: rest, carrier =>
    (encode_byte_to_lsb ch (carrier.take 8)).2 ++ stamp rest (carrier.drop 8)

/-- The output stream once the text `t` has been stamped from offset `off` on:
`H` is what the output holds before `off`, `R` what it held from `off` on, and
`D` is the source image. -/
def stamped (H R D : List Nat) (off : Nat) (t : List Nat) : FILE :=
  ⟨H ++ stamp t (D.drop off) ++ R.drop (8 * t.length), off + 8 * t.length, false⟩

/-- The output stream once the text `t`, taken block by block from the source
`D` from position `p0` on, has been stamped behind the bytes `A`. -/
def appended (A D : List Nat) (p0 : Nat) (t : List Nat) : FILE :=
  ⟨A ++ stamp t (D.drop p0), A.length + 8 * t.length, false⟩

/-- The characters obtained by unpacking `k` successive 8-byte blocks. -/
def unpack_blocks : Nat → List Nat → List Nat
  | 0, _ => []
  | k + 1, bytes => (get_data_from_byte_array (bytes.take 8)).2 :: unpack_blocks k (bytes.drop 8)

/-- The ASCII decimal digits of `n`, most significant first (empty for 0). -/
def decimal (n : Nat) : List Nat := ((Nat.digits 10 n).map (fun d => d + 48)).reverse

/-- The text of the frame stamped by the encoder for an extension, a byte
count and a payload: the magic string, the extension, the decimal size, the
payload read as a string, each followed by the separator. -/
def frame_text (ext : List Nat) (n : Nat) (P : List Nat) : List Nat :=
  MAGIC_STRING ++ (ext ++ [42]) ++ (decimal n ++ [42]) ++ cstr (P ++ [42, 0])

/-- The bytes of the output image once the text `t` is stamped on the source
image `img` and the rest of the source is copied: the output before the pixel
data offset (the first `width * height * 3` bytes of the source, then zeros),
the stamped blocks, the rest of the source. -/
def encoded_image (img t : List Nat) : List Nat :=
  (padded (img.take (image_capacity (bmp_width img) (bmp_height img)))
      (pixel_data_offset img)).take (pixel_data_offset img)
    ++ stamp t (img.drop (pixel_data_offset img))
    ++ img.drop (pixel_data_offset img + 8 * t.length)

/-- The size of the secret message computed by `do_encoding`: the byte count
of the payload in `uint` arithmetic. -/
def secret_size (P : List Nat) : Nat := P.length % 4294967296

/-- The text of the frame stamped by `do_encoding` for a payload and the name
of its file. -/
def encoder_frame (P fname : List Nat) : List Nat :=
  frame_text (get_file_extension fname).2 (secret_size P) (P.take (secret_size P))

/-- The conditions under which the encoder runs to the end on a source image,
a payload and the name of the payload file. -/
def encode_conditions (img P fname : List Nat) : Prop :=
  secret_size P ≠ 0 ∧ 26 ≤ img.length ∧
  capacity_check (image_capacity (bmp_width img) (bmp_height img)) (secret_size P) = true ∧
  image_capacity (bmp_width img) (bmp_height img) < 2147483648 ∧
  image_capacity (bmp_width img) (bmp_height img) ≤ img.length ∧
  pixel_data_offset img < 2147483648 ∧
  (get_file_extension fname).1 = Status.e_success ∧
  (decimal (secret_size P)).length + 2 ≤ 9 ∧
  pixel_data_offset img + 8 * (encoder_frame P fname).length ≤ img.length

/-- A 54-byte BMP header with the given pixel data offset, width and height
(each below 256): signature, sizes, offset at byte 10, width at byte 18, height
at byte 22, one plane, 24 bits per pixel. -/
def bmp_header (off w h : Nat) : List Nat :=
  [66, 77, 0, 0, 0, 0, 0, 0, 0, 0] ++ [off, 0, 0, 0] ++ [40, 0, 0, 0] ++ [w, 0, 0, 0]
    ++ [h, 0, 0, 0] ++ [1, 0, 24, 0] ++ List.replicate 24 0

/-- An 8 by 8 image: the header, then 192 pixel bytes `0xFF`. -/
def small_image : List Nat := bmp_header 54 8 8 ++ List.replicate 192 255

/-- An 8 by 8 image whose pixel data starts at byte 200: the header, 146 bytes
`0xFF` between the header and the pixel data, then 192 pixel bytes `0xFF`. -/
def gap_image : List Nat :=
  bmp_header 200 8 8 ++ List.replicate 146 255 ++ List.replicate 192 255

/-- Sixteen pixel bytes whose low bits, read block by block, are those of the
characters `#` (`0x23`) and `*` (`0x2A`). -/
def magic_pixels : List Nat :=
  [255, 255, 254, 254, 254, 255, 254, 254, 254, 255, 254, 255, 254, 255, 254, 254]

/-- A 2 by 2 image of 70 bytes: the header, then the 16 pixel bytes
`magic_pixels` (two rows of 6 bytes, each padded to 8). -/
def lookalike_image : List Nat := bmp_header 54 2 2 ++ magic_pixels

/-- A 1 by 1 image of 58 bytes: the header, one white pixel and one byte of row
padding. -/
def one_pixel_image : List Nat := bmp_header 54 1 1 ++ [255, 255, 255, 0]

/-- A 6 by 7 image: the header, then 140 pixel bytes `0xFF` (seven rows of 18
bytes, each padded to 20). Its capacity `6 * 7 * 3` is 126. -/
def image_6x7 : List Nat := bmp_header 54 6 7 ++ List.replicate 140 255

/-- A 2 by 3 image of 78 bytes whose 24 pixel bytes carry `#*t`: the file ends
right after the block of `t`. -/
def cut_extension_image : List Nat :=
  bmp_header 54 2 3 ++ stamp [35, 42, 116] (List.replicate 24 255)

/-- A 2 by 8 image of 118 bytes whose 64 pixel bytes carry `#*t*5*hi`: the size
field announces 5 bytes and the file ends after 2 blocks of payload. -/
def cut_payload_image : List Nat :=
  bmp_header 54 2 8 ++ stamp [35, 42, 116, 42, 53, 42, 104, 105] (List.replicate 64 255)

/-- A 2 by 8 image of 118 bytes whose 64 pixel bytes carry `#*t*2*hi`, with
nothing after the payload. -/
def counted_payload_image : List Nat :=
  bmp_header 54 2 8 ++ stamp [35, 42, 116, 42, 50, 42, 104, 105] (List.replicate 64 255)

/-- A 2 by 8 image of 118 bytes whose 64 pixel bytes carry `#*t*2*`, then the
payload bytes `h` and `0x00`. -/
def zero_payload_image : List Nat :=
  bmp_header 54 2 8 ++ stamp [35, 42, 116, 42, 50, 42, 104, 0] (List.replicate 64 255)

/-- A 2 by 8 image of 118 bytes whose 64 pixel bytes carry `#*jpeg*1`: an
extension of four characters. -/
def long_extension_image : List Nat :=
  bmp_header 54 2 8 ++ stamp [35, 42, 106, 112, 101, 103, 42, 49] (List.replicate 64 255)

/-! ## The characters carried by an image and the decoder on them

The definitions `decode_payload` and `decode_chars` are not translations of
functions of the code: they describe the decoder on the characters unpacked
from the image, and `do_decoding_chars` proves that `do_decoding` computes
them. -/

/-- The characters carried by the complete 8-byte blocks of `bytes`. -/
def carried (bytes : List Nat) : List Nat := unpack_blocks (bytes.length / 8) bytes

/-- The characters that the block reads of the decoder can still obtain from a
stream: none once the end-of-file indicator is set, otherwise those carried by
the complete blocks from the position on. -/
def pending (f : FILE) : List Nat := if f.eof then [] else carried (f.data.drop f.pos)

/-- What a caller observes of a run of `do_decoding`: the status, the message
printed, the extension field and the bytes of the output file (`none` when the
file was not created). -/
def decode_outcome (d : Option DecodeResult) :
    Option (Status × Option DecodeError × List Nat × Option (List Nat)) :=
  d.map (fun r => (r.status, r.message, r.decInfo.extn_secret_file,
    r.decInfo.fptr_secret.map (fun f => f.data)))

/-- The bytes that `copy_data_to_secret_data_file` writes, as a function of the
characters pending on the image stream: the size text runs up to the first `*`,
`atoi` reads the count, and the characters counted behind the separator are
written as a string. -/
def decode_payload (cs : List Nat) : Option (List Nat) :=
  let size := cs.takeWhile (fun c => c != 42)
  let rest := (cs.dropWhile (fun c => c != 42)).drop 1
  if size.length ≥ 10 then none
  else
    match atoi (size ++ [0]) with
    | none => none
    | some n => if n < 0 then none else some (cstr (rest.take n.toNat ++ [0]))

/-- What `do_decoding` observably does, as a function of the characters
carried by the image from the position `magic_start` on (`do_decoding_chars` proves
that the code computes it): the first two replace `magic_str` and are compared
with the magic string, the extension runs up to the first `*`, then the
payload follows as in `decode_payload`. -/
def decode_chars (secret_creatable : Bool) (stale : Nat × Nat) (cs : List Nat) :
    Option (Status × Option DecodeError × List Nat × Option (List Nat)) :=
  if is_magic_string [cs.getD 0 stale.1, cs.getD 1 stale.2] = Status.e_failure then
    some (Status.e_failure, some DecodeError.no_data_encoded, [], none)
  else
    let extn := (cs.drop 2).takeWhile (fun c => c != 42)
    let rest := ((cs.drop 2).dropWhile (fun c => c != 42)).drop 1
    if extn.length ≥ MAX_FILE_SUFFIX then none
    else if secret_creatable = false then
      some (Status.e_failure, some DecodeError.file_creation_failed, extn ++ [0], none)
    else
      match decode_payload rest with
      | none => none
      | some w => some (Status.e_success, none, extn ++ [0], some w)

/-- The image with bit `k` of a byte flipped. -/
def flip_bit (k b : Nat) : Nat := b ^^^ 2 ^ k

/-- The image `img` with bit `k` of the byte at position `p` flipped. -/
def flip_at (img : List Nat) (p k : Nat) : List Nat := img.set p (flip_bit k (img.getD p 0))

/-- An image with the pixel bytes of `counted_payload_image` cleared down to
their low bits: it carries `#*t*2*hi` on pixel bytes that were zero. -/
def dark_payload_image : List Nat :=
  bmp_header 54 2 8 ++ stamp [35, 42, 116, 42, 50, 42, 104, 105] (List.replicate 64 0)

/-- The value that the loop of `atoi` accumulates over the digits `ds`, from
`strToNum = acc` on. -/
def digits_value (acc : Nat) (ds : List Nat) : Nat :=
  ds.foldl (fun a d => a * 10 + (d - 48)) acc

/-- An 8 by 8 image whose pixel bytes are zero: the header, then 192 bytes
`0x00`. -/
def dark_image : List Nat := bmp_header 54 8 8 ++ List.replicate 192 0

/-- The position from which `find_magic_string` reads the magic string: the
pixel data offset when it fits an `int`; otherwise the seek fails and the
stream stays where `get_image_data_offset` left it, behind the offset field at
byte 14. -/
def magic_start (img : List Nat) : Nat :=
  if pixel_data_offset img < 2147483648 then pixel_data_offset img else 14

/-- The 8 by 8 image `small_image` with the offset field `FF FF FF FF`, which
is `-1` as an `int`: 246 bytes. -/
def negative_offset_image : List Nat :=
  small_image.take 10 ++ [255, 255, 255, 255] ++ small_image.drop 14

/-- An image of 70 bytes with the offset field `FF FF FF FF` whose bytes 14 to
53 carry `#**0*` in their low bits; all other bytes behind the field are
zero. -/
def stray_frame_image : List Nat :=
  [66, 77, 0, 0, 0, 0, 0, 0, 0, 0, 255, 255, 255, 255]
    ++ stamp [35, 42, 42, 48, 42] (List.replicate 40 0) ++ List.replicate 16 0

/-- An image of 70 bytes with the offset field `FF FF FF FF` and zero bytes
behind it. -/
def stray_blank_image : List Nat :=
  [66, 77, 0, 0, 0, 0, 0, 0, 0, 0, 255, 255, 255, 255] ++ List.replicate 56 0

/-- The summary of a run of the encoder: when `ok` holds the run succeeds and
leaves the output stream `out`, otherwise it does not succeed. -/
def Yields (res : Option EncodeResult) (ok : Prop) (out : FILE) : Prop :=
  (ok → ∃ e, res = some ⟨Status.e_success, none, e⟩ ∧ e.fptr_stego_image = some out) ∧
  (¬ ok → ∀ r, res = some r → r.status = Status.e_failure)

/-! ## Bit packing: lemmas -/

theorem length_eq_eight {c : List Nat} (h : c.length = 8) :
    ∃ c0 c1 c2 c3 c4 c5 c6 c7, c = [c0, c1, c2, c3, c4, c5, c6, c7] := by
  match c, h with
  | [c0, c1, c2, c3, c4, c5, c6, c7], _ => exact ⟨c0, c1, c2, c3, c4, c5, c6, c7, rfl⟩

theorem range_eight : List.range MAX_IMAGE_BUF_SIZE = [0, 1, 2, 3, 4, 5, 6, 7] := by
  decide

/-- The byte stored by one iteration of the packing loop, in arithmetic form. -/
theorem pack_byte_eq (data c i : Nat) :
    (((data >>> i) &&& 1) ||| ((c >>> 1) <<< 1)) % 256
      = (2 * (c / 2) + data / 2 ^ i % 2) % 256 := by
  have h1 : (data >>> i) &&& 1 = data / 2 ^ i % 2 := by
    rw [Nat.and_one_is_mod, Nat.shiftRight_eq_div_pow]
  have h2 : (c >>> 1) <<< 1 = 2 ^ 1 * (c / 2) := by
    rw [Nat.shiftLeft_eq, Nat.shiftRight_eq_div_pow]; ring
  have h3 : data / 2 ^ i % 2 < 2 ^ 1 := by
    have := Nat.mod_lt (data / 2 ^ i) (by decide : 0 < 2); simpa using this
  rw [h1, h2, Nat.lor_comm, ← Nat.mul_add_lt_is_or h3]

/-- One iteration of the unpacking loop, in arithmetic form, when the bits
gathered so far lie below bit `i`. -/
theorem unpack_step_eq (c d i : Nat) (hd : d < 2 ^ i) :
    d ||| ((c &&& 1) <<< i) = 2 ^ i * (c % 2) + d := by
  rw [Nat.and_one_is_mod, Nat.shiftLeft_eq, Nat.lor_comm, Nat.mul_comm,
    ← Nat.mul_add_lt_is_or hd]

theorem unpack_step_mod (c d i : Nat) (hd : d < 2 ^ i) (hi : i < 8) :
    (d ||| ((c &&& 1) <<< i)) % 256 = 2 ^ i * (c % 2) + d := by
  rw [unpack_step_eq c d i hd]
  apply Nat.mod_eq_of_lt
  have h2 : c % 2 < 2 := Nat.mod_lt _ (by decide)
  have h3 : 2 ^ i * (c % 2) + d < 2 ^ i * 2 := by nlinarith
  have h4 : 2 ^ (i + 1) ≤ 2 ^ 8 := Nat.pow_le_pow_right (by decide) (by omega)
  rw [Nat.pow_succ] at h4
  omega

theorem encode_byte_to_lsb_eight (b c0 c1 c2 c3 c4 c5 c6 c7 : Nat) :
    encode_byte_to_lsb b [c0, c1, c2, c3, c4, c5, c6, c7]
      = (Status.e_success,
          [(2 * (c0 / 2) + b / 2 ^ 0 % 2) % 256, (2 * (c1 / 2) + b / 2 ^ 1 % 2) % 256,
           (2 * (c2 / 2) + b / 2 ^ 2 % 2) % 256, (2 * (c3 / 2) + b / 2 ^ 3 % 2) % 256,
           (2 * (c4 / 2) + b / 2 ^ 4 % 2) % 256, (2 * (c5 / 2) + b / 2 ^ 5 % 2) % 256,
           (2 * (c6 / 2) + b / 2 ^ 6 % 2) % 256, (2 * (c7 / 2) + b / 2 ^ 7 % 2) % 256]) := by
  simp only [encode_byte_to_lsb, range_eight, List.foldl_cons, List.foldl_nil,
    encode_byte_to_lsb_step, List.set_cons_zero, List.set_cons_succ, List.getD_cons_zero,
    List.getD_cons_succ, pack_byte_eq]

theorem get_data_from_byte_array_eight (c0 c1 c2 c3 c4 c5 c6 c7 : Nat) :
    get_data_from_byte_array [c0, c1, c2, c3, c4, c5, c6, c7]
      = (Status.e_success,
          c0 % 2 + 2 * (c1 % 2) + 4 * (c2 % 2) + 8 * (c3 % 2) + 16 * (c4 % 2)
            + 32 * (c5 % 2) + 64 * (c6 % 2) + 128 * (c7 % 2)) := by
  simp only [get_data_from_byte_array, range_eight, List.foldl_cons, List.foldl_nil,
    get_data_from_byte_array_step, List.getD_cons_zero, List.getD_cons_succ]
  rw [unpack_step_mod c0 0 0 (by decide) (by decide)]
  rw [unpack_step_mod c1 _ 1 (by omega) (by decide)]
  rw [unpack_step_mod c2 _ 2 (by omega) (by decide)]
  rw [unpack_step_mod c3 _ 3 (by omega) (by decide)]
  rw [unpack_step_mod c4 _ 4 (by omega) (by decide)]
  rw [unpack_step_mod c5 _ 5 (by omega) (by decide)]
  rw [unpack_step_mod c6 _ 6 (by omega) (by decide)]
  rw [unpack_step_mod c7 _ 7 (by omega) (by decide)]
  congr 1
  omega

/-- Unpacking a packed block gives back the data byte. -/
theorem unpack_pack (b : Nat) (c : List Nat) (h : c.length = 8) :
    (get_data_from_byte_array (encode_byte_to_lsb b c).2).2 = b % 256 := by
  obtain ⟨c0, c1, c2, c3, c4, c5, c6, c7, rfl⟩ := length_eq_eight h
  rw [encode_byte_to_lsb_eight, get_data_from_byte_array_eight]
  simp only [Nat.reducePow]
  omega

/-! ## Streams: lemmas -/

theorem fread_length (n : Nat) (f : FILE) :
    (fread n f).1.length = min n (f.data.length - f.pos) := by
  simp [fread]

/-- A read that the file can satisfy returns the bytes at the position and
advances the position. -/
theorem fread_full (n : Nat) (f : FILE) (h : f.pos + n ≤ f.data.length) :
    fread n f = ((f.data.drop f.pos).take n, ⟨f.data, f.pos + n, f.eof⟩) := by
  have hl : ((f.data.drop f.pos).take n).length = n := by
    simp only [List.length_take, List.length_drop]; omega
  simp only [fread, hl, lt_irrefl, decide_False, Bool.or_false]

/-- A read that the file cannot satisfy sets the end-of-file indicator. -/
theorem fread_short (n : Nat) (f : FILE) (hn : 0 < n) (h : f.data.length < f.pos + n) :
    (fread n f).2.eof = true := by
  have hl : ((f.data.drop f.pos).take n).length < n := by
    simp only [List.length_take, List.length_drop]; omega
  simp only [fread, hl, decide_True, Bool.or_true]

theorem fread_data (n : Nat) (f : FILE) : (fread n f).2.data = f.data := rfl

/-- The loop of `get_file_size` counts the bytes left in the file. -/
theorem get_file_size_loop_eq (fuel : Nat) (d : List Nat) :
    ∀ (p size : Nat), p ≤ d.length → d.length - p < fuel →
      get_file_size_loop fuel ⟨d, p, false⟩ size
        = ((size + (d.length - p)) % 4294967296, ⟨d, d.length, true⟩) ∨
      (d.length - p = 0 ∧ get_file_size_loop fuel ⟨d, p, false⟩ size = (size, ⟨d, p, true⟩)) := by
  induction fuel with
  | zero => intro p size _ h; omega
  | succ k ih =>
    intro p size hp hk
    by_cases hlt : p < d.length
    · left
      have hr : fread 1 ⟨d, p, false⟩ = ((d.drop p).take 1, ⟨d, p + 1, false⟩) :=
        fread_full 1 ⟨d, p, false⟩ (by simpa using hlt)
      rw [get_file_size_loop, hr]
      simp only [Bool.false_eq_true, if_false]
      rcases ih (p + 1) ((size + 1) % 4294967296) (by omega) (by omega) with h1 | ⟨h0, h1⟩
      · rw [h1]
        congr 1
        omega
      · rw [h1]
        have : p + 1 = d.length := by omega
        rw [this]
        congr 1
        omega
    · right
      have hpe : p = d.length := by omega
      subst hpe
      refine ⟨by omega, ?_⟩
      have he : (fread 1 ⟨d, d.length, false⟩).2.eof = true :=
        fread_short 1 ⟨d, d.length, false⟩ (by decide) (by simp)
      have hr : (fread 1 ⟨d, d.length, false⟩).2 = ⟨d, d.length, true⟩ := by
        simp [fread]
      rw [get_file_size_loop]
      simp only [he, if_true, hr]

/-- The value of `get_file_size`: the byte count minus one, in `uint`
arithmetic. -/
theorem get_file_size_value (f : FILE) :
    (get_file_size f).1 = (f.data.length % 4294967296 + 4294967295) % 4294967296 := by
  unfold get_file_size rewind
  rcases get_file_size_loop_eq (f.data.length + 1) f.data 0 0 (by omega) (by omega)
    with h1 | ⟨h0, h1⟩
  · simp only [h1]
    omega
  · simp only [h1]
    omega

theorem get_file_size_plus_one (f : FILE) :
    ((get_file_size f).1 + 1) % 4294967296 = f.data.length % 4294967296 := by
  rw [get_file_size_value f]
  omega

/-- Writing at the end of the part `A` of a file `A ++ B` replaces the start
of `B`. -/
theorem fwrite_at (A B buf : List Nat) (e : Bool) :
    fwrite buf ⟨A ++ B, A.length, e⟩ = ⟨A ++ buf ++ B.drop buf.length, A.length + buf.length, e⟩ := by
  by_cases hb : buf = []
  · subst hb; simp [fwrite]
  · simp only [fwrite, hb, if_false, List.length_append]
    have h0 : A.length - (A.length + B.length) = 0 := by omega
    rw [h0]
    simp only [List.replicate_zero, List.append_nil, List.take_left']
    congr 1
    rw [List.drop_append_eq_append_drop]
    have h1 : A.length + buf.length - A.length = buf.length := by omega
    have h2 : List.drop (A.length + buf.length) A = [] :=
      List.drop_eq_nil_of_le (by omega)
    rw [h1, h2]
    simp

theorem padded_length (d : List Nat) (p : Nat) : p ≤ (padded d p).length := by
  simp only [padded, List.length_append, List.length_replicate]; omega

/-- A write of at least one byte at any position, in terms of `padded`. -/
theorem fwrite_padded (d buf : List Nat) (p : Nat) (e : Bool) (hb : buf ≠ []) :
    fwrite buf ⟨d, p, e⟩
      = ⟨(padded d p).take p ++ buf ++ (padded d p).drop (p + buf.length), p + buf.length, e⟩ := by
  simp only [fwrite, hb, if_false, padded]

/-! ## C strings: lemmas -/

theorem cstr_nil : cstr [] = [] := rfl

theorem cstr_cons_zero (cs : List Nat) : cstr (0 :: cs) = [] := by
  simp [cstr]

theorem cstr_cons_ne (c : Nat) (cs : List Nat) (h : c ≠ 0) : cstr (c :: cs) = c :: cstr cs := by
  simp [cstr, List.takeWhile_cons, h]

/-- A string without `.` has no extension: `strstr` returns a null pointer. -/
theorem strstr_dot_none : ∀ s : List Nat, 46 ∉ cstr s → strstr_dot s = none := by
  intro s
  induction s with
  | nil => intro _; rfl
  | cons c cs ih =>
    intro h
    by_cases hc : c = 0
    · simp [strstr_dot, hc]
    · rw [cstr_cons_ne c cs hc] at h
      simp only [List.mem_cons, not_or] at h
      have h46 : c ≠ 46 := fun e => h.1 e.symm
      simp only [strstr_dot, hc, h46, if_false]
      exact ih h.2

/-- The pointer returned by `strstr` is at the first `.` of the string. -/
theorem strstr_dot_some : ∀ (pre ext s : List Nat), cstr s = pre ++ 46 :: ext → 46 ∉ pre →
    ∃ t, strstr_dot s = some t ∧ cstr t.tail = ext := by
  intro pre
  induction pre with
  | nil =>
    intro ext s hs _
    cases s with
    | nil => simp [cstr] at hs
    | cons c cs =>
      by_cases hc : c = 0
      · subst hc; rw [cstr_cons_zero] at hs; simp at hs
      · rw [cstr_cons_ne c cs hc] at hs
        simp only [List.nil_append, List.cons.injEq] at hs
        refine ⟨c :: cs, ?_, hs.2⟩
        simp [strstr_dot, hc, hs.1]
  | cons p ps ih =>
    intro ext s hs hp
    cases s with
    | nil => simp [cstr] at hs
    | cons c cs =>
      by_cases hc : c = 0
      · subst hc; rw [cstr_cons_zero] at hs; simp at hs
      · rw [cstr_cons_ne c cs hc] at hs
        simp only [List.cons_append, List.cons.injEq] at hs
        simp only [List.mem_cons, not_or] at hp
        have h46 : c ≠ 46 := by
          rw [hs.1]; exact fun e => hp.1 e.symm
        obtain ⟨t, ht, hte⟩ := ih ext cs hs.2 hp.2
        exact ⟨t, by simp [strstr_dot, hc, h46, ht], hte⟩

/-- The value of `get_file_extension` on a name with a `.`: the extension is
the text after the first `.` of the name. -/
theorem get_file_extension_eq (pre ext s : List Nat) (hs : cstr s = pre ++ 46 :: ext)
    (hp : 46 ∉ pre) :
    get_file_extension s
      = if ext.length ≥ MAX_FILE_SUFFIX then (Status.e_failure, []) else (Status.e_success, ext) := by
  obtain ⟨t, ht, hte⟩ := strstr_dot_some pre ext s hs hp
  simp only [get_file_extension, ht, strlen, hte]

theorem get_file_extension_no_dot (s : List Nat) (h : 46 ∉ cstr s) :
    get_file_extension s = (Status.e_failure, []) := by
  simp only [get_file_extension, strstr_dot_none s h]

/-- Every string either has no `.` or splits at its first `.`. -/
theorem split_first_dot : ∀ l : List Nat, 46 ∉ l ∨ ∃ pre ext, l = pre ++ 46 :: ext ∧ 46 ∉ pre := by
  intro l
  induction l with
  | nil => left; simp
  | cons c cs ih =>
    by_cases hc : c = 46
    · right; exact ⟨[], cs, by simp [hc], by simp⟩
    · rcases ih with h | ⟨pre, ext, h1, h2⟩
      · left
        simp only [List.mem_cons, not_or]
        exact ⟨fun e => hc e.symm, h⟩
      · right
        refine ⟨c :: pre, ext, by simp [h1], ?_⟩
        simp only [List.mem_cons, not_or]
        exact ⟨fun e => hc e.symm, h2⟩

/-- A successful `get_file_extension` copies at most 3 characters, none of
them zero. -/
theorem get_file_extension_success (s : List Nat)
    (h : (get_file_extension s).1 = Status.e_success) :
    (get_file_extension s).2.length < MAX_FILE_SUFFIX ∧ 0 ∉ (get_file_extension s).2 ∧
    ∃ pre, cstr s = pre ++ 46 :: (get_file_extension s).2 ∧ 46 ∉ pre := by
  rcases split_first_dot (cstr s) with hn | ⟨pre, ext, h1, h2⟩
  · rw [get_file_extension_no_dot s hn] at h
    simp at h
  · rw [get_file_extension_eq pre ext s h1 h2] at h ⊢
    by_cases hl : ext.length ≥ MAX_FILE_SUFFIX
    · simp [hl] at h
    · simp only [hl, if_false]
      refine ⟨by omega, ?_, pre, h1, h2⟩
      intro h0
      have hm : (0 : Nat) ∈ cstr s := by rw [h1]; simp [h0]
      have := List.mem_takeWhile_imp hm
      simp at this

/-! ## Bit packing: the properties -/

/-- C1: for every data byte `b` and every 8-byte block `c`, unpacking the block
produced by `encode_byte_to_lsb b c` with `get_data_from_byte_array` succeeds
and yields `b` (modulo 256), whatever the contents of `c`. -/
theorem C1_unpack_pack_roundtrip (b : Nat) (c : List Nat) (h : c.length = 8) :
    (encode_byte_to_lsb b c).1 = Status.e_success ∧
    get_data_from_byte_array (encode_byte_to_lsb b c).2 = (Status.e_success, b % 256) := by
  refine ⟨rfl, ?_⟩
  have h2 := unpack_pack b c h
  have h1 : (get_data_from_byte_array (encode_byte_to_lsb b c).2).1 = Status.e_success := rfl
  exact Prod.ext h1 h2

/-- C1, an instance: the byte `0xA5` stamped on the all-zero block. -/
theorem C1_unpack_pack_roundtrip_witness :
    ([0, 0, 0, 0, 0, 0, 0, 0] : List Nat).length = 8 ∧
    (encode_byte_to_lsb 165 [0, 0, 0, 0, 0, 0, 0, 0]).1 = Status.e_success ∧
    get_data_from_byte_array (encode_byte_to_lsb 165 [0, 0, 0, 0, 0, 0, 0, 0]).2
      = (Status.e_success, 165 % 256) :=
  ⟨rfl, C1_unpack_pack_roundtrip 165 [0, 0, 0, 0, 0, 0, 0, 0] rfl⟩

/-- C4: for every byte `b`, every 8-byte block `c` and every `i < 8`,
`encode_byte_to_lsb b c` returns success and leaves an 8-byte block whose byte
`i` has bit `i` of `b` as its least significant bit and the upper seven bits
of `c[i]` as its upper seven bits. -/
theorem C4_encode_byte_to_lsb_bits (b : Nat) (c : List Nat) (i : Nat)
    (h : c.length = 8) (hi : i < 8) :
    (encode_byte_to_lsb b c).1 = Status.e_success ∧
    (encode_byte_to_lsb b c).2.length = 8 ∧
    (encode_byte_to_lsb b c).2.getD i 0 < 256 ∧
    (encode_byte_to_lsb b c).2.getD i 0 % 2 = b / 2 ^ i % 2 ∧
    (encode_byte_to_lsb b c).2.getD i 0 / 2 = c.getD i 0 % 256 / 2 := by
  obtain ⟨c0, c1, c2, c3, c4, c5, c6, c7, rfl⟩ := length_eq_eight h
  rw [encode_byte_to_lsb_eight]
  refine ⟨rfl, rfl, ?_⟩
  interval_cases i <;>
    simp only [List.getD_cons_zero, List.getD_cons_succ, Nat.reducePow] <;>
    omega

/-- C4, an instance: byte 6 of the block stamped with `0x40`. -/
theorem C4_encode_byte_to_lsb_bits_witness :
    ([254, 254, 254, 254, 254, 254, 254, 254] : List Nat).length = 8 ∧ 6 < 8 ∧
    (encode_byte_to_lsb 64 [254, 254, 254, 254, 254, 254, 254, 254]).2.getD 6 0 % 2
      = 64 / 2 ^ 6 % 2 :=
  ⟨rfl, by decide,
    (C4_encode_byte_to_lsb_bits 64 [254, 254, 254, 254, 254, 254, 254, 254] 6 rfl
      (by decide)).2.2.2.1⟩

/-- C5: for every 8-byte block `c`, `get_data_from_byte_array` returns success
and the data byte is the sum over `i < 8` of `(c[i] mod 2) * 2^i` (modulo 256),
so that bit `i` of the byte is the least significant bit of `c[i]`; a block with
the same least significant bits gives the same byte. The block is only read. -/
theorem C5_get_data_from_byte_array_value (c : List Nat) (h : c.length = 8) :
    get_data_from_byte_array c
      = (Status.e_success, (∑ i in Finset.range 8, c.getD i 0 % 2 * 2 ^ i) % 256) ∧
    (∀ i, i < 8 → (get_data_from_byte_array c).2 / 2 ^ i % 2 = c.getD i 0 % 2) ∧
    (∀ c2 : List Nat, c2.length = 8 → (∀ i, i < 8 → c2.getD i 0 % 2 = c.getD i 0 % 2) →
      get_data_from_byte_array c2 = get_data_from_byte_array c) := by
  obtain ⟨c0, c1, c2, c3, c4, c5, c6, c7, rfl⟩ := length_eq_eight h
  refine ⟨?_, ?_, ?_⟩
  · rw [get_data_from_byte_array_eight]
    simp only [Finset.sum_range_succ, Finset.sum_range_zero, List.getD_cons_zero,
      List.getD_cons_succ, Nat.reducePow]
    congr 1
    omega
  · intro i hi
    rw [get_data_from_byte_array_eight]
    interval_cases i <;>
      simp only [List.getD_cons_zero, List.getD_cons_succ, Nat.reducePow] <;>
      omega
  · intro d hd hbits
    obtain ⟨d0, d1, d2, d3, d4, d5, d6, d7, rfl⟩ := length_eq_eight hd
    have e0 := hbits 0 (by decide)
    have e1 := hbits 1 (by decide)
    have e2 := hbits 2 (by decide)
    have e3 := hbits 3 (by decide)
    have e4 := hbits 4 (by decide)
    have e5 := hbits 5 (by decide)
    have e6 := hbits 6 (by decide)
    have e7 := hbits 7 (by decide)
    simp only [List.getD_cons_zero, List.getD_cons_succ] at e0 e1 e2 e3 e4 e5 e6 e7
    rw [get_data_from_byte_array_eight, get_data_from_byte_array_eight,
      e0, e1, e2, e3, e4, e5, e6, e7]

/-- C5, an instance: the block whose bytes 0 and 7 are odd carries `0x81`. -/
theorem C5_get_data_from_byte_array_value_witness :
    ([255, 254, 0, 2, 4, 6, 8, 1] : List Nat).length = 8 ∧
    get_data_from_byte_array [255, 254, 0, 2, 4, 6, 8, 1]
      = (Status.e_success,
          (∑ i in Finset.range 8, [255, 254, 0, 2, 4, 6, 8, 1].getD i 0 % 2 * 2 ^ i) % 256) :=
  ⟨rfl, (C5_get_data_from_byte_array_value [255, 254, 0, 2, 4, 6, 8, 1] rfl).1⟩

/-! ## The checks of `do_encoding` -/

/-- C6: when `width * height * 3` and `(n + 2 + 4 + 9) * 8` both fit in 32 bits,
the capacity test of `do_encoding` accepts exactly when
`width * height * 3 ≥ (n + 15) * 8`. -/
theorem C6_capacity_check_iff (width height n : Nat)
    (hw : width * height * 3 < 4294967296) (hn : (n + 2 + 4 + 9) * 8 < 4294967296) :
    capacity_check (image_capacity width height) n = true
      ↔ width * height * 3 ≥ (n + 15) * 8 := by
  have hm : strlen MAGIC_STRING = 2 := by decide
  have h1 : (n + 2 + 4 + (8 + 1)) % 4294967296 = n + 15 := by
    rw [Nat.mod_eq_of_lt (by omega)]
  have h2 : ((n + 15) * 8) % 4294967296 = (n + 15) * 8 := Nat.mod_eq_of_lt (by omega)
  simp only [capacity_check, image_capacity, hm, MAX_FILE_SUFFIX, decide_eq_true_eq, h1, h2]
  rw [Nat.mod_eq_of_lt hw]

/-- C6, an instance: an 8 by 8 image holds exactly the frame of a 9-byte
payload (192 = (9 + 15) * 8). -/
theorem C6_capacity_check_iff_witness :
    8 * 8 * 3 < 4294967296 ∧ (9 + 2 + 4 + 9) * 8 < 4294967296 ∧
    (capacity_check (image_capacity 8 8) 9 = true ↔ 8 * 8 * 3 ≥ (9 + 15) * 8) :=
  ⟨by decide, by decide, C6_capacity_check_iff 8 8 9 (by decide) (by decide)⟩

theorem do_encoding_opened (src payload fname : List Nat) :
    do_encoding (some src) (some payload) true fname
      = do_encoding_checks
          { secret_fname := fname, fptr_src_image := some (fopen_rb src),
            fptr_secret := some (fopen_rb payload), fptr_stego_image := some fopen_wb,
            extn_secret_file := [], size_secret_file := 0 }
          (fopen_rb src) (fopen_rb payload) fopen_wb := by
  simp only [do_encoding, open_files, if_true]
  simp

theorem do_encoding_copy_remaining_message (e : EncodeInfo) (s d : FILE) (r : EncodeResult)
    (h : do_encoding_copy_remaining e s d = some r) :
    r.message ≠ some EncodeError.no_data_to_encode := by
  unfold do_encoding_copy_remaining at h
  simp only [] at h
  split at h <;> (simp only [Option.some.injEq] at h; subst h; simp)

theorem do_encoding_secret_data_message (e : EncodeInfo) (s d c : FILE) (r : EncodeResult)
    (h : do_encoding_secret_data e s d c = some r) :
    r.message ≠ some EncodeError.no_data_to_encode := by
  unfold do_encoding_secret_data at h
  split at h
  · simp at h
  · simp only [] at h
    split at h
    · simp only [Option.some.injEq] at h; subst h; simp
    · exact do_encoding_copy_remaining_message _ _ _ r h

theorem do_encoding_secret_size_message (e : EncodeInfo) (n : Nat) (s d c : FILE)
    (r : EncodeResult) (h : do_encoding_secret_size e n s d c = some r) :
    r.message ≠ some EncodeError.no_data_to_encode := by
  unfold do_encoding_secret_size at h
  split at h
  · simp at h
  · simp only [] at h
    split at h
    · simp only [Option.some.injEq] at h; subst h; simp
    · exact do_encoding_secret_data_message _ _ _ _ r h

theorem do_encoding_extension_message (e : EncodeInfo) (n : Nat) (s d c : FILE)
    (r : EncodeResult) (h : do_encoding_extension e n s d c = some r) :
    r.message ≠ some EncodeError.no_data_to_encode := by
  unfold do_encoding_extension at h
  simp only [] at h
  split at h
  · simp only [Option.some.injEq] at h; subst h; simp
  · split at h
    · simp at h
    · split at h
      · simp only [Option.some.injEq] at h; subst h; simp
      · exact do_encoding_secret_size_message _ _ _ _ _ r h

theorem do_encoding_magic_message (e : EncodeInfo) (n : Nat) (s d c : FILE)
    (r : EncodeResult) (h : do_encoding_magic e n s d c = some r) :
    r.message ≠ some EncodeError.no_data_to_encode := by
  unfold do_encoding_magic at h
  split at h
  · simp at h
  · simp only [] at h
    split at h
    · simp only [Option.some.injEq] at h; subst h; simp
    · exact do_encoding_extension_message _ _ _ _ _ r h

theorem do_encoding_header_message (e : EncodeInfo) (n : Nat) (s d c : FILE)
    (r : EncodeResult) (h : do_encoding_header e n s d c = some r) :
    r.message ≠ some EncodeError.no_data_to_encode := by
  unfold do_encoding_header at h
  split at h
  · simp at h
  · simp only [] at h
    split at h
    · simp only [Option.some.injEq] at h; subst h; simp
    · exact do_encoding_magic_message _ _ _ _ _ r h

/-- The size check of `do_encoding` is the only step that reports an empty
secret file, and it does so exactly when the computed size is zero. -/
theorem do_encoding_checks_no_data (e : EncodeInfo) (s c d : FILE) :
    (∃ info, do_encoding_checks e s c d
        = some ⟨Status.e_failure, some EncodeError.no_data_to_encode, info⟩)
      ↔ ((get_file_size c).1 + 1) % 4294967296 = 0 := by
  constructor
  · rintro ⟨info, h⟩
    by_contra hne
    unfold do_encoding_checks at h
    simp only [hne, if_false] at h
    split at h
    · simp at h
    · split at h
      · simp at h
      · exact do_encoding_header_message _ _ _ _ _ _ h rfl
  · intro h0
    unfold do_encoding_checks
    simp only [h0, if_true]
    exact ⟨_, rfl⟩

/-- C7: for every secret file of `n < 2^32` bytes, the byte count computed by
`do_encoding`, `get_file_size(...) + 1` in `uint` arithmetic, equals `n`, and
(the files being opened) `do_encoding` fails at the size check, reporting that
there is no data to encode, exactly when `n = 0`. -/
theorem C7_secret_size_check (src payload fname : List Nat)
    (hlen : payload.length < 4294967296) :
    ((get_file_size (fopen_rb payload)).1 + 1) % 4294967296 = payload.length ∧
    ((∃ info, do_encoding (some src) (some payload) true fname
        = some ⟨Status.e_failure, some EncodeError.no_data_to_encode, info⟩)
      ↔ payload.length = 0) := by
  have hs : ((get_file_size (fopen_rb payload)).1 + 1) % 4294967296 = payload.length := by
    rw [get_file_size_plus_one (fopen_rb payload)]
    exact Nat.mod_eq_of_lt hlen
  refine ⟨hs, ?_⟩
  rw [do_encoding_opened, do_encoding_checks_no_data, hs]

/-- C7, an instance: a secret file of three bytes. -/
theorem C7_secret_size_check_witness :
    ([104, 105, 10] : List Nat).length < 4294967296 ∧
    ((get_file_size (fopen_rb [104, 105, 10])).1 + 1) % 4294967296
      = ([104, 105, 10] : List Nat).length :=
  ⟨by decide, (C7_secret_size_check [] [104, 105, 10] [] (by decide)).1⟩

/-! ## The extension of the secret file -/

/-- C8 on the code: `get_file_extension` looks for the first `.` of the name
(`strstr`), not for the last one. On `a.b.txt` it finds `b.txt`, which is too
long, and fails; on `a.b.c` it succeeds and returns `b.c`, not `c`. -/
theorem C8_get_file_extension_first_dot :
    get_file_extension [97, 46, 98, 46, 116, 120, 116] = (Status.e_failure, []) ∧
    get_file_extension [97, 46, 98, 46, 99] = (Status.e_success, [98, 46, 99]) := by
  decide

/-- C9: `get_file_extension` fails on a name without `.` and on a name whose
extension (the text after the `.` it finds) has `MAX_FILE_SUFFIX = 4` or more
characters; when it succeeds the extension copied out has at most 3
characters, so that with its terminator it fits the 4-byte buffer. -/
theorem C9_get_file_extension_failures (file_name : List Nat) :
    (46 ∉ cstr file_name → (get_file_extension file_name).1 = Status.e_failure) ∧
    (∀ pre ext, cstr file_name = pre ++ 46 :: ext → 46 ∉ pre → ext.length ≥ MAX_FILE_SUFFIX →
      (get_file_extension file_name).1 = Status.e_failure) ∧
    ((get_file_extension file_name).1 = Status.e_success →
      (get_file_extension file_name).2.length ≤ 3 ∧
      (get_file_extension file_name).2.length + 1 ≤ MAX_FILE_SUFFIX) := by
  refine ⟨?_, ?_, ?_⟩
  · intro h
    rw [get_file_extension_no_dot file_name h]
  · intro pre ext hs hp hl
    rw [get_file_extension_eq pre ext file_name hs hp]
    simp [hl]
  · intro h
    have := (get_file_extension_success file_name h).1
    simp only [MAX_FILE_SUFFIX] at this ⊢
    omega

/-- C9, instances: the names `secret` and `a.jpeg` are refused, the name
`a.txt` is accepted with a 3-character extension. -/
theorem C9_get_file_extension_failures_witness :
    (get_file_extension [115, 101, 99, 114, 101, 116]).1 = Status.e_failure ∧
    (get_file_extension [97, 46, 106, 112, 101, 103]).1 = Status.e_failure ∧
    (get_file_extension [97, 46, 116, 120, 116]).2.length ≤ 3 :=
  ⟨(C9_get_file_extension_failures [115, 101, 99, 114, 101, 116]).1 (by decide),
   (C9_get_file_extension_failures [97, 46, 106, 112, 101, 103]).2.1 [97] [106, 112, 101, 103]
     (by decide) (by decide) (by decide),
   ((C9_get_file_extension_failures [97, 46, 116, 120, 116]).2.2 (by decide)).1⟩

/-! ## Stamping a text: lemmas -/

theorem foldl_step_length (b : Nat) (l : List Nat) :
    ∀ c : List Nat, (l.foldl (encode_byte_to_lsb_step b) c).length = c.length := by
  induction l with
  | nil => intro c; rfl
  | cons i is ih =>
    intro c
    rw [List.foldl_cons, ih]
    simp [encode_byte_to_lsb_step]

theorem encode_byte_to_lsb_length (b : Nat) (c : List Nat) :
    (encode_byte_to_lsb b c).2.length = c.length := by
  simp only [encode_byte_to_lsb]
  exact foldl_step_length b _ c

theorem stamp_length : ∀ (s carrier : List Nat), 8 * s.length ≤ carrier.length →
    (stamp s carrier).length = 8 * s.length := by
  intro s
  induction s with
  | nil => intro _ _; rfl
  | cons ch rest ih =>
    intro carrier h
    simp only [List.length_cons] at h
    simp only [stamp, List.length_append, encode_byte_to_lsb_length, List.length_take,
      List.length_cons]
    rw [ih (carrier.drop 8) (by simp only [List.length_drop]; omega)]
    omega

theorem stamp_append : ∀ (s1 s2 carrier : List Nat),
    stamp (s1 ++ s2) carrier = stamp s1 carrier ++ stamp s2 (carrier.drop (8 * s1.length)) := by
  intro s1
  induction s1 with
  | nil => intro s2 carrier; simp [stamp]
  | cons ch rest ih =>
    intro s2 carrier
    have h8 : 8 * (rest.length + 1) = 8 + 8 * rest.length := by ring
    rw [List.cons_append]
    simp only [stamp, List.length_cons]
    rw [ih, List.drop_drop, h8, List.append_assoc]

/-- The function `encode_string_to_image`, in closed form: when the source
holds 8 bytes per character of the string from its position on, the stamped
blocks replace the bytes of the destination at its position; otherwise a block
cannot be filled. -/
theorem encode_string_to_image_eq : ∀ (s D A B : List Nat) (p : Nat) (e e2 : Bool),
    p ≤ D.length →
    encode_string_to_image s ⟨D, p, e⟩ ⟨A ++ B, A.length, e2⟩
      = if p + 8 * (cstr s).length ≤ D.length then
          some (Status.e_success, ⟨D, p + 8 * (cstr s).length, e⟩,
            ⟨A ++ stamp (cstr s) (D.drop p) ++ B.drop (8 * (cstr s).length),
              A.length + 8 * (cstr s).length, e2⟩)
        else none := by
  intro s
  induction s with
  | nil => intro D A B p e e2 hpD; simp [encode_string_to_image, cstr, stamp, hpD]
  | cons ch rest ih =>
    intro D A B p e e2 hpD
    by_cases hc : ch = 0
    · subst hc
      simp [encode_string_to_image, cstr_cons_zero, stamp, hpD]
    · rw [cstr_cons_ne ch rest hc]
      simp only [encode_string_to_image, hc, if_false, List.length_cons, MAX_IMAGE_BUF_SIZE,
        MAX_SECRET_BUF_SIZE, Nat.one_mul]
      by_cases hp : p + 8 ≤ D.length
      · rw [fread_full 8 ⟨D, p, e⟩ hp]
        have hl : ((D.drop p).take 8).length = 8 := by
          simp only [List.length_take, List.length_drop]; omega
        have hbl : (encode_byte_to_lsb ch ((D.drop p).take 8)).2.length = 8 := by
          rw [encode_byte_to_lsb_length, hl]
        simp only [hl, lt_irrefl, if_false]
        rw [fwrite_at, hbl]
        have hA : A.length + 8 = (A ++ (encode_byte_to_lsb ch ((D.drop p).take 8)).2).length := by
          rw [List.length_append, hbl]
        rw [hA, ih _ _ _ _ _ _ hp]
        by_cases hq : p + 8 + 8 * (cstr rest).length ≤ D.length
        · have hq2 : p + 8 * ((cstr rest).length + 1) ≤ D.length := by omega
          simp only [hq, hq2, if_true, stamp, List.drop_drop, List.append_assoc,
            List.length_append, hbl]
          have e1 : p + 8 + 8 * (cstr rest).length = p + 8 * ((cstr rest).length + 1) := by ring
          have e3 : 8 + 8 * (cstr rest).length = 8 * ((cstr rest).length + 1) := by ring
          have e4 : A.length + 8 + 8 * (cstr rest).length
              = A.length + 8 * ((cstr rest).length + 1) := by ring
          have e5 : 8 + p = p + 8 := by ring
          simp only [e1, e3, e4, e5]
        · have hq2 : ¬ p + 8 * ((cstr rest).length + 1) ≤ D.length := by omega
          simp only [hq, hq2, if_false]
      · have hq2 : ¬ p + 8 * ((cstr rest).length + 1) ≤ D.length := by omega
        have hl : (fread 8 ⟨D, p, e⟩).1.length < 8 := by
          rw [fread_length]; simp only []; omega
        simp only [hl, if_true, hq2, if_false]

/-- A string that needs more blocks than the source holds cannot be stamped. -/
theorem encode_string_to_image_none : ∀ (s : List Nat) (src dest : FILE),
    cstr s ≠ [] → src.data.length < src.pos + 8 * (cstr s).length →
    encode_string_to_image s src dest = none := by
  intro s
  induction s with
  | nil => intro src dest h _; simp [cstr] at h
  | cons ch rest ih =>
    intro src dest hne hlt
    by_cases hc : ch = 0
    · subst hc; simp [cstr_cons_zero] at hne
    · rw [cstr_cons_ne ch rest hc] at hlt
      simp only [encode_string_to_image, hc, if_false, MAX_IMAGE_BUF_SIZE,
        MAX_SECRET_BUF_SIZE, Nat.one_mul]
      by_cases hp : src.pos + 8 ≤ src.data.length
      · rw [fread_full 8 src hp]
        have hl : ((src.data.drop src.pos).take 8).length = 8 := by
          simp only [List.length_take, List.length_drop]; omega
        simp only [hl, lt_irrefl, if_false]
        simp only [List.length_cons] at hlt
        have hr : cstr rest ≠ [] := by
          intro h0
          rw [h0] at hlt
          simp only [List.length_nil] at hlt
          omega
        exact ih _ _ hr (by simp only []; omega)
      · have hl : (fread 8 src).1.length < 8 := by
          rw [fread_length]; omega
        simp only [hl, if_true]

theorem padded_padded (d : List Nat) (p : Nat) : padded (padded d p) p = padded d p := by
  have h := padded_length d p
  simp only [padded] at h ⊢
  have h0 : p - (d ++ List.replicate (p - d.length) 0).length = 0 := by omega
  rw [h0]
  simp

/-- The first block of a string may be written behind the end of the output:
the gap is filled with zeros. -/
theorem encode_string_to_image_padded (ch : Nat) (rest : List Nat) (src : FILE)
    (d : List Nat) (p : Nat) (e : Bool) (hc : ch ≠ 0) :
    encode_string_to_image (ch :: rest) src ⟨d, p, e⟩
      = encode_string_to_image (ch :: rest) src ⟨padded d p, p, e⟩ := by
  simp only [encode_string_to_image, hc, if_false, MAX_IMAGE_BUF_SIZE,
    MAX_SECRET_BUF_SIZE, Nat.one_mul]
  by_cases hl : (fread 8 src).1.length < 8
  · simp only [hl, if_true]
  · simp only [hl, if_false]
    have hb : (encode_byte_to_lsb ch (fread 8 src).1).2 ≠ [] := by
      intro h0
      have := encode_byte_to_lsb_length ch (fread 8 src).1
      rw [h0] at this
      simp only [List.length_nil] at this
      omega
    rw [fwrite_padded d _ p e hb, fwrite_padded (padded d p) _ p e hb, padded_padded]

theorem stamped_zero (H R D : List Nat) (off : Nat) (hH : H.length = off) :
    stamped H R D off [] = ⟨H ++ R, H.length, false⟩ := by
  simp [stamped, stamp, hH]

/-- One call of `encode_string_to_image` on the output stream of a frame in
progress extends the stamped text by the string. -/
theorem encode_string_to_image_stamped (s H R D t : List Nat) (off : Nat) (e : Bool)
    (hH : H.length = off) (ht : off + 8 * t.length ≤ D.length) :
    encode_string_to_image s ⟨D, off + 8 * t.length, e⟩ (stamped H R D off t)
      = if off + 8 * (t ++ cstr s).length ≤ D.length then
          some (Status.e_success, ⟨D, off + 8 * (t ++ cstr s).length, e⟩,
            stamped H R D off (t ++ cstr s))
        else none := by
  have hst : (stamp t (D.drop off)).length = 8 * t.length :=
    stamp_length t _ (by simp only [List.length_drop]; omega)
  have hA : (H ++ stamp t (D.drop off)).length = off + 8 * t.length := by
    rw [List.length_append, hst, hH]
  have h := encode_string_to_image_eq s D (H ++ stamp t (D.drop off)) (R.drop (8 * t.length))
    (off + 8 * t.length) e false ht
  rw [hA] at h
  simp only [stamped]
  rw [h]
  have e1 : off + 8 * t.length + 8 * (cstr s).length = off + 8 * (t ++ cstr s).length := by
    rw [List.length_append]; ring
  have e2 : 8 * t.length + 8 * (cstr s).length = 8 * (t ++ cstr s).length := by
    rw [List.length_append]; ring
  rw [e1, stamp_append, List.drop_drop, List.drop_drop, e2]
  have e3 : 8 * t.length + off = off + 8 * t.length := by ring
  simp only [e3, List.append_assoc]

/-- The loop of `copy_remaining_img_data` copies what is left of the source
over the output at its position. -/
theorem copy_remaining_img_data_loop_eq (D : List Nat) : ∀ (fuel q : Nat) (A B : List Nat) (e : Bool),
    q ≤ D.length → D.length - q < fuel →
    copy_remaining_img_data_loop fuel ⟨D, q, false⟩ ⟨A ++ B, A.length, e⟩
      = (⟨D, D.length, true⟩,
          ⟨A ++ D.drop q ++ B.drop (D.length - q), A.length + (D.length - q), e⟩) := by
  intro fuel
  induction fuel with
  | zero => intro q A B e _ h; omega
  | succ k ih =>
    intro q A B e hq hk
    by_cases hlt : q < D.length
    · have hr : fread 1 ⟨D, q, false⟩ = ((D.drop q).take 1, ⟨D, q + 1, false⟩) :=
        fread_full 1 ⟨D, q, false⟩ (by simpa using hlt)
      have hl : ((D.drop q).take 1).length = 1 := by
        simp only [List.length_take, List.length_drop]; omega
      rw [copy_remaining_img_data_loop, hr]
      simp only [Bool.false_eq_true, if_false]
      rw [fwrite_at, hl]
      have hA : A.length + 1 = (A ++ (D.drop q).take 1).length := by
        rw [List.length_append, hl]
      rw [hA, ih (q + 1) _ _ e (by omega) (by omega)]
      have hsplit : (D.drop q).take 1 ++ D.drop (q + 1) = D.drop q := by
        have := List.take_append_drop 1 (D.drop q)
        rw [List.drop_drop] at this
        exact this
      have e6 : 1 + (D.length - (q + 1)) = D.length - q := by omega
      simp only [List.append_assoc, List.drop_drop, List.length_append, hl, e6]
      rw [← List.append_assoc ((D.drop q).take 1), hsplit]
      have e7 : A.length + 1 + (D.length - (q + 1)) = A.length + (D.length - q) := by omega
      rw [e7]
    · have hqe : q = D.length := by omega
      subst hqe
      have he : (fread 1 ⟨D, D.length, false⟩).2 = ⟨D, D.length, true⟩ := by
        simp [fread]
      rw [copy_remaining_img_data_loop, he]
      simp

/-! ## `itoa` and `atoi`: lemmas -/

/-- The digit loop of `itoa` produces the decimal digits, least significant
first, as ASCII characters. -/
theorem itoa_loop_eq : ∀ (fuel n : Nat), n ≤ fuel →
    itoa_loop fuel n = (Nat.digits 10 n).map (fun d => d + 48) := by
  intro fuel
  induction fuel with
  | zero =>
    intro n h
    have : n = 0 := by omega
    subst this
    simp [itoa_loop]
  | succ k ih =>
    intro n h
    by_cases h0 : n = 0
    · subst h0; simp [itoa_loop]
    · have hpos : 0 < n := Nat.pos_of_ne_zero h0
      rw [itoa_loop, if_neg h0, Nat.digits_def' (by decide) hpos, List.map_cons,
        ih (n / 10) (by omega)]

theorem cstr_append_zero : ∀ (L rest : List Nat), (∀ x ∈ L, x ≠ 0) → cstr (L ++ 0 :: rest) = L := by
  intro L
  induction L with
  | nil => intro rest _; simp [cstr]
  | cons a as ih =>
    intro rest h
    have ha : a ≠ 0 := h a (by simp)
    rw [List.cons_append, cstr_cons_ne a _ ha, ih rest (fun x hx => h x (by simp [hx]))]

theorem cstr_of_no_zero (L : List Nat) (h : ∀ x ∈ L, x ≠ 0) : cstr L = L := by
  induction L with
  | nil => rfl
  | cons a as ih =>
    rw [cstr_cons_ne a _ (h a (by simp)), ih (fun x hx => h x (by simp [hx]))]

theorem cstr_append_of_no_zero (L rest : List Nat) (h : ∀ x ∈ L, x ≠ 0) :
    cstr (L ++ rest) = L ++ cstr rest := by
  induction L with
  | nil => rfl
  | cons a as ih =>
    rw [List.cons_append, cstr_cons_ne a _ (h a (by simp)), ih (fun x hx => h x (by simp [hx]))]
    rfl

/-- One swap of the reversing loop of `itoa` exchanges the two ends of the
part that is still to be reversed. -/
theorem itoa_swap_ends (X M Y S : List Nat) (a b : Nat) (hXY : X.length = Y.length) :
    itoa_swap (X.length + (M.length + 2) + Y.length) (X ++ a :: (M ++ b :: (Y ++ S))) X.length
      = X ++ b :: (M ++ a :: (Y ++ S)) := by
  have hj : X.length + (M.length + 2) + Y.length - X.length - 1 = X.length + (M.length + 1) := by
    omega
  simp only [itoa_swap, hj]
  rw [List.getD_append_right _ _ _ _ (le_refl _), Nat.sub_self, List.getD_cons_zero]
  rw [List.getD_append_right _ _ _ _ (by omega)]
  have h1 : X.length + (M.length + 1) - X.length = M.length + 1 := by omega
  rw [h1, List.getD_cons_succ, List.getD_append_right _ _ _ _ (le_refl _), Nat.sub_self,
    List.getD_cons_zero]
  rw [List.set_append_right _ _ (le_refl _), Nat.sub_self, List.set_cons_zero]
  rw [List.set_append_right _ _ (by omega), h1, List.set_cons_succ,
    List.set_append_right _ _ (le_refl _), Nat.sub_self, List.set_cons_zero]

/-- The reversing loop of `itoa` reverses the middle part of the buffer. -/
theorem itoa_reverse_loop : ∀ (n : Nat) (M : List Nat), M.length = n →
    ∀ (X Y S : List Nat), X.length = Y.length →
      (List.range' X.length (M.length / 2)).foldl (itoa_swap (X.length + M.length + Y.length))
          (X ++ (M ++ (Y ++ S)))
        = X ++ (M.reverse ++ (Y ++ S)) := by
  intro n
  induction n using Nat.strong_induction_on with
  | _ n ih =>
    intro M hM X Y S hXY
    cases M with
    | nil => simp
    | cons a M1 =>
      rcases List.eq_nil_or_concat M1 with h1 | ⟨M2, b, h1⟩
      · subst h1; simp
      · rw [List.concat_eq_append] at h1
        subst h1
        have hlen : (a :: (M2 ++ [b])).length = M2.length + 2 := by simp
        have hhalf : (M2.length + 2) / 2 = M2.length / 2 + 1 := by omega
        rw [hlen, hhalf, List.range'_succ, List.foldl_cons]
        have hsw := itoa_swap_ends X M2 Y S a b hXY
        have e1 : X ++ (a :: (M2 ++ [b]) ++ (Y ++ S)) = X ++ a :: (M2 ++ b :: (Y ++ S)) := by
          simp
        rw [e1, hsw]
        have e2 : X ++ b :: (M2 ++ a :: (Y ++ S)) = (X ++ [b]) ++ (M2 ++ ((a :: Y) ++ S)) := by
          simp
        have e3 : X.length + (M2.length + 2) + Y.length
            = (X ++ [b]).length + M2.length + (a :: Y).length := by
          simp only [List.length_append, List.length_cons, List.length_nil]; omega
        have e4 : X.length + 1 = (X ++ [b]).length := by simp
        rw [e2, e3, e4]
        have hn : M2.length < n := by rw [← hM, hlen]; omega
        rw [ih M2.length hn M2 rfl (X ++ [b]) (a :: Y) S (by simp [hXY])]
        simp

/-- The string left by `itoa`: the decimal digits of the number, most
significant first; for 0 it is the empty string. -/
theorem cstr_itoa (n : Nat) : cstr (itoa n) = decimal n := by
  have hL : itoa_loop n n = (Nat.digits 10 n).map (fun d => d + 48) := itoa_loop_eq n n (le_refl _)
  have hnz : ∀ x ∈ (Nat.digits 10 n).map (fun d => d + 48), x ≠ 0 := by
    intro x hx
    simp only [List.mem_map] at hx
    obtain ⟨d, _, rfl⟩ := hx
    omega
  have hnzr : ∀ x ∈ ((Nat.digits 10 n).map (fun d => d + 48)).reverse, x ≠ 0 := by
    intro x hx
    exact hnz x (List.mem_reverse.mp hx)
  simp only [itoa, hL]
  generalize hT : (if n = 0 then [48, 0] else ([] : List Nat)).drop
    (((Nat.digits 10 n).map (fun d => d + 48)).length + 1) = T
  have hstr : strlen ((Nat.digits 10 n).map (fun d => d + 48) ++ [0] ++ T)
      = ((Nat.digits 10 n).map (fun d => d + 48)).length := by
    simp only [strlen, List.append_assoc, List.singleton_append]
    rw [cstr_append_zero _ _ hnz]
  rw [hstr]
  have h := itoa_reverse_loop _ ((Nat.digits 10 n).map (fun d => d + 48)) rfl [] [] ([0] ++ T) rfl
  simp only [List.length_nil, Nat.zero_add, Nat.add_zero, List.nil_append] at h
  rw [← List.range_eq_range'] at h
  rw [List.append_assoc, h]
  simp only [List.singleton_append]
  rw [cstr_append_zero _ _ hnzr]
  rfl

/-! ## The steps of the encoder in closed form -/

theorem le32_lt (b : List Nat) : le32 b < 4294967296 := by
  simp only [le32]; omega

theorem to_int_of_lt (u : Nat) (h : u < 2147483648) : to_int u = (u : Int) := by
  have h1 : u % 4294967296 = u := Nat.mod_eq_of_lt (by omega)
  simp only [to_int, h1, h, if_true]

theorem to_int_neg (u : Nat) (h1 : 2147483648 ≤ u) (h2 : u < 4294967296) : to_int u < 0 := by
  have h3 : u % 4294967296 = u := Nat.mod_eq_of_lt h2
  have h4 : ¬ u < 2147483648 := by omega
  simp only [to_int, h3, h4, if_false]
  omega

theorem get_image_size_for_bmp_eq (f : FILE) :
    get_image_size_for_bmp f
      = if 26 ≤ f.data.length then
          some (image_capacity (bmp_width f.data) (bmp_height f.data), ⟨f.data, 26, false⟩)
        else none := by
  by_cases h : 26 ≤ f.data.length
  · have hw : fread 4 (fseek_set (rewind f) 18)
        = ((f.data.drop 18).take 4, ⟨f.data, 22, false⟩) :=
      fread_full 4 (fseek_set (rewind f) 18) (by simp only [fseek_set, rewind]; omega)
    have hh : fread 4 ⟨f.data, 22, false⟩ = ((f.data.drop 22).take 4, ⟨f.data, 26, false⟩) :=
      fread_full 4 ⟨f.data, 22, false⟩ (by simp only []; omega)
    have l1 : ((f.data.drop 18).take 4).length = 4 := by
      simp only [List.length_take, List.length_drop]; omega
    have l2 : ((f.data.drop 22).take 4).length = 4 := by
      simp only [List.length_take, List.length_drop]; omega
    simp only [get_image_size_for_bmp, hw, hh, l1, l2, lt_irrefl, or_self, if_false, h, if_true,
      bmp_width, bmp_height]
  · simp only [h, if_false, get_image_size_for_bmp]
    have hl : (fread 4 (fseek_set (rewind f) 18)).1.length < 4 ∨
        (fread 4 (fread 4 (fseek_set (rewind f) 18)).2).1.length < 4 := by
      simp only [fread_length, fread, fseek_set, rewind, List.length_take, List.length_drop]
      omega
    simp only [hl, if_true]

theorem get_image_data_offset_eq (f : FILE) :
    get_image_data_offset f
      = if 14 ≤ f.data.length then
          some (to_int (pixel_data_offset f.data), ⟨f.data, 14, false⟩)
        else none := by
  by_cases h : 14 ≤ f.data.length
  · have hr : fread 4 (fseek_set f 10) = ((f.data.drop 10).take 4, ⟨f.data, 14, false⟩) :=
      fread_full 4 (fseek_set f 10) (by simp only [fseek_set]; omega)
    have l1 : ((f.data.drop 10).take 4).length = 4 := by
      simp only [List.length_take, List.length_drop]; omega
    simp only [get_image_data_offset, hr, l1, lt_irrefl, if_false, h, if_true, pixel_data_offset]
  · have hl : (fread 4 (fseek_set f 10)).1.length < 4 := by
      simp only [fread_length, fseek_set]; omega
    simp only [get_image_data_offset, hl, if_true, h, if_false]

/-- The function `copy_bmp_header` on a fresh output file: the first
`width * height * 3` bytes of the source are copied. -/
theorem copy_bmp_header_eq (f : FILE) :
    copy_bmp_header f fopen_wb
      = if 26 ≤ f.data.length ∧ image_capacity (bmp_width f.data) (bmp_height f.data) < 2147483648
            ∧ image_capacity (bmp_width f.data) (bmp_height f.data) ≤ f.data.length then
          some (Status.e_success,
            ⟨f.data, image_capacity (bmp_width f.data) (bmp_height f.data), false⟩,
            ⟨f.data.take (image_capacity (bmp_width f.data) (bmp_height f.data)),
              image_capacity (bmp_width f.data) (bmp_height f.data), false⟩)
        else none := by
  generalize hcap : image_capacity (bmp_width f.data) (bmp_height f.data) = cap
  have hcap32 : cap < 4294967296 := by
    rw [← hcap]; simp only [image_capacity]; omega
  simp only [copy_bmp_header, get_image_size_for_bmp_eq, hcap]
  by_cases h26 : 26 ≤ f.data.length
  · simp only [h26, if_true, true_and]
    by_cases h31 : cap < 2147483648
    · have hneg : ¬ to_int cap < 0 := by rw [to_int_of_lt cap h31]; omega
      have hnat : (to_int cap).toNat = cap := by rw [to_int_of_lt cap h31]; simp
      simp only [hneg, if_false, hnat, h31, true_and, rewind]
      by_cases hle : cap ≤ f.data.length
      · have hr : fread cap ⟨f.data, 0, false⟩ = ((f.data.drop 0).take cap, ⟨f.data, 0 + cap, false⟩) :=
          fread_full cap ⟨f.data, 0, false⟩ (by simp only []; omega)
        have hl : (f.data.take cap).length = cap := by
          simp only [List.length_take]; omega
        have hw := fwrite_at [] [] (f.data.take cap) false
        simp only [List.nil_append, List.length_nil, List.drop_nil, List.append_nil, hl,
          Nat.zero_add] at hw
        simp only [hr, List.drop_zero, hl, lt_irrefl, if_false, hle, if_true, Nat.zero_add,
          fopen_wb, hw]
      · have hl : (fread cap ⟨f.data, 0, false⟩).1.length < cap := by
          rw [fread_length]; simp only []; omega
        simp only [hl, if_true, hle, if_false]
    · have hneg : to_int cap < 0 := to_int_neg cap (by omega) hcap32
      simp only [hneg, if_true, h31, false_and, if_false]
  · simp only [h26, if_false, false_and]

theorem take_padded_length (d : List Nat) (p : Nat) : ((padded d p).take p).length = p := by
  have := padded_length d p
  simp only [List.length_take]; omega

theorem cstr_magic : cstr MAGIC_STRING = MAGIC_STRING := by decide

/-- The function `encode_magic_string`: both streams are moved to the pixel
data offset `off` of the source and the two characters of the magic string are
stamped there. -/
theorem encode_magic_string_eq (f : FILE) (d : List Nat) (pd : Nat) (ed : Bool)
    (h31 : pixel_data_offset f.data < 2147483648) :
    encode_magic_string f ⟨d, pd, ed⟩
      = if 14 ≤ f.data.length ∧ pixel_data_offset f.data < 2147483648
            ∧ pixel_data_offset f.data + 8 * MAGIC_STRING.length ≤ f.data.length then
          some (Status.e_success,
            ⟨f.data, pixel_data_offset f.data + 8 * MAGIC_STRING.length, false⟩,
            stamped ((padded d (pixel_data_offset f.data)).take (pixel_data_offset f.data))
              ((padded d (pixel_data_offset f.data)).drop (pixel_data_offset f.data))
              f.data (pixel_data_offset f.data) MAGIC_STRING)
        else none := by
  generalize hoff : pixel_data_offset f.data = off at h31 ⊢
  simp only [encode_magic_string, get_image_data_offset_eq, hoff]
  by_cases h14 : 14 ≤ f.data.length
  · simp only [h14, if_true, true_and]
    · have hneg : ¬ to_int off < 0 := by rw [to_int_of_lt off h31]; omega
      have hnat : (to_int off).toNat = off := by rw [to_int_of_lt off h31]; simp
      simp only [hneg, if_false, hnat, h31, true_and, fseek_set]
      have hm : MAGIC_STRING = 35 :: [42] := rfl
      have hH := take_padded_length d off
      have hz := stamped_zero ((padded d off).take off) ((padded d off).drop off) f.data off hH
      rw [List.take_append_drop, hH] at hz
      by_cases hle : off + 8 * MAGIC_STRING.length ≤ f.data.length
      · have h0 : off + 8 * ([] : List Nat).length ≤ f.data.length := by
          simp only [List.length_nil] at *; omega
        have hs := encode_string_to_image_stamped MAGIC_STRING ((padded d off).take off)
          ((padded d off).drop off) f.data [] off false hH h0
        simp only [List.length_nil, Nat.mul_zero, Nat.add_zero, List.nil_append, cstr_magic, hz,
          hle, if_true] at hs
        simp only [hle, if_true]
        rw [← hs, hm, encode_string_to_image_padded 35 [42] _ d off false (by decide)]
      · simp only [hle, if_false]
        exact encode_string_to_image_none _ _ _ (by decide) (by
          simp only [cstr_magic]; omega)
  · simp only [h14, if_false, false_and]

/-- The function `encode_secret_file_extn` on a frame in progress: the
extension and the separator are appended to the stamped text. -/
theorem encode_secret_file_extn_eq (ext H R D t : List Nat) (off : Nat)
    (hH : H.length = off) (ht : off + 8 * t.length ≤ D.length) (hz : ∀ x ∈ ext, x ≠ 0) :
    encode_secret_file_extn ext ⟨D, off + 8 * t.length, false⟩ (stamped H R D off t)
      = if off + 8 * (t ++ (ext ++ [42])).length ≤ D.length then
          some (Status.e_success, ⟨D, off + 8 * (t ++ (ext ++ [42])).length, false⟩,
            stamped H R D off (t ++ (ext ++ [42])))
        else none := by
  have hc : cstr ext = ext := cstr_of_no_zero ext hz
  have hsep : cstr ENC_DATA_SEPARATOR_STRING = [42] := by decide
  simp only [encode_secret_file_extn]
  rw [encode_string_to_image_stamped ext H R D t off false hH ht, hc]
  by_cases h1 : off + 8 * (t ++ ext).length ≤ D.length
  · simp only [h1, if_true]
    rw [encode_string_to_image_stamped _ H R D (t ++ ext) off false hH h1, hsep,
      List.append_assoc]
    by_cases h2 : off + 8 * (t ++ (ext ++ [42])).length ≤ D.length
    · simp only [h2, if_true, status_and]
    · simp only [h2, if_false]
  · have h2 : ¬ off + 8 * (t ++ (ext ++ [42])).length ≤ D.length := by
      simp only [List.length_append, List.length_cons, List.length_nil] at h1 ⊢
      omega
    simp only [h1, h2, if_false]

theorem decimal_ne_zero (n : Nat) : ∀ x ∈ decimal n, x ≠ 0 := by
  intro x hx
  simp only [decimal, List.mem_reverse, List.mem_map] at hx
  obtain ⟨d, _, rfl⟩ := hx
  omega

/-- The function `encode_secret_file_size` on a frame in progress: the decimal
digits of the size and the separator are appended to the stamped text, when
they fit the 9-byte array. -/
theorem encode_secret_file_size_eq (n : Nat) (H R D t : List Nat) (off : Nat)
    (hH : H.length = off) (ht : off + 8 * t.length ≤ D.length) (hn : n ≠ 0) :
    encode_secret_file_size n ⟨D, off + 8 * t.length, false⟩ (stamped H R D off t)
      = if (decimal n).length + 2 > 9 then none
        else if off + 8 * (t ++ (decimal n ++ [42])).length ≤ D.length then
          some (Status.e_success, ⟨D, off + 8 * (t ++ (decimal n ++ [42])).length, false⟩,
            stamped H R D off (t ++ (decimal n ++ [42])))
        else none := by
  have hz : ∀ x ∈ decimal n ++ [42], x ≠ 0 := by
    intro x hx
    rcases List.mem_append.mp hx with h | h
    · exact decimal_ne_zero n x h
    · simp only [List.mem_singleton] at h; omega
  have hc : cstr (decimal n ++ ENC_DATA_SEPARATOR_STRING ++ [0]) = decimal n ++ [42] :=
    cstr_append_zero (decimal n ++ [42]) [] hz
  simp only [encode_secret_file_size, hn, if_false, strlen, cstr_itoa]
  by_cases hd : (decimal n).length + 2 > 8 + 1
  · simp only [hd, if_true]
  · simp only [hd, if_false]
    rw [encode_string_to_image_stamped _ H R D t off false hH ht, hc]

/-- The function `encode_secret_file_data` on a frame in progress: the string
made of the first `m` bytes of the payload and of the separator is appended to
the stamped text. -/
theorem encode_secret_file_data_eq (P H R D t : List Nat) (m off ps : Nat) (es : Bool)
    (hH : H.length = off) (ht : off + 8 * t.length ≤ D.length) (hm : m ≤ P.length) :
    encode_secret_file_data m ⟨D, off + 8 * t.length, false⟩ (stamped H R D off t)
        ⟨P, ps, es⟩
      = if off + 8 * (t ++ cstr (P.take m ++ [42, 0])).length ≤ D.length then
          some (Status.e_success, ⟨D, off + 8 * (t ++ cstr (P.take m ++ [42, 0])).length, false⟩,
            stamped H R D off (t ++ cstr (P.take m ++ [42, 0])), ⟨P, m, false⟩)
        else none := by
  have hr : fread m (rewind ⟨P, ps, es⟩) = ((P.drop 0).take m, ⟨P, 0 + m, false⟩) :=
    fread_full m (rewind ⟨P, ps, es⟩) (by simp only [rewind]; omega)
  have hsep : ENC_DATA_SEPARATOR_STRING.headD 0 = 42 := rfl
  have hl : (P.take m).length = m := by simp only [List.length_take]; omega
  simp only [encode_secret_file_data, hr, List.drop_zero, hl, lt_irrefl, if_false,
    hsep, Nat.zero_add]
  rw [encode_string_to_image_stamped _ H R D t off false hH ht]
  by_cases h1 : off + 8 * (t ++ cstr (P.take m ++ [42, 0])).length ≤ D.length
  · simp only [h1, if_true]
  · simp only [h1, if_false]

/-- The function `copy_remaining_img_data` on a finished frame. -/
theorem copy_remaining_img_data_eq (H R D t : List Nat) (off : Nat)
    (hH : H.length = off) (ht : off + 8 * t.length ≤ D.length) :
    copy_remaining_img_data ⟨D, off + 8 * t.length, false⟩ (stamped H R D off t)
      = (Status.e_success, ⟨D, D.length, true⟩,
          ⟨H ++ stamp t (D.drop off) ++ D.drop (off + 8 * t.length)
              ++ (R.drop (8 * t.length)).drop (D.length - (off + 8 * t.length)),
            D.length, false⟩) := by
  have hst : (stamp t (D.drop off)).length = 8 * t.length :=
    stamp_length t _ (by simp only [List.length_drop]; omega)
  have hA : (H ++ stamp t (D.drop off)).length = off + 8 * t.length := by
    rw [List.length_append, hst, hH]
  have h := copy_remaining_img_data_loop_eq D (D.length + 1) (off + 8 * t.length)
    (H ++ stamp t (D.drop off)) (R.drop (8 * t.length)) false ht (by omega)
  rw [hA] at h
  have e1 : off + 8 * t.length + (D.length - (off + 8 * t.length)) = D.length := by omega
  rw [e1] at h
  simp only [copy_remaining_img_data, stamped, h]

/-! ## The run of the encoder -/

theorem yields_of_if_none (res next : Option EncodeResult) (c ok : Prop) [Decidable c]
    (out : FILE) (h : res = if c then next else none) (hn : c → Yields next ok out) :
    Yields res (c ∧ ok) out := by
  constructor
  · rintro ⟨hc, hok⟩
    rw [h, if_pos hc]
    exact (hn hc).1 hok
  · intro hnot r hr
    by_cases hc : c
    · rw [h, if_pos hc] at hr
      exact (hn hc).2 (fun hok => hnot ⟨hc, hok⟩) r hr
    · rw [h, if_neg hc] at hr
      simp at hr

theorem do_encoding_copy_remaining_yields (e : EncodeInfo) (H R D t : List Nat) (off : Nat)
    (hH : H.length = off) (ht : off + 8 * t.length ≤ D.length) :
    Yields (do_encoding_copy_remaining e ⟨D, off + 8 * t.length, false⟩ (stamped H R D off t))
      True
      ⟨H ++ stamp t (D.drop off) ++ D.drop (off + 8 * t.length)
          ++ (R.drop (8 * t.length)).drop (D.length - (off + 8 * t.length)), D.length, false⟩ := by
  constructor
  · intro _
    simp only [do_encoding_copy_remaining, copy_remaining_img_data_eq H R D t off hH ht]
    rw [if_neg (by decide)]
    exact ⟨_, rfl, rfl⟩
  · intro h; exact absurd trivial h

theorem do_encoding_secret_data_yields (e : EncodeInfo) (P H R D t : List Nat) (m off ps : Nat)
    (es : Bool) (hH : H.length = off) (ht : off + 8 * t.length ≤ D.length)
    (hsz : e.size_secret_file = m) (hm : m ≤ P.length) :
    Yields (do_encoding_secret_data e ⟨D, off + 8 * t.length, false⟩ (stamped H R D off t)
        ⟨P, ps, es⟩)
      (off + 8 * (t ++ cstr (P.take m ++ [42, 0])).length ≤ D.length ∧ True)
      ⟨H ++ stamp (t ++ cstr (P.take m ++ [42, 0])) (D.drop off)
          ++ D.drop (off + 8 * (t ++ cstr (P.take m ++ [42, 0])).length)
          ++ (R.drop (8 * (t ++ cstr (P.take m ++ [42, 0])).length)).drop
              (D.length - (off + 8 * (t ++ cstr (P.take m ++ [42, 0])).length)), D.length, false⟩ := by
  have hstage : ∃ e2, do_encoding_secret_data e ⟨D, off + 8 * t.length, false⟩
      (stamped H R D off t) ⟨P, ps, es⟩
        = if off + 8 * (t ++ cstr (P.take m ++ [42, 0])).length ≤ D.length then
            do_encoding_copy_remaining e2
              ⟨D, off + 8 * (t ++ cstr (P.take m ++ [42, 0])).length, false⟩
              (stamped H R D off (t ++ cstr (P.take m ++ [42, 0])))
          else none := by
    simp only [do_encoding_secret_data, hsz, encode_secret_file_data_eq P H R D t m off ps es hH ht hm]
    by_cases h1 : off + 8 * (t ++ cstr (P.take m ++ [42, 0])).length ≤ D.length
    · simp only [h1, if_true, reduceCtorEq, if_false]
      exact ⟨_, rfl⟩
    · exact ⟨e, by simp only [h1, if_false]⟩
  obtain ⟨e2, he2⟩ := hstage
  exact yields_of_if_none _ _ _ _ _ he2
    (fun hc => do_encoding_copy_remaining_yields e2 H R D _ off hH hc)

theorem yields_of_if (res next alt : Option EncodeResult) (c ok : Prop) [Decidable c]
    (out : FILE) (h : res = if c then next else alt)
    (halt : ∀ r, alt = some r → r.status = Status.e_failure)
    (hn : c → Yields next ok out) :
    Yields res (c ∧ ok) out := by
  constructor
  · rintro ⟨hc, hok⟩
    rw [h, if_pos hc]
    exact (hn hc).1 hok
  · intro hnot r hr
    by_cases hc : c
    · rw [h, if_pos hc] at hr
      exact (hn hc).2 (fun hok => hnot ⟨hc, hok⟩) r hr
    · rw [h, if_neg hc] at hr
      exact halt r hr

theorem do_encoding_secret_size_yields (e : EncodeInfo) (P H R D t : List Nat) (m off ps : Nat)
    (es : Bool) (hH : H.length = off) (ht : off + 8 * t.length ≤ D.length)
    (hn : m ≠ 0) (hm : m ≤ P.length) :
    Yields (do_encoding_secret_size e m ⟨D, off + 8 * t.length, false⟩
        (stamped H R D off t) ⟨P, ps, es⟩)
      (((decimal m).length + 2 ≤ 9
          ∧ off + 8 * (t ++ (decimal m ++ [42])).length ≤ D.length) ∧
        off + 8 * (t ++ (decimal m ++ [42]) ++ cstr (P.take m ++ [42, 0])).length ≤ D.length
        ∧ True)
      ⟨H ++ stamp (t ++ (decimal m ++ [42]) ++ cstr (P.take m ++ [42, 0])) (D.drop off)
          ++ D.drop (off + 8 * (t ++ (decimal m ++ [42]) ++ cstr (P.take m ++ [42, 0])).length)
          ++ (R.drop (8 * (t ++ (decimal m ++ [42]) ++ cstr (P.take m ++ [42, 0])).length)).drop
              (D.length
                - (off + 8 * (t ++ (decimal m ++ [42]) ++ cstr (P.take m ++ [42, 0])).length)),
        D.length, false⟩ := by
  have hstage : ∃ e2, e2.size_secret_file = m ∧
      do_encoding_secret_size e m ⟨D, off + 8 * t.length, false⟩
        (stamped H R D off t) ⟨P, ps, es⟩
        = if (decimal m).length + 2 ≤ 9
              ∧ off + 8 * (t ++ (decimal m ++ [42])).length ≤ D.length then
            do_encoding_secret_data e2
              ⟨D, off + 8 * (t ++ (decimal m ++ [42])).length, false⟩
              (stamped H R D off (t ++ (decimal m ++ [42]))) ⟨P, ps, es⟩
          else none := by
    simp only [do_encoding_secret_size, encode_secret_file_size_eq m H R D t off hH ht hn]
    by_cases h1 : (decimal m).length + 2 > 9
    · have h2 : ¬ (decimal m).length + 2 ≤ 9 := by omega
      exact ⟨{ e with size_secret_file := m }, rfl,
        by simp only [h1, if_true, h2, false_and, if_false]⟩
    · have h2 : (decimal m).length + 2 ≤ 9 := by omega
      by_cases h3 : off + 8 * (t ++ (decimal m ++ [42])).length ≤ D.length
      · simp only [h1, if_false, h3, if_true, reduceCtorEq, h2, and_self]
        exact ⟨_, rfl, rfl⟩
      · exact ⟨{ e with size_secret_file := m }, rfl,
          by simp only [h1, if_false, h3, and_false]⟩
  obtain ⟨e2, hsz, he2⟩ := hstage
  exact yields_of_if_none _ _ _ _ _ he2
    (fun hc => do_encoding_secret_data_yields e2 P H R D _ m off ps es hH hc.2 hsz hm)

theorem do_encoding_extension_yields (e : EncodeInfo) (P H R D t : List Nat) (m off ps : Nat)
    (es : Bool) (hH : H.length = off) (ht : off + 8 * t.length ≤ D.length)
    (hn : m ≠ 0) (hm : m ≤ P.length) :
    Yields (do_encoding_extension e m ⟨D, off + 8 * t.length, false⟩
        (stamped H R D off t) ⟨P, ps, es⟩)
      (((get_file_extension e.secret_fname).1 = Status.e_success
          ∧ off + 8 * (t ++ ((get_file_extension e.secret_fname).2 ++ [42])).length ≤ D.length) ∧
        ((decimal m).length + 2 ≤ 9
          ∧ off + 8 * (t ++ ((get_file_extension e.secret_fname).2 ++ [42])
              ++ (decimal m ++ [42])).length ≤ D.length) ∧
        off + 8 * (t ++ ((get_file_extension e.secret_fname).2 ++ [42])
            ++ (decimal m ++ [42]) ++ cstr (P.take m ++ [42, 0])).length ≤ D.length
        ∧ True)
      ⟨H ++ stamp (t ++ ((get_file_extension e.secret_fname).2 ++ [42])
            ++ (decimal m ++ [42]) ++ cstr (P.take m ++ [42, 0])) (D.drop off)
          ++ D.drop (off + 8 * (t ++ ((get_file_extension e.secret_fname).2 ++ [42])
            ++ (decimal m ++ [42]) ++ cstr (P.take m ++ [42, 0])).length)
          ++ (R.drop (8 * (t ++ ((get_file_extension e.secret_fname).2 ++ [42])
            ++ (decimal m ++ [42]) ++ cstr (P.take m ++ [42, 0])).length)).drop
              (D.length - (off + 8 * (t ++ ((get_file_extension e.secret_fname).2 ++ [42])
                ++ (decimal m ++ [42]) ++ cstr (P.take m ++ [42, 0])).length)),
        D.length, false⟩ := by
  generalize hext : (get_file_extension e.secret_fname).2 = ext
  have hstage : ∃ e2, do_encoding_extension e m ⟨D, off + 8 * t.length, false⟩
        (stamped H R D off t) ⟨P, ps, es⟩
        = if (get_file_extension e.secret_fname).1 = Status.e_success
              ∧ off + 8 * (t ++ (ext ++ [42])).length ≤ D.length then
            do_encoding_secret_size e2 m
              ⟨D, off + 8 * (t ++ (ext ++ [42])).length, false⟩
              (stamped H R D off (t ++ (ext ++ [42]))) ⟨P, ps, es⟩
          else if (get_file_extension e.secret_fname).1 = Status.e_failure then
            some ⟨Status.e_failure, some EncodeError.extension_acquisition_failed, e⟩
          else none := by
    by_cases h1 : (get_file_extension e.secret_fname).1 = Status.e_failure
    · have h2 : ¬ (get_file_extension e.secret_fname).1 = Status.e_success := by
        rw [h1]; decide
      exact ⟨e, by simp only [do_encoding_extension, h1, if_true, reduceCtorEq, false_and, if_false]⟩
    · have h2 : (get_file_extension e.secret_fname).1 = Status.e_success := by
        cases hs : (get_file_extension e.secret_fname).1
        · rfl
        · exact absurd hs h1
      have hz : ∀ x ∈ ext, x ≠ 0 := by
        intro x hx h0
        rw [← hext, h0] at hx
        exact (get_file_extension_success _ h2).2.1 hx
      simp only [do_encoding_extension, h1, if_false, hext,
        encode_secret_file_extn_eq ext H R D t off hH ht hz]
      by_cases h3 : off + 8 * (t ++ (ext ++ [42])).length ≤ D.length
      · simp only [h3, if_true, reduceCtorEq, if_false, h2, and_self]
        exact ⟨_, rfl⟩
      · exact ⟨e, by simp only [h3, if_false, and_false]⟩
  obtain ⟨e2, he2⟩ := hstage
  refine yields_of_if _ _ _ _ _ _ he2 ?_
    (fun hc => do_encoding_secret_size_yields e2 P H R D _ m off ps es hH hc.2 hn hm)
  intro r hr
  split at hr
  · simp only [Option.some.injEq] at hr
    rw [← hr]
  · simp at hr

theorem do_encoding_magic_yields (e : EncodeInfo) (P D d : List Nat) (m p pd ps : Nat)
    (es ee ed : Bool) (hn : m ≠ 0) (hm : m ≤ P.length)
    (h31 : pixel_data_offset D < 2147483648) :
    ∃ ok : Prop, (ok ↔
        (14 ≤ D.length ∧ pixel_data_offset D < 2147483648) ∧
        (get_file_extension e.secret_fname).1 = Status.e_success ∧
        (decimal m).length + 2 ≤ 9 ∧
        pixel_data_offset D
          + 8 * (frame_text (get_file_extension e.secret_fname).2 m (P.take m)).length
            ≤ D.length) ∧
      Yields (do_encoding_magic e m ⟨D, p, ee⟩ ⟨d, pd, ed⟩ ⟨P, ps, es⟩) ok
        ⟨(padded d (pixel_data_offset D)).take (pixel_data_offset D)
            ++ stamp (frame_text (get_file_extension e.secret_fname).2 m (P.take m))
                (D.drop (pixel_data_offset D))
            ++ D.drop (pixel_data_offset D
                + 8 * (frame_text (get_file_extension e.secret_fname).2 m (P.take m)).length)
            ++ (((padded d (pixel_data_offset D)).drop (pixel_data_offset D)).drop
                (8 * (frame_text (get_file_extension e.secret_fname).2 m (P.take m)).length)).drop
                (D.length - (pixel_data_offset D
                  + 8 * (frame_text (get_file_extension e.secret_fname).2 m (P.take m)).length)),
          D.length, false⟩ := by
  generalize hoff : pixel_data_offset D = off at h31 ⊢
  generalize hH : (padded d off).take off = H
  generalize hR : (padded d off).drop off = R
  have hHl : H.length = off := by rw [← hH]; exact take_padded_length d off
  have hstage : ∃ e2,
      do_encoding_magic e m ⟨D, p, ee⟩ ⟨d, pd, ed⟩ ⟨P, ps, es⟩
        = (if 14 ≤ D.length ∧ off < 2147483648 ∧ off + 8 * MAGIC_STRING.length ≤ D.length then
            do_encoding_extension e2 m ⟨D, off + 8 * MAGIC_STRING.length, false⟩
              (stamped H R D off MAGIC_STRING) ⟨P, ps, es⟩
          else none) ∧ e2.secret_fname = e.secret_fname := by
    have hm := encode_magic_string_eq ⟨D, p, ee⟩ d pd ed (by rw [hoff]; exact h31)
    simp only [hoff, hH, hR] at hm
    simp only [do_encoding_magic, hm]
    by_cases h1 : 14 ≤ D.length ∧ off < 2147483648 ∧ off + 8 * MAGIC_STRING.length ≤ D.length
    · simp only [h1, and_self, if_true, reduceCtorEq, if_false]
      exact ⟨_, rfl, rfl⟩
    · exact ⟨e, by simp only [h1, if_false], rfl⟩
  obtain ⟨e2, he2, hfn⟩ := hstage
  have hy := yields_of_if_none _ _ _ _ _ he2
    (fun hc => do_encoding_extension_yields e2 P H R D MAGIC_STRING m off ps es hHl hc.2.2 hn hm)
  rw [hfn] at hy
  refine ⟨_, ?_, hy⟩
  simp only [frame_text, List.length_append, List.length_cons, List.length_nil, MAGIC_STRING]
  constructor
  · rintro ⟨⟨h1, h2, h3⟩, ⟨h4, h5⟩, ⟨h6, h7⟩, h8, _⟩
    exact ⟨⟨h1, h2⟩, h4, h6, h8⟩
  · rintro ⟨⟨h1, h2⟩, h4, h6, h8⟩
    refine ⟨⟨h1, h2, by omega⟩, ⟨h4, by omega⟩, ⟨h6, by omega⟩, h8, trivial⟩

theorem get_file_size_stream (f : FILE) : (get_file_size f).2 = ⟨f.data, f.data.length, true⟩ := by
  unfold get_file_size rewind
  rcases get_file_size_loop_eq (f.data.length + 1) f.data 0 0 (by omega) (by omega)
    with h1 | ⟨h0, h1⟩
  · simp only [h1]
  · simp only [h1]
    have : f.data.length = 0 := by omega
    rw [this]

theorem yields_congr (res : Option EncodeResult) (ok ok2 : Prop) (out out2 : FILE)
    (h : Yields res ok out) (hok : ok2 ↔ ok) (hout : ok → out = out2) : Yields res ok2 out2 := by
  constructor
  · intro h2
    obtain ⟨e, he, hs⟩ := h.1 (hok.mp h2)
    exact ⟨e, he, by rw [hs, hout (hok.mp h2)]⟩
  · intro h2
    exact h.2 (fun hk => h2 (hok.mpr hk))

theorem do_encoding_header_yields (e : EncodeInfo) (P D : List Nat) (m p ps : Nat)
    (es ee : Bool) (hn : m ≠ 0) (hm : m ≤ P.length)
    (h31 : pixel_data_offset D < 2147483648) :
    ∃ ok : Prop, (ok ↔
        (26 ≤ D.length ∧ image_capacity (bmp_width D) (bmp_height D) < 2147483648
          ∧ image_capacity (bmp_width D) (bmp_height D) ≤ D.length) ∧
        pixel_data_offset D < 2147483648 ∧
        (get_file_extension e.secret_fname).1 = Status.e_success ∧
        (decimal m).length + 2 ≤ 9 ∧
        pixel_data_offset D
          + 8 * (frame_text (get_file_extension e.secret_fname).2 m (P.take m)).length
            ≤ D.length) ∧
      Yields (do_encoding_header e m ⟨D, p, ee⟩ fopen_wb ⟨P, ps, es⟩) ok
        ⟨encoded_image D (frame_text (get_file_extension e.secret_fname).2 m (P.take m)),
          D.length, false⟩ := by
  generalize hcap : image_capacity (bmp_width D) (bmp_height D) = cap
  have hstage : ∃ e2,
      do_encoding_header e m ⟨D, p, ee⟩ fopen_wb ⟨P, ps, es⟩
        = (if 26 ≤ D.length ∧ cap < 2147483648 ∧ cap ≤ D.length then
            do_encoding_magic e2 m ⟨D, cap, false⟩ ⟨D.take cap, cap, false⟩ ⟨P, ps, es⟩
          else none) ∧ e2.secret_fname = e.secret_fname := by
    have hm := copy_bmp_header_eq ⟨D, p, ee⟩
    simp only [hcap] at hm
    simp only [do_encoding_header, hm]
    by_cases h1 : 26 ≤ D.length ∧ cap < 2147483648 ∧ cap ≤ D.length
    · simp only [h1, and_self, if_true, reduceCtorEq, if_false]
      exact ⟨_, rfl, rfl⟩
    · exact ⟨e, by simp only [h1, if_false], rfl⟩
  obtain ⟨e2, he2, hfn⟩ := hstage
  obtain ⟨ok, hok, hy⟩ := do_encoding_magic_yields e2 P D (D.take cap) m cap cap ps es false false hn hm
    h31
  rw [hfn] at hok hy
  have hy2 := yields_of_if_none _ _ _ _ _ he2 (fun _ => hy)
  refine ⟨_, Iff.rfl, yields_congr _ _ _ _ _ hy2 ?_ ?_⟩
  · rw [hok]
    constructor
    · rintro ⟨⟨h1, h2, h3⟩, h4, h5, h6, h7⟩
      exact ⟨⟨h1, h2, h3⟩, ⟨by omega, h4⟩, h5, h6, h7⟩
    · rintro ⟨⟨h1, h2, h3⟩, ⟨_, h4⟩, h5, h6, h7⟩
      exact ⟨⟨h1, h2, h3⟩, h4, h5, h6, h7⟩
  · rintro ⟨⟨h1, h2, h3⟩, hk⟩
    obtain ⟨_, _, _, h7⟩ := hok.mp hk
    have hres : (((padded (D.take cap) (pixel_data_offset D)).drop (pixel_data_offset D)).drop
        (8 * (frame_text (get_file_extension e.secret_fname).2 m (P.take m)).length)).drop
        (D.length - (pixel_data_offset D
          + 8 * (frame_text (get_file_extension e.secret_fname).2 m (P.take m)).length)) = [] := by
      rw [List.drop_drop, List.drop_drop]
      apply List.drop_eq_nil_of_le
      simp only [padded, List.length_append, List.length_take, List.length_replicate]
      omega
    rw [hres, List.append_nil]
    simp only [encoded_image, hcap]


/-- The run of `do_encoding` on a source image whose pixel data offset fits an
`int`, a payload and the name of the payload file (the files can be opened):
it succeeds exactly under `encode_conditions`, and then the output image is
the source image with the frame stamped at the pixel data offset. -/
theorem do_encoding_yields (D P fname : List Nat)
    (h31 : pixel_data_offset D < 2147483648) :
    Yields (do_encoding (some D) (some P) true fname) (encode_conditions D P fname)
      ⟨encoded_image D (encoder_frame P fname), D.length, false⟩ := by
  have hs : ((get_file_size (fopen_rb P)).1 + 1) % 4294967296 = secret_size P :=
    get_file_size_plus_one (fopen_rb P)
  have hst : (get_file_size (fopen_rb P)).2 = ⟨P, P.length, true⟩ := get_file_size_stream _
  have hm : secret_size P ≤ P.length := Nat.mod_le _ _
  rw [do_encoding_opened]
  simp only [fopen_rb] at hs hst ⊢
  generalize hmd : secret_size P = m at hs hm
  simp only [encode_conditions, encoder_frame, hmd]
  by_cases hn : m = 0
  · constructor
    · intro hc; exact absurd hn hc.1
    · intro _ r hr
      simp only [do_encoding_checks, hs, hn, if_true, Option.some.injEq] at hr
      rw [← hr]
  · by_cases h26 : 26 ≤ D.length
    · by_cases hcc : capacity_check (image_capacity (bmp_width D) (bmp_height D)) m = true
      · have hstage : ∃ e2, do_encoding_checks
            { secret_fname := fname, fptr_src_image := some ⟨D, 0, false⟩,
              fptr_secret := some ⟨P, 0, false⟩, fptr_stego_image := some fopen_wb,
              extn_secret_file := [], size_secret_file := 0 }
            ⟨D, 0, false⟩ ⟨P, 0, false⟩ fopen_wb
            = do_encoding_header e2 m ⟨D, 26, false⟩ fopen_wb ⟨P, P.length, true⟩
              ∧ e2.secret_fname = fname := by
          simp only [do_encoding_checks, hs, hn, if_false, get_image_size_for_bmp_eq,
            h26, if_true, hcc, reduceCtorEq, hst]
          exact ⟨_, rfl, rfl⟩
        obtain ⟨e2, he2, hfn⟩ := hstage
        obtain ⟨ok, hok, hy⟩ := do_encoding_header_yields e2 P D m 26 P.length true false hn hm
          h31
        rw [hfn] at hok hy
        rw [he2]
        refine yields_congr _ _ _ _ _ hy ?_ (fun _ => rfl)
        rw [hok]
        constructor
        · rintro ⟨_, _, _, h4, h5, h6, h7, h8, h9⟩
          exact ⟨⟨h26, h4, h5⟩, h6, h7, h8, h9⟩
        · rintro ⟨⟨_, h4, h5⟩, h6, h7, h8, h9⟩
          exact ⟨hn, h26, hcc, h4, h5, h6, h7, h8, h9⟩
      · constructor
        · intro hc; exact absurd hc.2.2.1 hcc
        · intro _ r hr
          have hcf : capacity_check (image_capacity (bmp_width D) (bmp_height D)) m
              = false := by
            cases hv : capacity_check (image_capacity (bmp_width D) (bmp_height D)) m
            · rfl
            · exact absurd hv hcc
          simp only [do_encoding_checks, hs, hn, if_false, get_image_size_for_bmp_eq,
            h26, if_true, hcf, Option.some.injEq] at hr
          rw [← hr]
    · constructor
      · intro hc; exact absurd hc.2.1 h26
      · intro _ r hr
        simp only [do_encoding_checks, hs, hn, if_false, get_image_size_for_bmp_eq,
          h26] at hr
        simp at hr

/-! ## Reading a stamped text back -/

theorem unpack_blocks_stamp : ∀ (t carrier rest : List Nat), 8 * t.length ≤ carrier.length →
    unpack_blocks t.length (stamp t carrier ++ rest) = t.map (fun c => c % 256) := by
  intro t
  induction t with
  | nil => intro _ _ _; rfl
  | cons c cs ih =>
    intro carrier rest h
    simp only [List.length_cons] at h
    have hl : (carrier.take 8).length = 8 := by
      simp only [List.length_take]; omega
    have hb : (encode_byte_to_lsb c (carrier.take 8)).2.length = 8 := by
      rw [encode_byte_to_lsb_length, hl]
    simp only [List.length_cons, unpack_blocks, stamp, List.map_cons, List.append_assoc]
    rw [List.take_left' hb, List.drop_left' hb, unpack_pack c _ hl,
      ih (carrier.drop 8) rest (by simp only [List.length_drop]; omega)]

theorem unpack_blocks_take : ∀ (a b : Nat) (data : List Nat),
    (unpack_blocks (a + b) data).take a = unpack_blocks a data := by
  intro a
  induction a with
  | zero => intro b data; simp [unpack_blocks]
  | succ k ih =>
    intro b data
    have e : k + 1 + b = (k + b) + 1 := by ring
    rw [e]
    simp only [unpack_blocks, List.take_succ_cons, ih]

theorem map_mod_of_lt (l : List Nat) (h : ∀ x ∈ l, x < 256) : l.map (fun c => c % 256) = l := by
  induction l with
  | nil => rfl
  | cons a as ih =>
    rw [List.map_cons, Nat.mod_eq_of_lt (h a (by simp)), ih (fun x hx => h x (by simp [hx]))]

/-- The output image from the pixel data offset on: the stamped blocks, then
the rest of the source. -/
theorem drop_encoded_image (D t : List Nat) :
    (encoded_image D t).drop (pixel_data_offset D)
      = stamp t (D.drop (pixel_data_offset D)) ++ D.drop (pixel_data_offset D + 8 * t.length) := by
  have hH := take_padded_length
    (D.take (image_capacity (bmp_width D) (bmp_height D))) (pixel_data_offset D)
  simp only [encoded_image, List.append_assoc]
  rw [List.drop_left' hH]

theorem decimal_lt (n : Nat) : ∀ x ∈ decimal n, 48 ≤ x ∧ x ≤ 57 := by
  intro x hx
  simp only [decimal, List.mem_reverse, List.mem_map] at hx
  obtain ⟨d, hd, rfl⟩ := hx
  have := Nat.digits_lt_base (by decide : 1 < 10) hd
  omega

/-- The characters of the extension found by `get_file_extension` are
characters of the file name. -/
theorem get_file_extension_subset (s : List Nat)
    (h : (get_file_extension s).1 = Status.e_success) :
    ∀ x ∈ (get_file_extension s).2, x ∈ s := by
  intro x hx
  obtain ⟨pre, hs, _⟩ := (get_file_extension_success s h).2.2
  have hm : x ∈ cstr s := by rw [hs]; simp [hx]
  exact (List.takeWhile_sublist _).subset hm

/-- The frame of a payload without zero byte and of fewer than `2^32` bytes. -/
theorem encoder_frame_eq (P fname : List Nat) (hlen : P.length < 4294967296)
    (hz : ∀ x ∈ P, x ≠ 0) :
    encoder_frame P fname
      = [35, 42] ++ (get_file_extension fname).2 ++ [42] ++ decimal P.length ++ [42]
          ++ P ++ [42] := by
  have hm : secret_size P = P.length := Nat.mod_eq_of_lt hlen
  have hz2 : ∀ x ∈ P ++ [42], x ≠ 0 := by
    intro x hx
    rcases List.mem_append.mp hx with h | h
    · exact hz x h
    · simp only [List.mem_singleton] at h; omega
  have hc : cstr (P ++ [42, 0]) = P ++ [42] := by
    have := cstr_append_zero (P ++ [42]) [] hz2
    simpa using this
  simp only [encoder_frame, frame_text, hm, List.take_length, hc, MAGIC_STRING,
    List.append_assoc]

theorem all_lt_append (A B : List Nat) (hA : ∀ x ∈ A, x < 256) (hB : ∀ x ∈ B, x < 256) :
    ∀ x ∈ A ++ B, x < 256 := by
  intro x hx
  rcases List.mem_append.mp hx with h | h
  · exact hA x h
  · exact hB x h

/-- A size text that fits the 9-byte array belongs to a size below `10^7`. -/
theorem lt_of_decimal_length (m : Nat) (h : (decimal m).length + 2 ≤ 9) : m < 10000000 := by
  have h1 : (Nat.digits 10 m).length ≤ 7 := by
    simp only [decimal, List.length_reverse, List.length_map] at h
    omega
  have h2 : m < 10 ^ (Nat.digits 10 m).length := Nat.lt_base_pow_length_digits (by decide)
  have h3 : 10 ^ (Nat.digits 10 m).length ≤ 10 ^ 7 := Nat.pow_le_pow_right (by decide) h1
  have h4 : (10 : Nat) ^ 7 = 10000000 := by norm_num
  omega

/-- Under the conditions of a successful run, with the pixel data offset at 14
or more, the offset field of the output image is that of the source. -/
theorem pixel_data_offset_encoded (D P fname : List Nat) (hc : encode_conditions D P fname)
    (h14 : 14 ≤ pixel_data_offset D) :
    pixel_data_offset (encoded_image D (encoder_frame P fname)) = pixel_data_offset D := by
  obtain ⟨_, h26, hcap, _, hle, _, _, hdec, _⟩ := hc
  have hm := lt_of_decimal_length _ hdec
  generalize hcp : image_capacity (bmp_width D) (bmp_height D) = cap at hcap hle
  have hcap14 : 14 ≤ cap := by
    have hmg : strlen MAGIC_STRING = 2 := by decide
    simp only [capacity_check, hmg, MAX_FILE_SUFFIX, decide_eq_true_eq] at hcap
    omega
  have hH : ((padded (D.take cap) (pixel_data_offset D)).take (pixel_data_offset D)).take 14
      = D.take 14 := by
    rw [List.take_take, Nat.min_eq_left h14, padded, List.take_append_of_le_length
      (by simp only [List.length_take]; omega), List.take_take, Nat.min_eq_left hcap14]
  have hl : 14 ≤ ((padded (D.take cap) (pixel_data_offset D)).take (pixel_data_offset D)).length := by
    rw [take_padded_length]; exact h14
  have e1 : ∀ (A B : List Nat), 14 ≤ A.length → ((A ++ B).drop 10).take 4 = ((A.take 14).drop 10) := by
    intro A B hA
    rw [List.drop_append_of_le_length (by omega), List.take_append_of_le_length
      (by simp only [List.length_drop]; omega)]
    rw [List.drop_take]
  have e2 : (D.drop 10).take 4 = (D.take 14).drop 10 := by
    rw [List.drop_take]
  have key : ((encoded_image D (encoder_frame P fname)).drop 10).take 4 = (D.drop 10).take 4 := by
    simp only [encoded_image, hcp, List.append_assoc]
    rw [e1 _ _ hl, hH, e2]
  show le32 (((encoded_image D (encoder_frame P fname)).drop 10).take 4) = le32 ((D.drop 10).take 4)
  rw [key]

/-- The conditions of a successful run hold for the payload `hi` of the file
`a.txt` in the 8 by 8 image. -/
theorem encode_conditions_small :
    encode_conditions small_image [104, 105] [97, 46, 116, 120, 116] := by
  have hx : get_file_extension [97, 46, 116, 120, 116] = (Status.e_success, [116, 120, 116]) := by
    decide!
  have hd : decimal 2 = [50] := by norm_num [decimal]
  have hs : secret_size [104, 105] = 2 := by decide!
  have hc : cstr ([104, 105] ++ [42, 0]) = [104, 105, 42] := by decide!
  simp only [encode_conditions, encoder_frame, frame_text, hs, hd, hx, List.take_succ_cons,
    List.take_zero, hc]
  decide!

/-- C3, amended: for every carrier image on which the encoder runs to the end
(`encode_conditions`: at least 26 bytes, the capacity check passes, the image
holds `width * height * 3` bytes and the whole frame from its pixel data
offset on, `width * height * 3` and the offset are below `2^31`, the extension
is accepted and the size text fits its array of 9 bytes) and every payload `P`
of fewer than `2^32` bytes, none of them zero, taken from a file with
extension `ext` (the text found by `get_file_extension`), `do_encoding`
succeeds and unpacking the successive 8-byte blocks of the output image from
the pixel data offset of the source yields the characters `#`, `*`, then
`ext`, `*`, the decimal digits of the byte count, `*`, the bytes of `P` and
`*`; with an offset of 14 or more this is also the offset field of the output
image. -/
theorem C3_frame_format (D P fname : List Nat)
    (hc : encode_conditions D P fname)
    (hlen : P.length < 4294967296) (hz : ∀ x ∈ P, x ≠ 0) (hb : ∀ x ∈ P, x < 256)
    (hf : ∀ x ∈ fname, x < 256) :
    ∃ r out, do_encoding (some D) (some P) true fname = some r ∧
      r.status = Status.e_success ∧
      r.encInfo.fptr_stego_image = some out ∧
      unpack_blocks
          ([35, 42] ++ (get_file_extension fname).2 ++ [42] ++ decimal P.length ++ [42]
            ++ P ++ [42]).length
          (out.data.drop (pixel_data_offset D))
        = [35, 42] ++ (get_file_extension fname).2 ++ [42] ++ decimal P.length ++ [42]
            ++ P ++ [42] ∧
      (14 ≤ pixel_data_offset D → pixel_data_offset out.data = pixel_data_offset D) := by
  obtain ⟨e, he, hs⟩ := (do_encoding_yields D P fname hc.2.2.2.2.2.1).1 hc
  refine ⟨_, _, he, rfl, hs, ?_, ?_⟩
  · have hfr := encoder_frame_eq P fname hlen hz
    have hfit := hc.2.2.2.2.2.2.2.2
    simp only []
    rw [drop_encoded_image, ← hfr, unpack_blocks_stamp _ _ _
      (by simp only [List.length_drop]; omega)]
    apply map_mod_of_lt
    rw [hfr]
    have h42 : ∀ x ∈ ([42] : List Nat), x < 256 := by
      intro x hx; simp only [List.mem_singleton] at hx; omega
    have hmg : ∀ x ∈ ([35, 42] : List Nat), x < 256 := by
      intro x hx
      simp only [List.mem_cons, List.mem_singleton, List.not_mem_nil, or_false] at hx
      omega
    have hex : ∀ x ∈ (get_file_extension fname).2, x < 256 := fun x hx =>
      hf x (get_file_extension_subset fname hc.2.2.2.2.2.2.1 x hx)
    have hdc : ∀ x ∈ decimal P.length, x < 256 := fun x hx => by
      have := decimal_lt P.length x hx; omega
    exact all_lt_append _ _ (all_lt_append _ _ (all_lt_append _ _ (all_lt_append _ _
      (all_lt_append _ _ (all_lt_append _ _ hmg hex) h42) hdc) h42) hb) h42
  · intro h14
    exact pixel_data_offset_encoded D P fname hc h14

/-- C3, an instance: the payload `hi` of the file `a.txt` in an 8 by 8 image. -/
theorem C3_frame_format_witness :
    ∃ r out, do_encoding (some small_image) (some [104, 105]) true [97, 46, 116, 120, 116]
        = some r ∧
      r.status = Status.e_success ∧
      r.encInfo.fptr_stego_image = some out ∧
      unpack_blocks
          ([35, 42] ++ (get_file_extension [97, 46, 116, 120, 116]).2 ++ [42]
            ++ decimal ([104, 105] : List Nat).length ++ [42] ++ [104, 105] ++ [42]).length
          (out.data.drop (pixel_data_offset small_image))
        = [35, 42] ++ (get_file_extension [97, 46, 116, 120, 116]).2 ++ [42]
            ++ decimal ([104, 105] : List Nat).length ++ [42] ++ [104, 105] ++ [42] ∧
      (14 ≤ pixel_data_offset small_image →
        pixel_data_offset out.data = pixel_data_offset small_image) :=
  C3_frame_format small_image [104, 105] [97, 46, 116, 120, 116] encode_conditions_small
    (by decide) (by decide) (by decide) (by decide)

/-- C10 on the code: `copy_bmp_header` copies `width * height * 3` bytes (the
value of `get_image_size_for_bmp`), not the bytes before the pixel data offset.
On an 8 by 8 image whose pixel data starts at byte 200 the encoder succeeds,
but only the first 192 bytes come from the source: bytes 192 to 199 of the
output, before the offset, are zero where the source has `0xFF`. -/
theorem C10_header_not_preserved :
    pixel_data_offset gap_image = 200 ∧
    (gap_image.drop 192).take 8 = [255, 255, 255, 255, 255, 255, 255, 255] ∧
    (do_encoding (some gap_image) (some [104]) true [97, 46, 116]).map
        (fun r => (r.status, r.encInfo.fptr_stego_image.map
          (fun f => (f.data.drop 192).take 8)))
      = some (Status.e_success, some [0, 0, 0, 0, 0, 0, 0, 0]) := by
  decide!

theorem decimal_wrapped : decimal 4294967297 = [52, 50, 57, 52, 57, 54, 55, 50, 57, 55] := by
  norm_num [decimal]

theorem decimal_one : decimal 1 = [49] := by
  norm_num [decimal]

theorem secret_size_wrapped : secret_size (List.replicate 4294967297 65) = 1 := by
  rw [secret_size, List.length_replicate]

theorem encoder_frame_wrapped :
    encoder_frame (List.replicate 4294967297 65) [97, 46, 116]
      = [35, 42, 116, 42, 49, 42, 65, 42] := by
  have hx : get_file_extension [97, 46, 116] = (Status.e_success, [116]) := by decide
  have ht : (List.replicate 4294967297 65).take 1 = [65] := by
    rw [List.take_replicate]; rfl
  have hc : cstr ([65] ++ [42, 0]) = [65, 42] := by decide
  rw [encoder_frame, secret_size_wrapped, ht, hx, frame_text, decimal_one, hc]
  rfl

theorem encode_conditions_wrapped :
    encode_conditions small_image (List.replicate 4294967297 65) [97, 46, 116] := by
  have hx : get_file_extension [97, 46, 116] = (Status.e_success, [116]) := by decide!
  simp only [encode_conditions, encoder_frame_wrapped, secret_size_wrapped, decimal_one, hx]
  decide!

theorem unpack_blocks_five (K : Nat) (data rest : List Nat) (a0 a1 a2 a3 a4 : Nat)
    (h : unpack_blocks (5 + K) data = a0 :: a1 :: a2 :: a3 :: a4 :: rest) :
    unpack_blocks 5 data = [a0, a1, a2, a3, a4] := by
  rw [← unpack_blocks_take 5 K data, h]
  rfl

theorem claimed_frame_wrapped :
    [35, 42] ++ [116] ++ [42] ++ decimal 4294967297 ++ [42]
        ++ List.replicate 4294967297 65 ++ [42]
      = 35 :: 42 :: 116 :: 42 :: 52 ::
          ([50, 57, 52, 57, 54, 55, 50, 57, 55] ++ [42] ++ List.replicate 4294967297 65 ++ [42]) := by
  rw [decimal_wrapped]
  simp only [List.append_assoc, List.cons_append, List.nil_append]

theorem length_five_cons (rest : List Nat) (a0 a1 a2 a3 a4 : Nat) :
    (a0 :: a1 :: a2 :: a3 :: a4 :: rest).length = 5 + rest.length := by
  simp only [List.length_cons]
  omega

theorem claimed_frame_wrapped_length :
    ([35, 42] ++ [116] ++ [42] ++ decimal 4294967297 ++ [42]
        ++ List.replicate 4294967297 65 ++ [42]).length
      = 5 + ([50, 57, 52, 57, 54, 55, 50, 57, 55] ++ [42] ++ List.replicate 4294967297 65
          ++ [42]).length :=
  claimed_frame_wrapped ▸ length_five_cons _ 35 42 116 42 52

theorem unpack_wrapped :
    unpack_blocks 5 ((encoded_image small_image [35, 42, 116, 42, 49, 42, 65, 42]).drop
      (pixel_data_offset small_image)) = [35, 42, 116, 42, 49] := by
  decide!

/-- C3 as stated fails for a payload of `2^32 + 1` bytes `A`: `get_file_size`
counts in `uint`, the byte count wraps to 1, and the run succeeds with the
frame `#*t*1*A*`; the fifth block carries `1`, not the first digit `4` of
4294967297. -/
theorem C3_wrapped_size_counterexample :
    ∃ r out, do_encoding (some small_image) (some (List.replicate 4294967297 65)) true
        [97, 46, 116] = some r ∧
      r.status = Status.e_success ∧
      r.encInfo.fptr_stego_image = some out ∧
      (∀ x ∈ List.replicate 4294967297 65, x ≠ 0) ∧
      (List.replicate 4294967297 65).length = 4294967297 ∧
      (get_file_extension [97, 46, 116]).2 = [116] ∧
      unpack_blocks
          ([35, 42] ++ [116] ++ [42] ++ decimal 4294967297 ++ [42]
            ++ List.replicate 4294967297 65 ++ [42]).length
          (out.data.drop (pixel_data_offset small_image))
        ≠ [35, 42] ++ [116] ++ [42] ++ decimal 4294967297 ++ [42]
            ++ List.replicate 4294967297 65 ++ [42] := by
  obtain ⟨e, he, hs⟩ := (do_encoding_yields small_image (List.replicate 4294967297 65)
    [97, 46, 116] encode_conditions_wrapped.2.2.2.2.2.1).1 encode_conditions_wrapped
  refine ⟨_, _, he, rfl, hs, ?_, List.length_replicate _ _, by decide, ?_⟩
  · intro x hx
    rw [List.eq_of_mem_replicate hx]
    decide
  · intro heq
    rw [claimed_frame_wrapped_length, claimed_frame_wrapped, encoder_frame_wrapped] at heq
    have h5 := unpack_blocks_five _ _ _ _ _ _ _ _ heq
    rw [unpack_wrapped] at h5
    simp only [List.cons.injEq] at h5
    omega

/-! ## The decoder on a stamped image -/

/-- A block read where the file holds a stamped character: the block, the
character it carries, and what follows it. -/
theorem fread_stamp (X carrier rest s : List Nat) (c p : Nat) (e : Bool)
    (h : X.drop p = stamp (c :: s) carrier ++ rest)
    (hc : 8 * (s.length + 1) ≤ carrier.length) :
    ∃ b, fread MAX_IMAGE_BUF_SIZE ⟨X, p, e⟩ = (b, ⟨X, p + 8, e⟩) ∧
      (get_data_from_byte_array b).2 = c % 256 ∧
      X.drop (p + 8) = stamp s (carrier.drop 8) ++ rest := by
  have hl : (carrier.take 8).length = 8 := by
    simp only [List.length_take]; omega
  have hb : (encode_byte_to_lsb c (carrier.take 8)).2.length = 8 := by
    rw [encode_byte_to_lsb_length, hl]
  simp only [stamp, List.append_assoc] at h
  have hlen : (X.drop p).length = 8 + (stamp s (carrier.drop 8) ++ rest).length := by
    rw [h, List.length_append, hb]
  have hp : p + 8 ≤ X.length := by
    simp only [List.length_drop] at hlen; omega
  refine ⟨(encode_byte_to_lsb c (carrier.take 8)).2, ?_, unpack_pack c _ hl, ?_⟩
  · have hf := fread_full 8 ⟨X, p, e⟩ hp
    simp only [] at hf
    rw [h, List.take_left' hb] at hf
    exact hf
  · have : X.drop (p + 8) = (X.drop p).drop 8 := by rw [List.drop_drop]
    rw [this, h, List.drop_left' hb]

/-- The loop of `find_magic_string` on an image that holds the stamped magic
string at the position: the two characters are read, whatever `magic_str`
held. -/
theorem find_magic_string_loop_stamp (X carrier rest v : List Nat) (p s0 s1 : Nat)
    (h : X.drop p = stamp (35 :: 42 :: v) carrier ++ rest)
    (hc : 8 * (v.length + 2) ≤ carrier.length) :
    find_magic_string_loop 2 0 [s0, s1] ⟨X, p, false⟩ = ([35, 42], ⟨X, p + 16, false⟩) ∧
      X.drop (p + 16) = stamp v (carrier.drop 16) ++ rest := by
  obtain ⟨b1, hr1, hd1, hx1⟩ := fread_stamp X carrier rest (42 :: v) 35 p false h
    (by simp only [List.length_cons]; omega)
  obtain ⟨b2, hr2, hd2, hx2⟩ := fread_stamp X (carrier.drop 8) rest v 42 (p + 8) false hx1
    (by simp only [List.length_drop]; omega)
  rw [List.drop_drop] at hx2
  refine ⟨?_, hx2⟩
  simp only [find_magic_string_loop, hr1, hr2, hd1, hd2, Bool.false_eq_true, if_false,
    List.set_cons_zero, List.set_cons_succ]

/-- The separator loop on an image that holds the stamped text `u`, then the
separator: the characters of `u` are gathered and the stream is left behind
the block of the separator. -/
theorem read_until_separator_stamp (X rest v : List Nat) : ∀ (u carrier buf : List Nat) (p fuel : Nat),
    X.drop p = stamp (u ++ 42 :: v) carrier ++ rest →
    8 * (u ++ 42 :: v).length ≤ carrier.length →
    (∀ x ∈ u, x ≠ 42 ∧ x < 256) → u.length < fuel →
    read_until_separator fuel ⟨X, p, false⟩ buf
        = (buf ++ u, ⟨X, p + 8 * (u.length + 1), false⟩) ∧
      X.drop (p + 8 * (u.length + 1)) = stamp v (carrier.drop (8 * (u.length + 1))) ++ rest := by
  intro u
  induction u with
  | nil =>
    intro carrier buf p fuel h hc _ hf
    obtain ⟨k, rfl⟩ : ∃ k, fuel = k + 1 := ⟨fuel - 1, by simp only [List.length_nil] at hf; omega⟩
    simp only [List.nil_append, List.length_cons] at h hc
    obtain ⟨b, hr, hd, hx⟩ := fread_stamp X carrier rest v 42 p false h hc
    simp only [read_until_separator, hr, hd, Bool.false_eq_true, if_false, List.length_nil,
      List.append_nil]
    exact ⟨by simp, hx⟩
  | cons c u ih =>
    intro carrier buf p fuel h hc hu hf
    obtain ⟨k, rfl⟩ : ∃ k, fuel = k + 1 := ⟨fuel - 1, by simp only [List.length_cons] at hf; omega⟩
    simp only [List.cons_append, List.length_cons, List.length_append] at h hc
    obtain ⟨b, hr, hd, hx⟩ := fread_stamp X carrier rest (u ++ 42 :: v) c p false h
      (by simp only [List.length_append, List.length_cons]; omega)
    have hcu := hu c (by simp)
    have hmod : c % 256 = c := Nat.mod_eq_of_lt hcu.2
    obtain ⟨h1, h2⟩ := ih (carrier.drop 8) (buf ++ [c]) (p + 8) k hx
      (by simp only [List.length_drop, List.length_append, List.length_cons]; omega)
      (fun x hx => hu x (by simp [hx])) (by simp only [List.length_cons] at hf; omega)
    rw [List.drop_drop] at h2
    have e1 : p + 8 + 8 * (u.length + 1) = p + 8 * (u.length + 1 + 1) := by ring
    have e2 : 8 + 8 * (u.length + 1) = 8 * (u.length + 1 + 1) := by ring
    rw [e1, e2] at h2
    rw [e1] at h1
    refine ⟨?_, by simpa using h2⟩
    simp only [read_until_separator, hr, hd, hmod, Bool.false_eq_true, if_false, hcu.1, h1,
      List.length_cons, List.append_assoc, List.singleton_append]

/-- The loop that reads the secret message on an image that holds the stamped
text `u`: its characters are gathered. -/
theorem read_secret_msg_stamp (X rest v : List Nat) : ∀ (u carrier buf : List Nat) (p : Nat),
    X.drop p = stamp (u ++ v) carrier ++ rest →
    8 * (u ++ v).length ≤ carrier.length →
    (∀ x ∈ u, x < 256) →
    read_secret_msg u.length ⟨X, p, false⟩ buf = (buf ++ u, ⟨X, p + 8 * u.length, false⟩) := by
  intro u
  induction u with
  | nil =>
    intro carrier buf p _ _ _
    simp [read_secret_msg]
  | cons c u ih =>
    intro carrier buf p h hc hu
    simp only [List.cons_append, List.length_cons, List.length_append] at h hc
    obtain ⟨b, hr, hd, hx⟩ := fread_stamp X carrier rest (u ++ v) c p false h
      (by simp only [List.length_append]; omega)
    have hmod : c % 256 = c := Nat.mod_eq_of_lt (hu c (by simp))
    have h1 := ih (carrier.drop 8) (buf ++ [c]) (p + 8) hx
      (by simp only [List.length_drop, List.length_append]; omega)
      (fun x hx => hu x (by simp [hx]))
    have e1 : p + 8 + 8 * u.length = p + 8 * (u.length + 1) := by ring
    rw [e1] at h1
    simp only [List.length_cons, read_secret_msg, hr, hd, hmod, Bool.false_eq_true, if_false, h1,
      List.append_assoc, List.singleton_append]

theorem decimal_zero : decimal 0 = [] := by
  simp [decimal]

theorem decimal_step (n : Nat) (h : 0 < n) : decimal n = decimal (n / 10) ++ [n % 10 + 48] := by
  simp only [decimal]
  rw [Nat.digits_def' (by decide) h, List.map_cons, List.reverse_cons]

/-- The loop of `atoi` on the decimal digits of a number that fits an `int`. -/
theorem atoi_loop_decimal : ∀ (n : Nat), n ≤ 2147483647 → ∀ tail : List Nat,
    atoi_loop (decimal n ++ tail) 0 = atoi_loop tail n := by
  intro n
  induction n using Nat.strong_induction_on with
  | _ n ih =>
    intro hn tail
    by_cases h0 : n = 0
    · subst h0; rw [decimal_zero]; rfl
    · have hpos : 0 < n := Nat.pos_of_ne_zero h0
      rw [decimal_step n hpos, List.append_assoc, ih (n / 10) (by omega) (by omega)]
      have hd : n % 10 + 48 ≠ 0 := by omega
      have hr : 48 ≤ n % 10 + 48 ∧ n % 10 + 48 ≤ 57 := by omega
      have hv : n / 10 * 10 + (n % 10 + 48 - 48) = n := by omega
      have hle : ¬ n / 10 * 10 + (n % 10 + 48 - 48) > 2147483647 := by omega
      show atoi_loop ((n % 10 + 48) :: tail) (n / 10) = atoi_loop tail n
      rw [atoi_loop]
      simp only [hd, if_false, hr, and_self, if_true, hle]
      rw [hv]

/-- The function `atoi` reads back the size text written by the encoder. -/
theorem atoi_decimal (n : Nat) (hn : n ≤ 2147483647) :
    atoi (decimal n ++ [0]) = some (n : Int) := by
  by_cases h0 : n = 0
  · subst h0; rw [decimal_zero]; rfl
  · have hpos : 0 < n := Nat.pos_of_ne_zero h0
    have hne : decimal n ≠ [] := by
      rw [decimal_step n hpos]; simp
    obtain ⟨a, as, has⟩ := List.exists_cons_of_ne_nil hne
    have ha := decimal_lt n a (by rw [has]; simp)
    have hl := atoi_loop_decimal n hn [0]
    rw [has, List.cons_append] at hl
    have hnum : (48 ≤ a ∧ a ≤ 57) := ha
    have hsg : ¬ a = 45 := by omega
    have hl0 : atoi_loop [0] n = some n := by simp [atoi_loop]
    simp only [atoi, has, List.cons_append, List.headD_cons, hnum, and_self, decide_True,
      Bool.not_true, Bool.false_and, Bool.false_eq_true, if_false, if_true, List.drop_zero,
      hl, hl0, hsg, decide_False]

/-- The decoder on an image that carries a well-formed frame at its pixel data
offset: the magic string, an extension of at most 3 characters without `*`,
the decimal size of the payload, the payload (no zero byte), each followed by
the separator. It succeeds, recovers the extension and writes the payload. -/
theorem do_decoding_stamped (X carrier rest ext P : List Nat) (stale : Nat × Nat)
    (h14 : 14 ≤ X.length) (hoff : pixel_data_offset X < 2147483648)
    (hX : X.drop (pixel_data_offset X)
      = stamp (35 :: 42 :: (ext ++ 42 :: (decimal P.length ++ 42 :: (P ++ [42])))) carrier
          ++ rest)
    (hcar : 8 * (35 :: 42 :: (ext ++ 42 :: (decimal P.length ++ 42 :: (P ++ [42])))).length
      ≤ carrier.length)
    (hext : ∀ x ∈ ext, x ≠ 42 ∧ x < 256) (hel : ext.length < MAX_FILE_SUFFIX)
    (hnl : (decimal P.length).length + 2 ≤ 9) (hP : ∀ x ∈ P, x ≠ 0 ∧ x < 256) :
    do_decoding (some X) true stale
      = some ⟨Status.e_success, none,
          { fptr_secret := some ⟨P, P.length, false⟩, extn_secret_file := ext ++ [0],
            fptr_stego_image := some ⟨X, pixel_data_offset X + 16 + 8 * (ext.length + 1)
              + 8 * ((decimal P.length).length + 1) + 8 * P.length, false⟩ }⟩ := by
  generalize hoffv : pixel_data_offset X = off at hoff hX
  simp only [List.length_cons, List.length_append, List.length_nil] at hcar
  -- the magic string
  obtain ⟨hm1, hm2⟩ := find_magic_string_loop_stamp X carrier rest _ off stale.1 stale.2 hX
    (by simp only [List.length_cons, List.length_append, List.length_nil]; omega)
  have hneg : ¬ to_int off < 0 := by rw [to_int_of_lt off hoff]; omega
  have hnat : (to_int off).toNat = off := by rw [to_int_of_lt off hoff]; simp
  have hstr : strlen MAGIC_STRING = 2 := by decide
  have hmagic : find_magic_string stale (fopen_rb X)
      = some (Status.e_success, ⟨X, off + 16, false⟩) := by
    simp only [find_magic_string, get_image_data_offset_eq, fopen_rb, h14, if_true, hoffv, hneg,
      if_false, hnat, fseek_set, hstr, hm1]
    rfl
  -- the extension
  obtain ⟨he1, he2⟩ := read_until_separator_stamp X rest _ ext (carrier.drop 16) []
    (off + 16) (X.length + 1) hm2
    (by simp only [List.length_drop, List.length_cons, List.length_append, List.length_nil]; omega)
    hext (by simp only [MAX_FILE_SUFFIX] at hel; omega)
  rw [List.drop_drop] at he2
  have hextn : get_secret_data_file_extn ⟨X, off + 16, false⟩
      = some (Status.e_success, ext ++ [0], ⟨X, off + 16 + 8 * (ext.length + 1), false⟩) := by
    have hnl2 : ¬ ext.length ≥ MAX_FILE_SUFFIX := by omega
    simp only [get_secret_data_file_extn, he1, List.nil_append, hnl2, if_false]
  -- the size
  have hdig : ∀ x ∈ decimal P.length, x ≠ 42 ∧ x < 256 := by
    intro x hx
    have := decimal_lt P.length x hx
    omega
  obtain ⟨hs1, hs2⟩ := read_until_separator_stamp X rest _ (decimal P.length)
    (carrier.drop (16 + 8 * (ext.length + 1))) [] (off + 16 + 8 * (ext.length + 1))
    (X.length + 1) he2
    (by simp only [List.length_drop, List.length_cons, List.length_append, List.length_nil]; omega)
    hdig (by omega)
  rw [List.drop_drop] at hs2
  have hlt := lt_of_decimal_length P.length hnl
  have hatoi := atoi_decimal P.length (by omega)
  -- the payload
  have hpay := read_secret_msg_stamp X rest [42] P
    (carrier.drop (16 + 8 * (ext.length + 1) + 8 * ((decimal P.length).length + 1))) []
    (off + 16 + 8 * (ext.length + 1) + 8 * ((decimal P.length).length + 1)) hs2
    (by simp only [List.length_drop, List.length_cons, List.length_append, List.length_nil]; omega)
    (fun x hx => (hP x hx).2)
  have hcs : cstr (P ++ [0]) = P := cstr_append_zero P [] (fun x hx => (hP x hx).1)
  have hw := fwrite_at [] [] P false
  simp only [List.nil_append, List.length_nil, List.drop_nil, List.append_nil,
    Nat.zero_add] at hw
  have hcopy : copy_data_to_secret_data_file ⟨X, off + 16 + 8 * (ext.length + 1), false⟩ fopen_wb
      = some (Status.e_success,
          ⟨X, off + 16 + 8 * (ext.length + 1) + 8 * ((decimal P.length).length + 1)
            + 8 * P.length, false⟩, ⟨P, P.length, false⟩) := by
    have hnl2 : ¬ (decimal P.length).length ≥ 10 := by omega
    have hnn : ¬ ((P.length : Nat) : Int) < 0 := by omega
    simp only [copy_data_to_secret_data_file, hs1, List.nil_append, hnl2, if_false, hatoi, hnn,
      Int.toNat_ofNat, hpay, hcs, fopen_wb, hw]
  simp only [do_decoding, hmagic, hextn, create_secret_data_file, if_true, hcopy, reduceCtorEq,
    if_false]

/-! ## Round trip -/

theorem encoded_image_length (D t : List Nat)
    (h : pixel_data_offset D + 8 * t.length ≤ D.length) :
    (encoded_image D t).length = D.length := by
  have hH := take_padded_length
    (D.take (image_capacity (bmp_width D) (bmp_height D))) (pixel_data_offset D)
  have hs := stamp_length t (D.drop (pixel_data_offset D))
    (by simp only [List.length_drop]; omega)
  simp only [encoded_image, List.length_append, hH, hs, List.length_drop]
  omega

/-- Encoding then decoding, under the conditions of a successful run: the
payload has no zero byte and the extension has no `*`. -/
theorem round_trip (D P fname : List Nat) (stale : Nat × Nat)
    (hc : encode_conditions D P fname) (hlen : P.length < 4294967296)
    (hz : ∀ x ∈ P, x ≠ 0) (hb : ∀ x ∈ P, x < 256)
    (hexb : ∀ x ∈ (get_file_extension fname).2, x ≠ 42 ∧ x < 256)
    (h14 : 14 ≤ pixel_data_offset D) :
    ∃ r out d, do_encoding (some D) (some P) true fname = some r ∧
      r.status = Status.e_success ∧ r.encInfo.fptr_stego_image = some out ∧
      do_decoding (some out.data) true stale = some d ∧
      d.status = Status.e_success ∧
      d.decInfo.extn_secret_file = (get_file_extension fname).2 ++ [0] ∧
      d.decInfo.fptr_secret.map (fun f => f.data) = some P := by
  obtain ⟨e, he, hs⟩ := (do_encoding_yields D P fname hc.2.2.2.2.2.1).1 hc
  have hfr := encoder_frame_eq P fname hlen hz
  have hm : secret_size P = P.length := Nat.mod_eq_of_lt hlen
  have hoffX := pixel_data_offset_encoded D P fname hc h14
  obtain ⟨_, h26, _, _, _, hoff31, hext, hdec, hfit⟩ := hc
  rw [hm] at hdec
  have hlenX := encoded_image_length D (encoder_frame P fname) hfit
  have hdrop := drop_encoded_image D (encoder_frame P fname)
  have hassoc : encoder_frame P fname
      = 35 :: 42 :: ((get_file_extension fname).2
          ++ 42 :: (decimal P.length ++ 42 :: (P ++ [42]))) := by
    rw [hfr]; simp
  have hdrop2 : (encoded_image D (encoder_frame P fname)).drop
      (pixel_data_offset (encoded_image D (encoder_frame P fname)))
      = stamp (35 :: 42 :: ((get_file_extension fname).2
          ++ 42 :: (decimal P.length ++ 42 :: (P ++ [42])))) (D.drop (pixel_data_offset D))
        ++ D.drop (pixel_data_offset D + 8 * (encoder_frame P fname).length) := by
    rw [hoffX, ← hassoc]
    exact hdrop
  have hexl := (get_file_extension_success fname hext).1
  have hdec2 := do_decoding_stamped (encoded_image D (encoder_frame P fname))
    (D.drop (pixel_data_offset D)) _ (get_file_extension fname).2 P stale
    (by rw [hlenX]; omega) (by rw [hoffX]; exact hoff31) hdrop2
    (by
      rw [← hassoc]
      simp only [List.length_drop]
      omega)
    hexb hexl hdec (fun x hx => ⟨hz x hx, hb x hx⟩)
  refine ⟨⟨Status.e_success, none, e⟩,
    ⟨encoded_image D (encoder_frame P fname), D.length, false⟩, _, he, rfl, hs, hdec2, ?_, ?_, ?_⟩
  · rfl
  · rfl
  · rfl

/-- C2, amended: for every non-empty payload `P` of bytes none of which is
zero, every file name whose extension (the text `get_file_extension` finds)
has no `*`, and every carrier on which the encoder runs to the end
(`encode_conditions`: the capacity check passes, the size text fits its array,
the carrier holds `width * height * 3` bytes and the whole frame after its pixel
data offset, and the sizes fit an `int`) with a pixel data offset of 14 or
more, `do_encoding` succeeds and `do_decoding` on the image it produces
succeeds, recovers the extension and writes exactly the bytes of `P`. -/
theorem C2_round_trip (D P fname : List Nat) (stale : Nat × Nat)
    (hc : encode_conditions D P fname) (hlen : P.length < 4294967296)
    (hz : ∀ x ∈ P, x ≠ 0) (hb : ∀ x ∈ P, x < 256) (hf : ∀ x ∈ fname, x < 256)
    (hstar : 42 ∉ (get_file_extension fname).2) (h14 : 14 ≤ pixel_data_offset D) :
    ∃ r out d, do_encoding (some D) (some P) true fname = some r ∧
      r.status = Status.e_success ∧ r.encInfo.fptr_stego_image = some out ∧
      do_decoding (some out.data) true stale = some d ∧
      d.status = Status.e_success ∧
      d.decInfo.extn_secret_file = (get_file_extension fname).2 ++ [0] ∧
      d.decInfo.fptr_secret.map (fun f => f.data) = some P := by
  have hext := hc.2.2.2.2.2.2.1
  have hexb : ∀ x ∈ (get_file_extension fname).2, x ≠ 42 ∧ x < 256 := by
    intro x hx
    exact ⟨fun h42 => hstar (h42 ▸ hx), hf x (get_file_extension_subset fname hext x hx)⟩
  exact round_trip D P fname stale hc hlen hz hb hexb h14

/-- C2, an instance: the payload `hi` of the file `a.txt` in an 8 by 8 image. -/
theorem C2_round_trip_witness :
    ∃ r out d, do_encoding (some small_image) (some [104, 105]) true [97, 46, 116, 120, 116]
        = some r ∧
      r.status = Status.e_success ∧ r.encInfo.fptr_stego_image = some out ∧
      do_decoding (some out.data) true (0, 0) = some d ∧
      d.status = Status.e_success ∧
      d.decInfo.extn_secret_file = (get_file_extension [97, 46, 116, 120, 116]).2 ++ [0] ∧
      d.decInfo.fptr_secret.map (fun f => f.data) = some [104, 105] :=
  C2_round_trip small_image [104, 105] [97, 46, 116, 120, 116] (0, 0) encode_conditions_small
    (by decide) (by decide) (by decide) (by decide) (by decide) (by decide)


/-- C2 as stated fails for a payload with a zero byte: the payload `h`, `0x00`,
`i` of the file `a.txt` in an 8 by 8 image (capacity 192, frame of 12
characters after offset 54) is encoded with success, and decoding the image
succeeds but writes `h`, `0xFF`, `0xFF`: the encoder stamps the payload as a C
string, up to its first zero byte. -/
theorem C2_zero_byte_counterexample :
    capacity_check (image_capacity (bmp_width small_image) (bmp_height small_image)) 3 = true ∧
    pixel_data_offset small_image + 8 * (2 + 3 + 1 + 1 + 1 + 3 + 1) ≤ small_image.length ∧
    (get_file_extension [97, 46, 116, 120, 116]) = (Status.e_success, [116, 120, 116]) ∧
    (do_encoding (some small_image) (some [104, 0, 105]) true [97, 46, 116, 120, 116]).map
        (fun r => r.status) = some Status.e_success ∧
    ((do_encoding (some small_image) (some [104, 0, 105]) true [97, 46, 116, 120, 116]).bind
        (fun r => do_decoding (r.encInfo.fptr_stego_image.map (fun f => f.data)) true (0, 0))).map
        (fun d => (d.status, d.decInfo.fptr_secret.map (fun f => f.data)))
      = some (Status.e_success, some [104, 255, 255]) := by
  decide!

/-! ## The rest of the image after the frame -/

/-- Under the conditions of a successful run the source image holds at least
128 bytes: the capacity test asks for `(n + 15) * 8` bytes with `n ≥ 1`. -/
theorem length_of_encode_conditions (D P fname : List Nat) (hc : encode_conditions D P fname) :
    128 ≤ D.length := by
  obtain ⟨hn, _, hcap, _, hle, _, _, hdec, _⟩ := hc
  have hm := lt_of_decimal_length _ hdec
  have hmg : strlen MAGIC_STRING = 2 := by decide
  simp only [capacity_check, hmg, MAX_FILE_SUFFIX, decide_eq_true_eq] at hcap
  omega

/-- A run of the encoder that does not open its three files fails. -/
theorem do_encoding_not_opened (src secret : Option (List Nat)) (creatable : Bool)
    (fname : List Nat) (r : EncodeResult)
    (hrun : do_encoding src secret creatable fname = some r)
    (hs : r.status = Status.e_success) :
    ∃ D P, src = some D ∧ secret = some P ∧ creatable = true := by
  cases src with
  | none =>
    simp only [do_encoding, open_files, if_true, Option.some.injEq] at hrun
    rw [← hrun] at hs; cases hs
  | some D =>
    cases secret with
    | none =>
      simp only [do_encoding, open_files, if_true, Option.some.injEq] at hrun
      rw [← hrun] at hs; cases hs
    | some P =>
      cases creatable with
      | false =>
        simp only [do_encoding, open_files, Bool.false_eq_true, if_false, if_true,
          Option.some.injEq] at hrun
        rw [← hrun] at hs; cases hs
      | true => exact ⟨D, P, rfl, rfl, rfl⟩

/-- A write never shortens the file, and the file holds at least the bytes
written. -/
theorem fwrite_length_ge (buf : List Nat) (f : FILE) :
    f.data.length ≤ (fwrite buf f).data.length ∧ buf.length ≤ (fwrite buf f).data.length := by
  unfold fwrite
  split
  · rename_i h
    subst h
    simp
  · simp only [List.length_append, List.length_take, List.length_drop, List.length_replicate]
    omega

theorem encode_string_to_image_length_le : ∀ (s : List Nat) (src dest : FILE)
    (r : Status × FILE × FILE),
    encode_string_to_image s src dest = some r → dest.data.length ≤ r.2.2.data.length := by
  intro s
  induction s with
  | nil =>
    intro src dest r h
    simp only [encode_string_to_image, Option.some.injEq] at h
    rw [← h]
  | cons ch rest ih =>
    intro src dest r h
    simp only [encode_string_to_image] at h
    split at h
    · simp only [Option.some.injEq] at h
      rw [← h]
    · split at h
      · cases h
      · exact le_trans (fwrite_length_ge _ _).1 (ih _ _ _ h)

theorem copy_remaining_img_data_loop_length_le : ∀ (fuel : Nat) (src dest : FILE),
    dest.data.length ≤ (copy_remaining_img_data_loop fuel src dest).2.data.length := by
  intro fuel
  induction fuel with
  | zero => intro src dest; simp only [copy_remaining_img_data_loop, le_refl]
  | succ k ih =>
    intro src dest
    simp only [copy_remaining_img_data_loop]
    split
    · exact le_refl _
    · exact le_trans (fwrite_length_ge _ _).1 (ih _ _)

/-- The header copy leaves at least `width * height * 3` bytes in the output. -/
theorem copy_bmp_header_length_ge (src dest : FILE) (r : Status × FILE × FILE)
    (h : copy_bmp_header src dest = some r) :
    image_capacity (bmp_width src.data) (bmp_height src.data) ≤ r.2.2.data.length := by
  have hcap32 : image_capacity (bmp_width src.data) (bmp_height src.data) < 4294967296 :=
    Nat.mod_lt _ (by decide)
  simp only [copy_bmp_header, get_image_size_for_bmp_eq] at h
  by_cases h26 : 26 ≤ src.data.length
  · simp only [h26, if_true] at h
    generalize image_capacity (bmp_width src.data) (bmp_height src.data) = cap at h hcap32 ⊢
    by_cases hneg : to_int cap < 0
    · simp only [hneg, if_true, reduceCtorEq] at h
    · have h31 : cap < 2147483648 := by
        by_contra hge
        exact hneg (to_int_neg cap (by omega) hcap32)
      have hnat : (to_int cap).toNat = cap := by rw [to_int_of_lt cap h31]; simp
      simp only [hneg, if_false, hnat] at h
      by_cases hshort : (fread cap (rewind ⟨src.data, 26, false⟩)).1.length < cap
      · simp only [hshort, if_true, reduceCtorEq] at h
      · simp only [hshort, if_false, Option.some.injEq] at h
        rw [← h]
        exact le_trans (by omega) (fwrite_length_ge _ _).2
  · simp only [h26, if_false, reduceCtorEq] at h

theorem do_encoding_copy_remaining_grows (e : EncodeInfo) (src dest : FILE) (r : EncodeResult)
    (h : do_encoding_copy_remaining e src dest = some r) :
    ∃ out, r.encInfo.fptr_stego_image = some out ∧ dest.data.length ≤ out.data.length := by
  simp only [do_encoding_copy_remaining, copy_remaining_img_data, reduceCtorEq, if_false,
    Option.some.injEq] at h
  rw [← h]
  exact ⟨_, rfl, copy_remaining_img_data_loop_length_le _ _ _⟩

theorem do_encoding_secret_data_grows (e : EncodeInfo) (src dest sec : FILE) (r : EncodeResult)
    (h : do_encoding_secret_data e src dest sec = some r) (hs : r.status = Status.e_success) :
    ∃ out, r.encInfo.fptr_stego_image = some out ∧ dest.data.length ≤ out.data.length := by
  simp only [do_encoding_secret_data] at h
  cases hd : encode_secret_file_data e.size_secret_file src dest sec with
  | none => rw [hd] at h; cases h
  | some v =>
    obtain ⟨st, src2, dest2, sec2⟩ := v
    rw [hd] at h
    simp only [] at h
    have hle : dest.data.length ≤ dest2.data.length := by
      simp only [encode_secret_file_data] at hd
      split at hd
      · cases hd
      · cases he : encode_string_to_image
            ((fread e.size_secret_file (rewind sec)).1 ++ [ENC_DATA_SEPARATOR_STRING.headD 0, 0])
            src dest with
        | none => rw [he] at hd; cases hd
        | some w =>
          rw [he] at hd
          simp only [Option.some.injEq, Prod.mk.injEq] at hd
          have := encode_string_to_image_length_le _ _ _ _ he
          rw [← hd.2.2.1]
          exact this
    split at h
    · simp only [Option.some.injEq] at h
      rw [← h] at hs
      cases hs
    · obtain ⟨out, ho, hl⟩ := do_encoding_copy_remaining_grows _ _ _ _ h
      exact ⟨out, ho, le_trans hle hl⟩

theorem do_encoding_secret_size_grows (e : EncodeInfo) (m : Nat) (src dest sec : FILE)
    (r : EncodeResult)
    (h : do_encoding_secret_size e m src dest sec = some r) (hs : r.status = Status.e_success) :
    (decimal m).length + 2 ≤ 9 ∧
    ∃ out, r.encInfo.fptr_stego_image = some out ∧ dest.data.length ≤ out.data.length := by
  simp only [do_encoding_secret_size] at h
  cases hd : encode_secret_file_size m src dest with
  | none => rw [hd] at h; cases h
  | some v =>
    obtain ⟨st, src2, dest2⟩ := v
    rw [hd] at h
    simp only [] at h
    split at h
    · simp only [Option.some.injEq] at h
      rw [← h] at hs
      cases hs
    · rename_i hst
      simp only [encode_secret_file_size] at hd
      split at hd
      · simp only [Option.some.injEq, Prod.mk.injEq] at hd
        exact absurd hd.1.symm hst
      · split at hd
        · cases hd
        · rename_i hfit
          have hdec : (decimal m).length + 2 ≤ 9 := by
            simp only [strlen, cstr_itoa] at hfit
            omega
          have hle := encode_string_to_image_length_le _ _ _ _ hd
          obtain ⟨out, ho, hl⟩ := do_encoding_secret_data_grows _ _ _ _ _ h hs
          exact ⟨hdec, out, ho, le_trans hle hl⟩

theorem do_encoding_extension_grows (e : EncodeInfo) (m : Nat) (src dest sec : FILE)
    (r : EncodeResult)
    (h : do_encoding_extension e m src dest sec = some r) (hs : r.status = Status.e_success) :
    (decimal m).length + 2 ≤ 9 ∧
    ∃ out, r.encInfo.fptr_stego_image = some out ∧ dest.data.length ≤ out.data.length := by
  simp only [do_encoding_extension] at h
  split at h
  · simp only [Option.some.injEq] at h
    rw [← h] at hs
    cases hs
  · cases hd : encode_secret_file_extn (get_file_extension e.secret_fname).2 src dest with
    | none => rw [hd] at h; cases h
    | some v =>
      obtain ⟨st, src2, dest2⟩ := v
      rw [hd] at h
      simp only [] at h
      have hle : dest.data.length ≤ dest2.data.length := by
        simp only [encode_secret_file_extn] at hd
        cases h1 : encode_string_to_image (get_file_extension e.secret_fname).2 src dest with
        | none => rw [h1] at hd; cases hd
        | some w1 =>
          rw [h1] at hd
          simp only [] at hd
          cases h2 : encode_string_to_image ENC_DATA_SEPARATOR_STRING w1.2.1 w1.2.2 with
          | none => rw [h2] at hd; cases hd
          | some w2 =>
            rw [h2] at hd
            simp only [Option.some.injEq, Prod.mk.injEq] at hd
            have a1 := encode_string_to_image_length_le _ _ _ _ h1
            have a2 := encode_string_to_image_length_le _ _ _ _ h2
            rw [← hd.2.2]
            exact le_trans a1 a2
      split at h
      · simp only [Option.some.injEq] at h
        rw [← h] at hs
        cases hs
      · obtain ⟨hdec, out, ho, hl⟩ := do_encoding_secret_size_grows _ _ _ _ _ _ h hs
        exact ⟨hdec, out, ho, le_trans hle hl⟩

theorem do_encoding_magic_grows (e : EncodeInfo) (m : Nat) (src dest sec : FILE)
    (r : EncodeResult)
    (h : do_encoding_magic e m src dest sec = some r) (hs : r.status = Status.e_success) :
    (decimal m).length + 2 ≤ 9 ∧
    ∃ out, r.encInfo.fptr_stego_image = some out ∧ dest.data.length ≤ out.data.length := by
  simp only [do_encoding_magic] at h
  cases hd : encode_magic_string src dest with
  | none => rw [hd] at h; cases h
  | some v =>
    obtain ⟨st, src2, dest2⟩ := v
    rw [hd] at h
    simp only [] at h
    have hle : dest.data.length ≤ dest2.data.length := by
      simp only [encode_magic_string] at hd
      cases hg : get_image_data_offset src with
      | none => rw [hg] at hd; cases hd
      | some w =>
        rw [hg] at hd
        simp only [] at hd
        split at hd
        · exact encode_string_to_image_length_le _ _ _ _ hd
        · exact encode_string_to_image_length_le _ _ _ _ hd
    split at h
    · simp only [Option.some.injEq] at h
      rw [← h] at hs
      cases hs
    · obtain ⟨hdec, out, ho, hl⟩ := do_encoding_extension_grows _ _ _ _ _ _ h hs
      exact ⟨hdec, out, ho, le_trans hle hl⟩

theorem do_encoding_header_grows (e : EncodeInfo) (m : Nat) (src dest sec : FILE)
    (r : EncodeResult)
    (h : do_encoding_header e m src dest sec = some r) (hs : r.status = Status.e_success) :
    (decimal m).length + 2 ≤ 9 ∧
    ∃ out, r.encInfo.fptr_stego_image = some out ∧
      image_capacity (bmp_width src.data) (bmp_height src.data) ≤ out.data.length := by
  simp only [do_encoding_header] at h
  cases hd : copy_bmp_header src dest with
  | none => rw [hd] at h; cases h
  | some v =>
    have hle := copy_bmp_header_length_ge _ _ _ hd
    obtain ⟨st, src2, dest2⟩ := v
    rw [hd] at h
    simp only [] at h hle
    split at h
    · simp only [Option.some.injEq] at h
      rw [← h] at hs
      cases hs
    · obtain ⟨hdec, out, ho, hl⟩ := do_encoding_magic_grows _ _ _ _ _ _ h hs
      exact ⟨hdec, out, ho, le_trans hle hl⟩

/-- A successful run of `do_encoding`, whatever the source image holds: the
payload is not empty, the capacity check passed, the size text fits its array,
and the output image holds at least `width * height * 3` bytes. -/
theorem do_encoding_success_bounds (D P fname : List Nat) (r : EncodeResult)
    (hrun : do_encoding (some D) (some P) true fname = some r)
    (hs : r.status = Status.e_success) :
    secret_size P ≠ 0 ∧
    capacity_check (image_capacity (bmp_width D) (bmp_height D)) (secret_size P) = true ∧
    (decimal (secret_size P)).length + 2 ≤ 9 ∧
    ∃ out, r.encInfo.fptr_stego_image = some out ∧
      image_capacity (bmp_width D) (bmp_height D) ≤ out.data.length := by
  have hsz : ((get_file_size (fopen_rb P)).1 + 1) % 4294967296 = secret_size P :=
    get_file_size_plus_one (fopen_rb P)
  rw [do_encoding_opened] at hrun
  simp only [fopen_rb] at hsz hrun
  generalize secret_size P = m at hsz ⊢
  by_cases hn : m = 0
  · simp only [do_encoding_checks, hsz, hn, if_true, Option.some.injEq] at hrun
    rw [← hrun] at hs
    cases hs
  · by_cases h26 : 26 ≤ D.length
    · by_cases hcc : capacity_check (image_capacity (bmp_width D) (bmp_height D)) m = true
      · simp only [do_encoding_checks, hsz, hn, if_false, get_image_size_for_bmp_eq, h26,
          if_true, hcc, reduceCtorEq] at hrun
        obtain ⟨hdec, out, ho, hl⟩ := do_encoding_header_grows _ _ _ _ _ _ hrun hs
        exact ⟨hn, hcc, hdec, out, ho, hl⟩
      · have hcf : capacity_check (image_capacity (bmp_width D) (bmp_height D)) m = false := by
          cases hv : capacity_check (image_capacity (bmp_width D) (bmp_height D)) m
          · rfl
          · exact absurd hv hcc
        simp only [do_encoding_checks, hsz, hn, if_false, get_image_size_for_bmp_eq, h26,
          if_true, hcf, Option.some.injEq] at hrun
        rw [← hrun] at hs
        cases hs
    · simp only [do_encoding_checks, hsz, hn, if_false, get_image_size_for_bmp_eq, h26,
        reduceCtorEq] at hrun

/-- The output of a successful run of the encoder holds at least 128 bytes. -/
theorem do_encoding_success_length (D P fname : List Nat) (r : EncodeResult) (out : FILE)
    (hrun : do_encoding (some D) (some P) true fname = some r)
    (hs : r.status = Status.e_success) (hout : r.encInfo.fptr_stego_image = some out) :
    128 ≤ out.data.length := by
  obtain ⟨hn, hcap, hdec, o, ho, hl⟩ := do_encoding_success_bounds D P fname r hrun hs
  rw [hout, Option.some.injEq] at ho
  subst ho
  have hm := lt_of_decimal_length _ hdec
  have hmg : strlen MAGIC_STRING = 2 := by decide
  simp only [capacity_check, hmg, MAX_FILE_SUFFIX, decide_eq_true_eq] at hcap
  omega

/-- The output of a successful run of the encoder on a source image whose
pixel data offset fits an `int`. -/
theorem do_encoding_success (D P fname : List Nat) (r : EncodeResult)
    (h31 : pixel_data_offset D < 2147483648)
    (hrun : do_encoding (some D) (some P) true fname = some r)
    (hs : r.status = Status.e_success) :
    encode_conditions D P fname ∧
      r.encInfo.fptr_stego_image
        = some ⟨encoded_image D (encoder_frame P fname), D.length, false⟩ := by
  by_cases hc : encode_conditions D P fname
  · obtain ⟨e, he, hout⟩ := (do_encoding_yields D P fname h31).1 hc
    rw [he, Option.some.injEq] at hrun
    subst hrun
    exact ⟨hc, hout⟩
  · have := (do_encoding_yields D P fname h31).2 hc r hrun
    rw [this] at hs; cases hs

/-- Where the encoder runs to the end (`encode_conditions`), with `F` the number
of characters of the frame it stamps (`encoder_frame`), the output image has
the length of the source image and every byte of the output at a position
`pixel_data_offset + 8 * F` or more is the byte of the source at that
position. -/
theorem tail_copied (D P fname : List Nat) (hc : encode_conditions D P fname) :
    ∃ r out, do_encoding (some D) (some P) true fname = some r ∧
      r.status = Status.e_success ∧
      r.encInfo.fptr_stego_image = some out ∧
      out.data.length = D.length ∧
      ∀ i, pixel_data_offset D + 8 * (encoder_frame P fname).length ≤ i →
        out.data[i]? = D[i]? := by
  obtain ⟨e, he, hout⟩ := (do_encoding_yields D P fname hc.2.2.2.2.2.1).1 hc
  have hfit := hc.2.2.2.2.2.2.2.2
  refine ⟨_, _, he, rfl, hout, encoded_image_length D _ hfit, ?_⟩
  intro i hi
  obtain ⟨k, rfl⟩ : ∃ k, i = pixel_data_offset D + 8 * (encoder_frame P fname).length + k :=
    ⟨i - (pixel_data_offset D + 8 * (encoder_frame P fname).length), by omega⟩
  have hd := drop_encoded_image D (encoder_frame P fname)
  have hsl := stamp_length (encoder_frame P fname) (D.drop (pixel_data_offset D))
    (by simp only [List.length_drop]; omega)
  have h2 : (encoded_image D (encoder_frame P fname)).drop
      (pixel_data_offset D + 8 * (encoder_frame P fname).length)
      = D.drop (pixel_data_offset D + 8 * (encoder_frame P fname).length) := by
    rw [← List.drop_drop, hd, List.drop_left' hsl]
  have h3 := congrArg (fun l => l[k]?) h2
  simp only [List.getElem?_drop] at h3
  exact h3

/-- One call of `encode_string_to_image` on an output stream that is written at
its end extends the stamped text by the string. -/
theorem encode_string_to_image_appended (s A D t : List Nat) (p0 : Nat) (e : Bool)
    (ht : p0 + 8 * (t ++ cstr s).length ≤ D.length) :
    encode_string_to_image s ⟨D, p0 + 8 * t.length, e⟩ (appended A D p0 t)
      = some (Status.e_success, ⟨D, p0 + 8 * (t ++ cstr s).length, e⟩,
          appended A D p0 (t ++ cstr s)) := by
  have ht0 : p0 + 8 * t.length ≤ D.length := by
    rw [List.length_append] at ht; omega
  have hst : (stamp t (D.drop p0)).length = 8 * t.length :=
    stamp_length t _ (by simp only [List.length_drop]; omega)
  have hA : (A ++ stamp t (D.drop p0)).length = A.length + 8 * t.length := by
    rw [List.length_append, hst]
  have h := encode_string_to_image_eq s D (A ++ stamp t (D.drop p0)) [] (p0 + 8 * t.length)
    e false ht0
  rw [hA, List.append_nil] at h
  have e1 : p0 + 8 * t.length + 8 * (cstr s).length = p0 + 8 * (t ++ cstr s).length := by
    rw [List.length_append]; ring
  have e2 : A.length + 8 * t.length + 8 * (cstr s).length
      = A.length + 8 * (t ++ cstr s).length := by
    rw [List.length_append]; ring
  simp only [appended]
  rw [h, e1, if_pos ht, e2, stamp_append, List.drop_drop]
  simp only [List.drop_nil, List.append_nil, List.append_assoc]

theorem encode_secret_file_extn_appended (ext A D t : List Nat) (p0 : Nat)
    (hz : ∀ x ∈ ext, x ≠ 0) (ht : p0 + 8 * (t ++ (ext ++ [42])).length ≤ D.length) :
    encode_secret_file_extn ext ⟨D, p0 + 8 * t.length, false⟩ (appended A D p0 t)
      = some (Status.e_success, ⟨D, p0 + 8 * (t ++ (ext ++ [42])).length, false⟩,
          appended A D p0 (t ++ (ext ++ [42]))) := by
  have hc : cstr ext = ext := cstr_of_no_zero ext hz
  have hsep : cstr ENC_DATA_SEPARATOR_STRING = [42] := by decide
  have h1 : p0 + 8 * (t ++ cstr ext).length ≤ D.length := by
    rw [hc]
    simp only [List.length_append, List.length_cons, List.length_nil] at ht ⊢
    omega
  have h2 : p0 + 8 * (t ++ ext ++ cstr ENC_DATA_SEPARATOR_STRING).length ≤ D.length := by
    rw [hsep, List.append_assoc]
    exact ht
  have a1 := encode_string_to_image_appended ext A D t p0 false h1
  rw [hc] at a1
  have a2 := encode_string_to_image_appended ENC_DATA_SEPARATOR_STRING A D (t ++ ext) p0 false h2
  rw [hsep, List.append_assoc] at a2
  simp only [encode_secret_file_extn, a1, a2, status_and]

theorem encode_secret_file_size_appended (n : Nat) (A D t : List Nat) (p0 : Nat)
    (hn : n ≠ 0) (hd : (decimal n).length + 2 ≤ 9)
    (ht : p0 + 8 * (t ++ (decimal n ++ [42])).length ≤ D.length) :
    encode_secret_file_size n ⟨D, p0 + 8 * t.length, false⟩ (appended A D p0 t)
      = some (Status.e_success, ⟨D, p0 + 8 * (t ++ (decimal n ++ [42])).length, false⟩,
          appended A D p0 (t ++ (decimal n ++ [42]))) := by
  have hz : ∀ x ∈ decimal n ++ [42], x ≠ 0 := by
    intro x hx
    rcases List.mem_append.mp hx with h | h
    · exact decimal_ne_zero n x h
    · simp only [List.mem_singleton] at h; omega
  have hc : cstr (decimal n ++ ENC_DATA_SEPARATOR_STRING ++ [0]) = decimal n ++ [42] :=
    cstr_append_zero (decimal n ++ [42]) [] hz
  have hd2 : ¬ (decimal n).length + 2 > 8 + 1 := by omega
  have a1 := encode_string_to_image_appended
    (decimal n ++ ENC_DATA_SEPARATOR_STRING ++ [0]) A D t p0 false (by rw [hc]; exact ht)
  rw [hc] at a1
  simp only [encode_secret_file_size, hn, if_false, strlen, cstr_itoa, hd2, a1]

theorem encode_secret_file_data_appended (P A D t : List Nat) (m p0 ps : Nat) (es : Bool)
    (hm : m ≤ P.length)
    (ht : p0 + 8 * (t ++ cstr (P.take m ++ [42, 0])).length ≤ D.length) :
    encode_secret_file_data m ⟨D, p0 + 8 * t.length, false⟩ (appended A D p0 t) ⟨P, ps, es⟩
      = some (Status.e_success,
          ⟨D, p0 + 8 * (t ++ cstr (P.take m ++ [42, 0])).length, false⟩,
          appended A D p0 (t ++ cstr (P.take m ++ [42, 0])), ⟨P, m, false⟩) := by
  have hr : fread m (rewind ⟨P, ps, es⟩) = ((P.drop 0).take m, ⟨P, 0 + m, false⟩) :=
    fread_full m (rewind ⟨P, ps, es⟩) (by simp only [rewind]; omega)
  have hsep : ENC_DATA_SEPARATOR_STRING.headD 0 = 42 := rfl
  have hl : (P.take m).length = m := by simp only [List.length_take]; omega
  have a1 := encode_string_to_image_appended (P.take m ++ [42, 0]) A D t p0 false ht
  simp only [encode_secret_file_data, hr, List.drop_zero, hl, lt_irrefl, if_false,
    hsep, Nat.zero_add, a1]

theorem copy_remaining_img_data_appended (A D t : List Nat) (p0 : Nat)
    (ht : p0 + 8 * t.length ≤ D.length) :
    copy_remaining_img_data ⟨D, p0 + 8 * t.length, false⟩ (appended A D p0 t)
      = (Status.e_success, ⟨D, D.length, true⟩,
          ⟨A ++ stamp t (D.drop p0) ++ D.drop (p0 + 8 * t.length),
            A.length + 8 * t.length + (D.length - (p0 + 8 * t.length)), false⟩) := by
  have hst : (stamp t (D.drop p0)).length = 8 * t.length :=
    stamp_length t _ (by simp only [List.length_drop]; omega)
  have hA : (A ++ stamp t (D.drop p0)).length = A.length + 8 * t.length := by
    rw [List.length_append, hst]
  have h := copy_remaining_img_data_loop_eq D (D.length + 1) (p0 + 8 * t.length)
    (A ++ stamp t (D.drop p0)) [] false ht (by omega)
  rw [hA, List.append_nil] at h
  simp only [copy_remaining_img_data, appended, h, List.drop_nil, List.append_nil]

/-- The run of `do_encoding` on a source image whose offset field is `2^31` or
more, a negative `int`: the two seeks of `encode_magic_string` fail unnoticed,
the frame is stamped on the source bytes from byte 14 on and written behind
the `width * height * 3` bytes of the header copy, and the source bytes behind
the blocks used follow. -/
theorem do_encoding_failed_seek (D P fname : List Nat)
    (hn : secret_size P ≠ 0) (h26 : 26 ≤ D.length)
    (hcc : capacity_check (image_capacity (bmp_width D) (bmp_height D)) (secret_size P) = true)
    (hcap : image_capacity (bmp_width D) (bmp_height D) < 2147483648)
    (hcapl : image_capacity (bmp_width D) (bmp_height D) ≤ D.length)
    (hoff : 2147483648 ≤ pixel_data_offset D)
    (hext : (get_file_extension fname).1 = Status.e_success)
    (hdec : (decimal (secret_size P)).length + 2 ≤ 9)
    (hfit : 14 + 8 * (encoder_frame P fname).length ≤ D.length) :
    ∃ e, do_encoding (some D) (some P) true fname = some ⟨Status.e_success, none, e⟩ ∧
      e.fptr_stego_image
        = some ⟨D.take (image_capacity (bmp_width D) (bmp_height D))
            ++ stamp (encoder_frame P fname) (D.drop 14)
            ++ D.drop (14 + 8 * (encoder_frame P fname).length),
          image_capacity (bmp_width D) (bmp_height D) + 8 * (encoder_frame P fname).length
            + (D.length - (14 + 8 * (encoder_frame P fname).length)), false⟩ := by
  have hs : ((get_file_size (fopen_rb P)).1 + 1) % 4294967296 = secret_size P :=
    get_file_size_plus_one (fopen_rb P)
  have hst : (get_file_size (fopen_rb P)).2 = ⟨P, P.length, true⟩ := get_file_size_stream _
  have hm : secret_size P ≤ P.length := Nat.mod_le _ _
  have hneg : to_int (pixel_data_offset D) < 0 :=
    to_int_neg _ hoff (by simp only [pixel_data_offset]; exact le32_lt _)
  have h14 : 14 ≤ D.length := by omega
  have hz : ∀ x ∈ (get_file_extension fname).2, x ≠ 0 := by
    intro x hx h0
    rw [h0] at hx
    exact (get_file_extension_success _ hext).2.1 hx
  have hnf : ¬ (get_file_extension fname).1 = Status.e_failure := by
    rw [hext]; decide
  rw [do_encoding_opened]
  simp only [fopen_rb] at hs hst ⊢
  simp only [encoder_frame, frame_text] at hfit ⊢
  generalize secret_size P = m at hs hm hn hcc hdec hfit ⊢
  generalize hxe : (get_file_extension fname).2 = ext at hz hfit ⊢
  generalize hcapd : image_capacity (bmp_width D) (bmp_height D) = cap at hcc hcap hcapl ⊢
  have hA : (D.take cap).length = cap := by
    simp only [List.length_take]; omega
  have h0 : (⟨D.take cap, cap, false⟩ : FILE) = appended (D.take cap) D 14 [] := by
    simp only [appended, stamp, List.append_nil, hA, List.length_nil, Nat.mul_zero,
      Nat.add_zero]
  have hcm : cstr MAGIC_STRING = MAGIC_STRING := cstr_magic
  have f1 : 14 + 8 * ([] ++ cstr MAGIC_STRING).length ≤ D.length := by
    rw [hcm]
    simp only [List.length_append, List.nil_append] at hfit ⊢
    omega
  have s1 := encode_string_to_image_appended MAGIC_STRING (D.take cap) D [] 14 false f1
  rw [hcm, List.nil_append] at s1
  simp only [List.length_nil, Nat.mul_zero, Nat.add_zero] at s1
  have f2 : 14 + 8 * (MAGIC_STRING ++ (ext ++ [42])).length ≤ D.length := by
    simp only [List.length_append] at hfit ⊢
    omega
  have s2 := encode_secret_file_extn_appended ext (D.take cap) D MAGIC_STRING 14 hz f2
  have f3 : 14 + 8 * (MAGIC_STRING ++ (ext ++ [42]) ++ (decimal m ++ [42])).length
      ≤ D.length := by
    simp only [List.length_append] at hfit ⊢
    omega
  have s3 := encode_secret_file_size_appended m (D.take cap) D
    (MAGIC_STRING ++ (ext ++ [42])) 14 hn hdec f3
  have s4 := encode_secret_file_data_appended P (D.take cap) D
    (MAGIC_STRING ++ (ext ++ [42]) ++ (decimal m ++ [42])) m 14 P.length true hm hfit
  have s5 := copy_remaining_img_data_appended (D.take cap) D
    (MAGIC_STRING ++ (ext ++ [42]) ++ (decimal m ++ [42]) ++ cstr (P.take m ++ [42, 0])) 14
    hfit
  have hcb := copy_bmp_header_eq ⟨D, 26, false⟩
  simp only [hcapd, h26, hcap, hcapl, and_self, if_true] at hcb
  simp only [do_encoding_checks, hs, hn, if_false, get_image_size_for_bmp_eq, h26, if_true,
    hcapd, hcc, reduceCtorEq, hst]
  simp only [do_encoding_header, hcb, reduceCtorEq, if_false]
  simp only [do_encoding_magic, encode_magic_string, get_image_data_offset_eq, h14, if_true,
    hneg, h0, s1, reduceCtorEq, if_false]
  simp only [do_encoding_extension, hnf, if_false, hxe, s2, reduceCtorEq]
  simp only [do_encoding_secret_size, s3, reduceCtorEq, if_false]
  simp only [do_encoding_secret_data, s4, reduceCtorEq, if_false]
  simp only [do_encoding_copy_remaining, s5, reduceCtorEq, if_false, hA]
  exact ⟨_, rfl, rfl⟩

/-- C11 on the code: `negative_offset_image` is the 8 by 8 image of 246 bytes
with the offset field `FF FF FF FF`, which `get_image_data_offset` returns as
the `int` value `-1`. Both calls of `fseek` in `encode_magic_string` fail, the
test of `ferror` behind them passes, and the frame of the payload `hi` of the
file `a.txt` (11 characters, 88 bytes) is stamped on the source bytes from
byte 14 on and written behind the 192 bytes of the header copy; the source
bytes from byte 102 on follow. `do_encoding` returns success with an output
image of 424 bytes: the output does not have the length of the source. -/
theorem C11_failed_seek_output_longer :
    negative_offset_image.length = 246 ∧
    to_int (pixel_data_offset negative_offset_image) = -1 ∧
    (encoder_frame [104, 105] [97, 46, 116, 120, 116]).length = 11 ∧
    ∃ r out, do_encoding (some negative_offset_image) (some [104, 105]) true
        [97, 46, 116, 120, 116] = some r ∧
      r.status = Status.e_success ∧
      r.encInfo.fptr_stego_image = some out ∧
      out.data.length = 424 ∧
      out.data
        = negative_offset_image.take 192
          ++ stamp (encoder_frame [104, 105] [97, 46, 116, 120, 116])
              (negative_offset_image.drop 14)
          ++ negative_offset_image.drop 102 := by
  have hd : decimal 2 = [50] := by norm_num [decimal]
  have hs : secret_size [104, 105] = 2 := by decide
  have hx : get_file_extension [97, 46, 116, 120, 116]
      = (Status.e_success, [116, 120, 116]) := by
    decide!
  have hf : encoder_frame [104, 105] [97, 46, 116, 120, 116]
      = [35, 42, 116, 120, 116, 42, 50, 42, 104, 105, 42] := by
    simp only [encoder_frame, frame_text, hs, hd]
    decide!
  have hcap : image_capacity (bmp_width negative_offset_image)
      (bmp_height negative_offset_image) = 192 := by decide!
  obtain ⟨e, he, hout⟩ := do_encoding_failed_seek negative_offset_image [104, 105]
    [97, 46, 116, 120, 116] (by rw [hs]; decide) (by decide!) (by rw [hcap, hs]; decide)
    (by rw [hcap]; decide) (by rw [hcap]; decide!) (by decide!) (by rw [hx])
    (by rw [hs, hd]; decide) (by rw [hf]; decide!)
  rw [hf, hcap] at hout
  rw [hf]
  refine ⟨by decide!, by decide!, by decide, _, _, he, rfl, hout, ?_, rfl⟩
  decide!

/-! ## The magic string on an arbitrary image -/

/-- A block read that the file can satisfy. -/
theorem fread_block (X : List Nat) (p : Nat) (h : p + 8 ≤ X.length) :
    fread MAX_IMAGE_BUF_SIZE ⟨X, p, false⟩ = ((X.drop p).take 8, ⟨X, p + 8, false⟩) :=
  fread_full 8 ⟨X, p, false⟩ h

/-- The loop of `find_magic_string` where the file holds two blocks: they are
unpacked, whatever `magic_str` held. -/
theorem find_magic_string_loop_blocks (X : List Nat) (p s0 s1 : Nat) (h : p + 16 ≤ X.length) :
    find_magic_string_loop 2 0 [s0, s1] ⟨X, p, false⟩
      = (unpack_blocks 2 (X.drop p), ⟨X, p + 16, false⟩) := by
  have h1 := fread_block X p (by omega)
  have h2 := fread_block X (p + 8) (by omega)
  simp only [find_magic_string_loop, h1, h2, Bool.false_eq_true, if_false, List.set_cons_zero,
    List.set_cons_succ, unpack_blocks, List.drop_drop]

theorem is_magic_string_pair (a b : Nat) :
    is_magic_string [a, b] = Status.e_success ↔ [a, b] = [35, 42] := by
  have hs : strlen MAGIC_STRING = 2 := by decide
  simp only [is_magic_string, hs, MAGIC_STRING, strncmp_eq, List.headD_cons, List.tail_cons]
  by_cases ha : a = 35
  · by_cases hb : b = 42
    · subst ha; subst hb; decide
    · subst ha; simp [hb]
  · simp [ha]

theorem unpack_blocks_two (l : List Nat) :
    unpack_blocks 2 l = [(get_data_from_byte_array (l.take 8)).2,
      (get_data_from_byte_array ((l.drop 8).take 8)).2] := rfl

/-- The function `find_magic_string` on an image that holds two blocks at its
pixel data offset. -/
theorem find_magic_string_blocks (X : List Nat) (stale : Nat × Nat)
    (hoff : pixel_data_offset X < 2147483648)
    (h16 : pixel_data_offset X + 16 ≤ X.length) :
    find_magic_string stale (fopen_rb X)
      = some (is_magic_string (unpack_blocks 2 (X.drop (pixel_data_offset X))),
          ⟨X, pixel_data_offset X + 16, false⟩) := by
  have h14 : 14 ≤ X.length := by omega
  have hneg : ¬ to_int (pixel_data_offset X) < 0 := by rw [to_int_of_lt _ hoff]; omega
  have hnat : (to_int (pixel_data_offset X)).toNat = pixel_data_offset X := by
    rw [to_int_of_lt _ hoff]; simp
  have hstr : strlen MAGIC_STRING = 2 := by decide
  have hl := find_magic_string_loop_blocks X (pixel_data_offset X) stale.1 stale.2 h16
  simp only [find_magic_string, get_image_data_offset_eq, fopen_rb, h14, if_true, hneg,
    if_false, hnat, fseek_set, hstr, hl]

/-- C12, amended: for every carrier image with a pixel data offset below
`2^31` that holds at least 16 bytes from that offset on, whether or not the
encoder produced it, `find_magic_string` returns success when the first two
8-byte blocks there unpack to `#` and `*` and failure when they do not. -/
theorem C12_magic_check_reads_blocks (X : List Nat) (stale : Nat × Nat)
    (hoff : pixel_data_offset X < 2147483648)
    (h16 : pixel_data_offset X + 16 ≤ X.length) :
    ∃ st f, find_magic_string stale (fopen_rb X) = some (st, f) ∧
      (unpack_blocks 2 (X.drop (pixel_data_offset X)) = [35, 42] → st = Status.e_success) ∧
      (unpack_blocks 2 (X.drop (pixel_data_offset X)) ≠ [35, 42] → st = Status.e_failure) := by
  refine ⟨_, _, find_magic_string_blocks X stale hoff h16, ?_, ?_⟩
  · intro h
    rw [unpack_blocks_two] at h ⊢
    exact (is_magic_string_pair _ _).2 h
  · intro h
    rw [unpack_blocks_two] at h ⊢
    cases hst : is_magic_string [(get_data_from_byte_array ((X.drop (pixel_data_offset X)).take 8)).2,
      (get_data_from_byte_array (((X.drop (pixel_data_offset X)).drop 8).take 8)).2] with
    | e_success => exact absurd ((is_magic_string_pair _ _).1 hst) h
    | e_failure => rfl

/-- C12, an instance: the 2 by 2 image whose 16 pixel bytes have the low bits
of `#*`. -/
theorem C12_magic_check_reads_blocks_witness :
    ∃ st f, find_magic_string (0, 0) (fopen_rb lookalike_image) = some (st, f) ∧
      (unpack_blocks 2 (lookalike_image.drop (pixel_data_offset lookalike_image)) = [35, 42]
        → st = Status.e_success) ∧
      (unpack_blocks 2 (lookalike_image.drop (pixel_data_offset lookalike_image)) ≠ [35, 42]
        → st = Status.e_failure) :=
  C12_magic_check_reads_blocks lookalike_image (0, 0) (by decide) (by decide)

/-- C12 as stated fails: the 70-byte image `lookalike_image` (a 2 by 2 bitmap
whose 16 pixel bytes happen to have the low bits of `#*`) is the output of no
successful run of the encoder, since such an output has at least 128 bytes;
yet `find_magic_string` returns success on it and `do_decoding` goes on to
success. -/
theorem C12_lookalike_counterexample :
    (∀ (src secret : Option (List Nat)) (creatable : Bool) (fname : List Nat)
        (r : EncodeResult) (out : FILE),
        do_encoding src secret creatable fname = some r → r.status = Status.e_success →
        r.encInfo.fptr_stego_image = some out → out.data ≠ lookalike_image) ∧
    (find_magic_string (0, 0) (fopen_rb lookalike_image)).map (fun r => r.1)
      = some Status.e_success ∧
    (do_decoding (some lookalike_image) true (0, 0)).map (fun d => d.status)
      = some Status.e_success := by
  refine ⟨?_, by decide, by decide⟩
  intro src secret creatable fname r out hrun hs hout heq
  obtain ⟨D, P, rfl, rfl, rfl⟩ := do_encoding_not_opened src secret creatable fname r hrun hs
  have h128 := do_encoding_success_length D P fname r out hrun hs hout
  rw [heq] at h128
  have h70 : lookalike_image.length = 70 := by decide
  omega

/-- C13 on the code: the 1 by 1 image `one_pixel_image` holds 4 bytes from its
pixel data offset on, fewer than one block. The first read of
`find_magic_string` meets the end of the file, the loop is left, and the
array `magic_str`, never written, is compared: when it holds `#*` the function
returns success, when it holds two zero bytes it returns failure. -/
theorem C13_unwritten_buffer_compared :
    one_pixel_image.length = pixel_data_offset one_pixel_image + 4 ∧
    find_magic_string (35, 42) (fopen_rb one_pixel_image)
      = some (Status.e_success, ⟨one_pixel_image, 58, true⟩) ∧
    find_magic_string (0, 0) (fopen_rb one_pixel_image)
      = some (Status.e_failure, ⟨one_pixel_image, 58, true⟩) := by
  decide

/-- On a carrier image that holds two 8-byte blocks at its pixel data offset
(an offset that fits an `int`) which do not unpack to `#*`, `do_decoding`
returns failure with the message that no data is encoded, and
`create_secret_data_file` is not reached: the session holds no output stream,
whether or not the output file could be created. -/
theorem no_magic_no_output (X : List Nat) (creatable : Bool) (stale : Nat × Nat)
    (hoff : pixel_data_offset X < 2147483648)
    (h16 : pixel_data_offset X + 16 ≤ X.length)
    (hne : unpack_blocks 2 (X.drop (pixel_data_offset X)) ≠ [35, 42]) :
    do_decoding (some X) creatable stale
      = some ⟨Status.e_failure, some DecodeError.no_data_encoded,
          { fptr_secret := none, extn_secret_file := [],
            fptr_stego_image := some ⟨X, pixel_data_offset X + 16, false⟩ }⟩ := by
  have hf := find_magic_string_blocks X stale hoff h16
  have hst : is_magic_string (unpack_blocks 2 (X.drop (pixel_data_offset X)))
      = Status.e_failure := by
    rw [unpack_blocks_two] at hne ⊢
    cases hst : is_magic_string [(get_data_from_byte_array ((X.drop (pixel_data_offset X)).take 8)).2,
      (get_data_from_byte_array (((X.drop (pixel_data_offset X)).drop 8).take 8)).2] with
    | e_success => exact absurd ((is_magic_string_pair _ _).1 hst) hne
    | e_failure => rfl
  simp only [do_decoding, hf, hst, if_true]

/-- C14 on the code: the 1 by 1 image `one_pixel_image` holds 4 bytes from its
pixel data offset on, so it has no two blocks there that unpack to `#*`; the
read of `find_magic_string` is short, the array `magic_str`, never written, is
compared, and when it holds `#*` from before `do_decoding` goes on, reaches
`create_secret_data_file`, opens the output file and returns success. The
image `stray_frame_image` of 70 bytes has the offset field `FF FF FF FF` and
no byte at that offset; the seek of `find_magic_string` fails, the test of
`ferror` passes, the magic string is read from byte 14 on, where the low bits
carry `#**0*`, and `do_decoding` opens the output file and returns success,
whatever `magic_str` held. -/
theorem C14_output_opened_without_magic :
    (one_pixel_image.length = pixel_data_offset one_pixel_image + 4 ∧
      unpack_blocks 2 (one_pixel_image.drop (pixel_data_offset one_pixel_image)) ≠ [35, 42] ∧
      do_decoding (some one_pixel_image) true (35, 42)
        = some ⟨Status.e_success, none,
            { fptr_secret := some ⟨[], 0, false⟩, extn_secret_file := [0],
              fptr_stego_image := some ⟨one_pixel_image, 58, true⟩ }⟩) ∧
    (stray_frame_image.length = 70 ∧
      to_int (pixel_data_offset stray_frame_image) = -1 ∧
      unpack_blocks 2 (stray_frame_image.drop (pixel_data_offset stray_frame_image)) ≠ [35, 42] ∧
      ∀ s0 s1, do_decoding (some stray_frame_image) true (s0, s1)
        = some ⟨Status.e_success, none,
            { fptr_secret := some ⟨[], 0, false⟩, extn_secret_file := [0],
              fptr_stego_image := some ⟨stray_frame_image, 54, false⟩ }⟩) := by
  refine ⟨⟨by decide!, by decide!, by decide!⟩, by decide!, by decide!, by decide!, ?_⟩
  intro s0 s1
  have hm : find_magic_string (s0, s1) (fopen_rb stray_frame_image)
      = some (Status.e_success, ⟨stray_frame_image, 30, false⟩) := by
    have hg : get_image_data_offset (fopen_rb stray_frame_image)
        = some (-1, ⟨stray_frame_image, 14, false⟩) := by decide!
    have hl := find_magic_string_loop_blocks stray_frame_image 14 s0 s1 (by decide!)
    have hs : strlen MAGIC_STRING = 2 := by decide
    have hu : unpack_blocks 2 (stray_frame_image.drop 14) = [35, 42] := by decide!
    have hneg : (-1 : Int) < 0 := by decide
    simp only [find_magic_string, hg, hs, hneg, if_true, hl, hu]
    rfl
  have hrest : do_decoding (some stray_frame_image) true (0, 0)
      = some ⟨Status.e_success, none,
          { fptr_secret := some ⟨[], 0, false⟩, extn_secret_file := [0],
            fptr_stego_image := some ⟨stray_frame_image, 54, false⟩ }⟩ := by decide!
  have hm0 : find_magic_string (0, 0) (fopen_rb stray_frame_image)
      = some (Status.e_success, ⟨stray_frame_image, 30, false⟩) := by decide!
  simp only [do_decoding, hm0] at hrest
  simp only [do_decoding, hm]
  exact hrest

/-! ## The capacity check -/

/-- C15, amended: for every carrier image of at least 26 bytes and every
non-empty payload for which the capacity check fails, `do_encoding` (its three
files opened) returns failure with the message that the image is not large
enough; `open_files` has created the destination image before the check, and
the session holds its stream, still empty. -/
theorem C15_capacity_failure (D P fname : List Nat) (h26 : 26 ≤ D.length)
    (hn : secret_size P ≠ 0)
    (hcap : capacity_check (image_capacity (bmp_width D) (bmp_height D)) (secret_size P)
      = false) :
    ∃ e, do_encoding (some D) (some P) true fname
        = some ⟨Status.e_failure, some EncodeError.image_not_large_enough, e⟩ ∧
      e.fptr_stego_image = some fopen_wb := by
  have hs : ((get_file_size (fopen_rb P)).1 + 1) % 4294967296 = secret_size P :=
    get_file_size_plus_one (fopen_rb P)
  rw [do_encoding_opened]
  simp only [fopen_rb] at hs ⊢
  simp only [do_encoding_checks, hs, hn, if_false, get_image_size_for_bmp_eq,
    h26, if_true, hcap]
  exact ⟨_, rfl, rfl⟩

/-- C15, an instance: the payload `hi` in a 6 by 7 image, whose capacity 126
is 10 bytes less than the 136 bytes the check asks for. -/
theorem C15_capacity_failure_witness :
    ∃ e, do_encoding (some image_6x7) (some [104, 105]) true [97, 46, 116, 120, 116]
        = some ⟨Status.e_failure, some EncodeError.image_not_large_enough, e⟩ ∧
      e.fptr_stego_image = some fopen_wb :=
  C15_capacity_failure image_6x7 [104, 105] [97, 46, 116, 120, 116] (by decide!) (by decide!)
    (by decide!)

/-- C15 as stated fails: for the payload `hi` and a 6 by 7 image (capacity 126,
10 bytes less than the 136 the check asks for) `do_encoding` returns failure,
but the destination image has been created by `open_files` before the check:
the session holds its stream. -/
theorem C15_destination_created_counterexample :
    image_capacity (bmp_width image_6x7) (bmp_height image_6x7) + 10 = (2 + 2 + 4 + 9) * 8 ∧
    capacity_check (image_capacity (bmp_width image_6x7) (bmp_height image_6x7)) 2 = false ∧
    (do_encoding (some image_6x7) (some [104, 105]) true [97, 46, 116, 120, 116]).map
        (fun r => (r.status, r.message, r.encInfo.fptr_stego_image))
      = some (Status.e_failure, some EncodeError.image_not_large_enough, some fopen_wb) ∧
    (some fopen_wb : Option FILE) ≠ none := by
  decide!

theorem decimal_two : decimal 2 = [50] := by
  norm_num [decimal]

/-- C16, amended: for every carrier image whose capacity `width * height * 3`
is at least `(2 + 2 + 4 + 9) * 8 = 136` bytes (what the capacity check of
`do_encoding` asks for a 2-byte payload) and below `2^31`, whose pixel data
offset is at least 14 and below `2^31` and which holds that many bytes from
the offset on,
encoding the payload `hi` taken from a file whose name ends, after its first
`.`, with `txt` succeeds, and decoding the resulting image succeeds, recovers
the extension `txt` and writes exactly the bytes `hi`. -/
theorem C16_hi_txt_round_trip (D fname pre : List Nat) (stale : Nat × Nat)
    (hname : cstr fname = pre ++ [46, 116, 120, 116]) (hpre : 46 ∉ pre)
    (h14 : 14 ≤ pixel_data_offset D) (hoff : pixel_data_offset D < 2147483648)
    (hcap : 136 ≤ bmp_width D * bmp_height D * 3)
    (hcap31 : bmp_width D * bmp_height D * 3 < 2147483648)
    (hfit : pixel_data_offset D + bmp_width D * bmp_height D * 3 ≤ D.length) :
    ∃ r out d, do_encoding (some D) (some [104, 105]) true fname = some r ∧
      r.status = Status.e_success ∧ r.encInfo.fptr_stego_image = some out ∧
      do_decoding (some out.data) true stale = some d ∧
      d.status = Status.e_success ∧
      d.decInfo.extn_secret_file = [116, 120, 116, 0] ∧
      d.decInfo.fptr_secret.map (fun f => f.data) = some [104, 105] := by
  have hx : get_file_extension fname = (Status.e_success, [116, 120, 116]) := by
    rw [get_file_extension_eq pre [116, 120, 116] fname hname hpre]
    decide
  have hcp : image_capacity (bmp_width D) (bmp_height D) = bmp_width D * bmp_height D * 3 := by
    simp only [image_capacity]
    exact Nat.mod_eq_of_lt (by omega)
  have hs : secret_size [104, 105] = 2 := by decide
  have hcs : cstr ([104, 105] ++ [42, 0]) = [104, 105, 42] := by decide
  have hmg : strlen [35, 42] = 2 := by decide
  have hc : encode_conditions D [104, 105] fname := by
    simp only [encode_conditions, encoder_frame, frame_text, hs, hx, hcp, decimal_two,
      List.take_succ_cons, List.take_zero, hcs, capacity_check, hmg, MAX_FILE_SUFFIX,
      MAGIC_STRING, List.length_append, List.length_cons, List.length_nil, decide_eq_true_eq]
    refine ⟨by omega, by omega, by omega, hcap31, by omega, hoff, trivial, by omega, by omega⟩
  have h := round_trip D [104, 105] fname stale hc (by decide) (by decide) (by decide)
    (by rw [hx]; decide) h14
  rw [hx] at h
  exact h

/-- C16, an instance: the file `a.txt` and the 8 by 8 image, of capacity
192. -/
theorem C16_hi_txt_round_trip_witness :
    ∃ r out d, do_encoding (some small_image) (some [104, 105]) true [97, 46, 116, 120, 116]
        = some r ∧
      r.status = Status.e_success ∧ r.encInfo.fptr_stego_image = some out ∧
      do_decoding (some out.data) true (0, 0) = some d ∧
      d.status = Status.e_success ∧
      d.decInfo.extn_secret_file = [116, 120, 116, 0] ∧
      d.decInfo.fptr_secret.map (fun f => f.data) = some [104, 105] :=
  C16_hi_txt_round_trip small_image [97, 46, 116, 120, 116] [97] (0, 0) (by decide) (by decide)
    (by decide!) (by decide!) (by decide!) (by decide!) (by decide!)

/-- C16 as stated fails: the 6 by 7 image has capacity `6 * 7 * 3 = 126`, at
least 88, and holds 140 pixel bytes after its offset, the file `a.txt` has the
extension `txt`, yet `do_encoding` of the payload `hi` returns failure: its
capacity check asks for `(2 + 2 + 4 + 9) * 8 = 136` bytes. -/
theorem C16_capacity_88_counterexample :
    (2 + 2 + 3 + 1 + 3) * 8 ≤ bmp_width image_6x7 * bmp_height image_6x7 * 3 ∧
    pixel_data_offset image_6x7 + bmp_width image_6x7 * bmp_height image_6x7 * 3
      ≤ image_6x7.length ∧
    get_file_extension [97, 46, 116, 120, 116] = (Status.e_success, [116, 120, 116]) ∧
    (do_encoding (some image_6x7) (some [104, 105]) true [97, 46, 116, 120, 116]).map
        (fun r => (r.status, r.message))
      = some (Status.e_failure, some EncodeError.image_not_large_enough) := by
  decide!

/-! ## The decoder on an arbitrary or truncated frame -/

/-- The separator loop where the file holds the blocks of the text `u`, without
`*`, then a block that unpacks to `*`: the characters of `u` are gathered and
the stream is left behind the block of the separator. -/
theorem read_until_separator_blocks (X : List Nat) : ∀ (u buf : List Nat) (p fuel : Nat),
    unpack_blocks (u.length + 1) (X.drop p) = u ++ [42] → 42 ∉ u →
    p + 8 * (u.length + 1) ≤ X.length → u.length < fuel →
    read_until_separator fuel ⟨X, p, false⟩ buf
      = (buf ++ u, ⟨X, p + 8 * (u.length + 1), false⟩) := by
  intro u
  induction u with
  | nil =>
    intro buf p fuel h _ hfit hf
    obtain ⟨k, rfl⟩ : ∃ k, fuel = k + 1 := ⟨fuel - 1, by simp only [List.length_nil] at hf; omega⟩
    simp only [List.length_nil, Nat.zero_add, unpack_blocks, List.nil_append,
      List.cons.injEq, and_true] at h
    have hr := fread_block X p (by simp only [List.length_nil] at hfit; omega)
    simp only [read_until_separator, hr, h, Bool.false_eq_true, if_false, if_true,
      List.append_nil, List.length_nil]
  | cons c u ih =>
    intro buf p fuel h hu hfit hf
    obtain ⟨k, rfl⟩ : ∃ k, fuel = k + 1 := ⟨fuel - 1, by simp only [List.length_cons] at hf; omega⟩
    simp only [List.length_cons] at hfit hf h
    have hstep : unpack_blocks (u.length + 1 + 1) (X.drop p)
        = (get_data_from_byte_array ((X.drop p).take 8)).2
            :: unpack_blocks (u.length + 1) ((X.drop p).drop 8) := rfl
    rw [hstep, List.cons_append, List.cons.injEq, List.drop_drop] at h
    have hc : c ≠ 42 := fun hc => hu (by simp [hc])
    have hr := fread_block X p (by omega)
    have h1 := ih (buf ++ [c]) (p + 8) k h.2 (fun hm => hu (by simp [hm])) (by omega) (by omega)
    have e1 : p + 8 + 8 * (u.length + 1) = p + 8 * (u.length + 1 + 1) := by ring
    rw [e1] at h1
    simp only [read_until_separator, hr, h.1, hc, Bool.false_eq_true, if_false, h1,
      List.length_cons, List.append_assoc, List.singleton_append]

/-- The loop that reads the secret message where the file holds `k` blocks:
they are unpacked. -/
theorem read_secret_msg_blocks (X : List Nat) : ∀ (k : Nat) (buf : List Nat) (p : Nat),
    p + 8 * k ≤ X.length →
    read_secret_msg k ⟨X, p, false⟩ buf
      = (buf ++ unpack_blocks k (X.drop p), ⟨X, p + 8 * k, false⟩) := by
  intro k
  induction k with
  | zero =>
    intro buf p _
    simp [read_secret_msg, unpack_blocks]
  | succ k ih =>
    intro buf p hfit
    have hr := fread_block X p (by omega)
    have h1 := ih (buf ++ [(get_data_from_byte_array ((X.drop p).take 8)).2]) (p + 8) (by omega)
    have e1 : p + 8 + 8 * k = p + 8 * (k + 1) := by ring
    rw [e1] at h1
    simp only [read_secret_msg, hr, Bool.false_eq_true, if_false, h1, unpack_blocks,
      List.drop_drop, List.append_assoc, List.singleton_append]

/-- The function `get_secret_data_file_extn` has no path that returns failure. -/
theorem get_secret_data_file_extn_status (f : FILE) (r : Status × List Nat × FILE)
    (h : get_secret_data_file_extn f = some r) : r.1 = Status.e_success := by
  simp only [get_secret_data_file_extn] at h
  split at h
  · cases h
  · rw [Option.some.injEq] at h
    rw [← h]

/-- The function `copy_data_to_secret_data_file` has no path that returns
failure on a stream without write error. -/
theorem copy_data_to_secret_data_file_status (f out : FILE) (r : Status × FILE × FILE)
    (h : copy_data_to_secret_data_file f out = some r) : r.1 = Status.e_success := by
  simp only [copy_data_to_secret_data_file] at h
  split at h
  · cases h
  · split at h
    · cases h
    · split at h
      · cases h
      · rw [Option.some.injEq] at h
        rw [← h]

/-- C17 on the code: the image carries `#*t` and ends there (78 bytes, three
blocks after offset 54). After the magic string the stream is exhausted before
any block unpacks to `*`, and `get_secret_data_file_extn` leaves its loop at the
end of the file and returns success with the extension `t`. -/
theorem C17_truncated_extension_success :
    cut_extension_image.length = 54 + 8 * 3 ∧
    unpack_blocks 3 (cut_extension_image.drop 54) = [35, 42, 116] ∧
    find_magic_string (0, 0) (fopen_rb cut_extension_image)
      = some (Status.e_success, ⟨cut_extension_image, 70, false⟩) ∧
    get_secret_data_file_extn ⟨cut_extension_image, 70, false⟩
      = some (Status.e_success, [116, 0], ⟨cut_extension_image, 78, true⟩) := by
  decide!

/-- C18 on the code: the image carries `#*t*5*hi` and ends there (118 bytes).
The size field is read as 5 but only 2 full blocks follow its separator;
`copy_data_to_secret_data_file` leaves its loop at the end of the file, writes
`hi` and returns success, and so does `do_decoding`. -/
theorem C18_truncated_payload_success :
    cut_payload_image.length = 54 + 8 * 8 ∧
    unpack_blocks 8 (cut_payload_image.drop 54) = [35, 42, 116, 42, 53, 42, 104, 105] ∧
    atoi [53, 0] = some 5 ∧
    copy_data_to_secret_data_file ⟨cut_payload_image, 86, false⟩ fopen_wb
      = some (Status.e_success, ⟨cut_payload_image, 118, true⟩, ⟨[104, 105], 2, false⟩) ∧
    (do_decoding (some cut_payload_image) true (0, 0)).map
        (fun d => (d.status, d.decInfo.fptr_secret.map (fun f => f.data)))
      = some (Status.e_success, some [104, 105]) := by
  decide!

/-- C19, amended: for every carrier image whose size field (the characters
`u`, at most 9, unpacked from the blocks before the first block that unpacks
to `*`) is read by `atoi` as a count `n ≥ 0`, and which holds `n` full blocks
after the separator of the size field, `copy_data_to_secret_data_file`
returns success, leaves the image stream right behind these `n` blocks
(no further separator is read) and writes to the output the bytes unpacked
from them, in order, up to the first zero byte among them: all `n` bytes when
none of them is zero. -/
theorem C19_counted_payload (X u : List Nat) (p n : Nat)
    (hsz : unpack_blocks (u.length + 1) (X.drop p) = u ++ [42]) (hu : 42 ∉ u)
    (hul : u.length < 10) (hn : atoi (u ++ [0]) = some (n : Int))
    (hfit : p + 8 * (u.length + 1) + 8 * n ≤ X.length) :
    ∃ out, copy_data_to_secret_data_file ⟨X, p, false⟩ fopen_wb
        = some (Status.e_success, ⟨X, p + 8 * (u.length + 1) + 8 * n, false⟩, out) ∧
      out.data = cstr (unpack_blocks n (X.drop (p + 8 * (u.length + 1))) ++ [0]) ∧
      ((∀ x ∈ unpack_blocks n (X.drop (p + 8 * (u.length + 1))), x ≠ 0) →
        out.data = unpack_blocks n (X.drop (p + 8 * (u.length + 1)))) := by
  have hs := read_until_separator_blocks X u [] p (X.length + 1) hsz hu (by omega) (by omega)
  have hm := read_secret_msg_blocks X n [] (p + 8 * (u.length + 1)) hfit
  have hw := fwrite_at [] [] (cstr (unpack_blocks n (X.drop (p + 8 * (u.length + 1))) ++ [0])) false
  simp only [List.nil_append, List.length_nil, List.drop_nil, List.append_nil,
    Nat.zero_add] at hw
  have hnl : ¬ u.length ≥ 10 := by omega
  have hnn : ¬ ((n : Nat) : Int) < 0 := by omega
  refine ⟨⟨cstr (unpack_blocks n (X.drop (p + 8 * (u.length + 1))) ++ [0]),
    (cstr (unpack_blocks n (X.drop (p + 8 * (u.length + 1))) ++ [0])).length, false⟩, ?_, ?_, ?_⟩
  · simp only [copy_data_to_secret_data_file, hs, List.nil_append, hnl, if_false, hn, hnn,
      Int.toNat_ofNat, hm, fopen_wb, hw]
  · rfl
  · intro hz
    exact cstr_append_zero _ [] hz

/-- C19, an instance: the image that carries `#*t*2*hi` and nothing more; the
size field is `2` and the two blocks after its separator unpack to `hi`. -/
theorem C19_counted_payload_witness :
    ∃ out, copy_data_to_secret_data_file ⟨counted_payload_image, 86, false⟩ fopen_wb
        = some (Status.e_success, ⟨counted_payload_image, 118, false⟩, out) ∧
      out.data = [104, 105] := by
  obtain ⟨out, h1, _, h3⟩ := C19_counted_payload counted_payload_image [50] 86 2
    (by decide!) (by decide) (by decide) (by decide) (by decide!)
  exact ⟨out, h1, (h3 (by decide!)).trans (by decide!)⟩

/-- C19 as stated fails for a block that unpacks to a zero byte: the image
carries `#*t*2*`, then two blocks that unpack to `h` and `0x00`. The size
field is read as 2 and both blocks are there, but
`copy_data_to_secret_data_file` writes the single byte `h`: it writes
`strlen(secret_msg)` bytes. -/
theorem C19_zero_byte_counterexample :
    unpack_blocks 6 (zero_payload_image.drop 54) = [35, 42, 116, 42, 50, 42] ∧
    atoi [50, 0] = some 2 ∧
    86 + 8 * 2 + 8 * 2 ≤ zero_payload_image.length ∧
    unpack_blocks 2 (zero_payload_image.drop 102) = [104, 0] ∧
    (copy_data_to_secret_data_file ⟨zero_payload_image, 86, false⟩ fopen_wb).map
        (fun r => (r.1, r.2.2.data))
      = some (Status.e_success, [104]) := by
  decide!

/-- C20 on the code: the image carries `#*jpeg*1`. After the magic string the
loop of `get_secret_data_file_extn` stores `j`, `p`, `e`, `g` at the indices 0
to 3 of the 4-byte array `extn_secret_file`, then the separator and the
terminator at index 4: four characters are gathered and the store at index 4
is past the end of the array (`none`). -/
theorem C20_extension_index_overrun :
    unpack_blocks 7 (long_extension_image.drop 54) = [35, 42, 106, 112, 101, 103, 42] ∧
    (read_until_separator (long_extension_image.length + 1)
        ⟨long_extension_image, 70, false⟩ []).1 = [106, 112, 101, 103] ∧
    MAX_FILE_SUFFIX - 1 < ([106, 112, 101, 103] : List Nat).length ∧
    get_secret_data_file_extn ⟨long_extension_image, 70, false⟩ = none := by
  decide!

/-! ## Stamping a string and the payload -/

/-- The function `encode_string_to_image` on any output stream, when the source
holds 8 bytes per character of the string from its position on. -/
theorem encode_string_to_image_general (s D d : List Nat) (p q : Nat) (e e2 : Bool)
    (hfit : p + 8 * strlen s ≤ D.length) :
    encode_string_to_image s ⟨D, p, e⟩ ⟨d, q, e2⟩
      = some (Status.e_success, ⟨D, p + 8 * strlen s, e⟩,
          if cstr s = [] then ⟨d, q, e2⟩
          else ⟨(padded d q).take q ++ stamp (cstr s) (D.drop p)
              ++ (padded d q).drop (q + 8 * strlen s), q + 8 * strlen s, e2⟩) := by
  have hp : p ≤ D.length := by omega
  cases s with
  | nil => simp [encode_string_to_image, cstr, strlen]
  | cons ch rest =>
    by_cases hc : ch = 0
    · subst hc
      simp [encode_string_to_image, cstr_cons_zero, strlen]
    · have hne : cstr (ch :: rest) ≠ [] := by rw [cstr_cons_ne ch rest hc]; simp
      rw [encode_string_to_image_padded ch rest _ d q e2 hc]
      have hA := take_padded_length d q
      have hsplit : padded d q = (padded d q).take q ++ (padded d q).drop q :=
        (List.take_append_drop q _).symm
      have h := encode_string_to_image_eq (ch :: rest) D ((padded d q).take q)
        ((padded d q).drop q) p e e2 hp
      rw [hA, ← hsplit] at h
      simp only [strlen] at hfit ⊢
      rw [h, if_pos hfit, if_neg hne, List.drop_drop]

theorem stamp_block : ∀ (t carrier : List Nat) (i : Nat), i < t.length →
    8 * t.length ≤ carrier.length →
    ((stamp t carrier).drop (8 * i)).take 8
      = (encode_byte_to_lsb (t.getD i 0) ((carrier.drop (8 * i)).take 8)).2 := by
  intro t
  induction t with
  | nil => intro carrier i hi; simp at hi
  | cons c cs ih =>
    intro carrier i hi hc
    simp only [List.length_cons] at hi hc
    have hl : (carrier.take 8).length = 8 := by
      simp only [List.length_take]; omega
    have hb : (encode_byte_to_lsb c (carrier.take 8)).2.length = 8 := by
      rw [encode_byte_to_lsb_length, hl]
    cases i with
    | zero =>
      simp only [stamp, Nat.mul_zero, List.drop_zero, List.getD_cons_zero]
      rw [List.take_left' hb]
    | succ k =>
      have e1 : 8 * (k + 1) = 8 + 8 * k := by ring
      simp only [stamp, List.getD_cons_succ]
      rw [e1, ← List.drop_drop, List.drop_left' hb, ← List.drop_drop]
      exact ih (carrier.drop 8) k (by omega) (by simp only [List.length_drop]; omega)

theorem padded_getD (d : List Nat) (q i : Nat) : (padded d q).getD i 0 = d.getD i 0 := by
  simp only [padded, List.getD_eq_getElem?_getD]
  by_cases h : i < d.length
  · rw [List.getElem?_append_left h]
  · rw [List.getElem?_append_right (by omega), List.getElem?_eq_none (by omega : d.length ≤ i)]
    by_cases h2 : i - d.length < q - d.length
    · rw [List.getElem?_replicate]
      simp [h2]
    · rw [List.getElem?_eq_none (by simp only [List.length_replicate]; omega)]

theorem padded_drop (d : List Nat) (q n : Nat) (h : q ≤ n) : (padded d q).drop n = d.drop n := by
  by_cases hq : q ≤ d.length
  · have h0 : q - d.length = 0 := by omega
    simp [padded, h0]
  · have h1 : (padded d q).length ≤ n := by
      simp only [padded, List.length_append, List.length_replicate]
      omega
    have h2 : d.length ≤ n := by omega
    rw [List.drop_eq_nil_of_le h1, List.drop_eq_nil_of_le h2]

/-- C23: for every string of `k` characters (`k = strlen`), every source stream
that holds at least `8 * k` bytes from its position on and every output
stream, `encode_string_to_image` returns success; it advances the source by
`8 * k` and leaves the output `8 * k` further, block `i` of the bytes written
at the position of the output is `encode_byte_to_lsb` of character `i` on block
`i` of the source, and the bytes of the output before its position (absent
ones read as zero) and from `8 * k` bytes behind it on are unchanged. -/
theorem C23_encode_string_to_image (s D d : List Nat) (p q : Nat) (e e2 : Bool)
    (hfit : p + 8 * strlen s ≤ D.length) :
    ∃ dest, encode_string_to_image s ⟨D, p, e⟩ ⟨d, q, e2⟩
        = some (Status.e_success, ⟨D, p + 8 * strlen s, e⟩, dest) ∧
      dest.pos = q + 8 * strlen s ∧
      (∀ i, i < strlen s → (dest.data.drop (q + 8 * i)).take 8
        = (encode_byte_to_lsb ((cstr s).getD i 0) ((D.drop (p + 8 * i)).take 8)).2) ∧
      (∀ i, i < q → dest.data.getD i 0 = d.getD i 0) ∧
      dest.data.drop (q + 8 * strlen s) = d.drop (q + 8 * strlen s) := by
  refine ⟨_, encode_string_to_image_general s D d p q e e2 hfit, ?_⟩
  by_cases hk : cstr s = []
  · have h0 : strlen s = 0 := by simp [strlen, hk]
    rw [if_pos hk, h0]
    exact ⟨rfl, fun i hi => absurd hi (by omega), fun _ _ => rfl, rfl⟩
  · rw [if_neg hk]
    have hH := take_padded_length d q
    have hS : (stamp (cstr s) (D.drop p)).length = 8 * strlen s :=
      stamp_length (cstr s) (D.drop p) (by simp only [List.length_drop, strlen] at hfit ⊢; omega)
    refine ⟨rfl, ?_, ?_, ?_⟩
    · intro i hi
      have hb := stamp_block (cstr s) (D.drop p) i hi
        (by simp only [List.length_drop, strlen] at hfit ⊢; omega)
      rw [List.drop_drop] at hb
      rw [← hb, List.append_assoc, ← List.drop_drop, List.drop_left' hH, List.drop_append_of_le_length
        (by rw [hS]; omega), List.take_append_of_le_length
        (by simp only [List.length_drop, hS]; omega)]
    · intro i hi
      rw [List.append_assoc, List.getD_eq_getElem?_getD, List.getElem?_append_left (by omega),
        List.getElem?_take_of_lt hi, ← List.getD_eq_getElem?_getD, padded_getD]
    · have hHS : ((padded d q).take q ++ stamp (cstr s) (D.drop p)).length
          = q + 8 * strlen s := by
        rw [List.length_append, hH, hS]
      rw [List.drop_left' hHS, padded_drop d q _ (by omega)]

/-- C23, an instance: the magic string stamped from byte 54 of the 8 by 8
image into an empty output positioned at byte 54. -/
theorem C23_encode_string_to_image_witness :
    ∃ dest, encode_string_to_image [35, 42, 0] ⟨small_image, 54, false⟩ ⟨[], 54, false⟩
        = some (Status.e_success, ⟨small_image, 54 + 8 * strlen [35, 42, 0], false⟩, dest) ∧
      dest.pos = 54 + 8 * strlen [35, 42, 0] ∧
      (∀ i, i < strlen [35, 42, 0] → (dest.data.drop (54 + 8 * i)).take 8
        = (encode_byte_to_lsb ((cstr [35, 42, 0]).getD i 0)
            ((small_image.drop (54 + 8 * i)).take 8)).2) ∧
      (∀ i, i < 54 → dest.data.getD i 0 = ([] : List Nat).getD i 0) ∧
      dest.data.drop (54 + 8 * strlen [35, 42, 0])
        = ([] : List Nat).drop (54 + 8 * strlen [35, 42, 0]) :=
  C23_encode_string_to_image [35, 42, 0] small_image [] 54 54 false false (by decide!)

/-- C24, amended: for every payload `P` of `n` bytes none of which is zero,
every source stream that holds at least `8 * (n + 1)` bytes from its position
on and every output stream, `encode_secret_file_data` (with `n` as the size of
the secret file) returns success and stamps exactly `n + 1` blocks at the
position of the output: the bytes of `P` in order, then the separator `*`; the
output is left `8 * (n + 1)` bytes further and its bytes before the position
(absent ones read as zero) and behind the blocks are unchanged. -/
theorem C24_encode_secret_file_data (P D d : List Nat) (p q ps : Nat) (e e2 es : Bool)
    (hz : ∀ x ∈ P, x ≠ 0) (hfit : p + 8 * (P.length + 1) ≤ D.length) :
    ∃ dest, encode_secret_file_data P.length ⟨D, p, e⟩ ⟨d, q, e2⟩ ⟨P, ps, es⟩
        = some (Status.e_success, ⟨D, p + 8 * (P.length + 1), e⟩, dest, ⟨P, P.length, false⟩) ∧
      dest.pos = q + 8 * (P.length + 1) ∧
      (dest.data.drop q).take (8 * (P.length + 1)) = stamp (P ++ [42]) (D.drop p) ∧
      (∀ i, i < q → dest.data.getD i 0 = d.getD i 0) ∧
      dest.data.drop (q + 8 * (P.length + 1)) = d.drop (q + 8 * (P.length + 1)) := by
  have hr : fread P.length (rewind ⟨P, ps, es⟩) = ((P.drop 0).take P.length, ⟨P, 0 + P.length, false⟩) :=
    fread_full P.length (rewind ⟨P, ps, es⟩) (by simp only [rewind]; omega)
  have hsep : ENC_DATA_SEPARATOR_STRING.headD 0 = 42 := rfl
  have hz2 : ∀ x ∈ P ++ [42], x ≠ 0 := by
    intro x hx
    rcases List.mem_append.mp hx with h | h
    · exact hz x h
    · simp only [List.mem_singleton] at h; omega
  have hc : cstr (P ++ [42, 0]) = P ++ [42] := by
    have := cstr_append_zero (P ++ [42]) [] hz2
    simpa using this
  have hk : strlen (P ++ [42, 0]) = P.length + 1 := by
    simp only [strlen, hc, List.length_append, List.length_singleton]
  have hne : cstr (P ++ [42, 0]) ≠ [] := by rw [hc]; simp
  have hg := encode_string_to_image_general (P ++ [42, 0]) D d p q e e2 (by rw [hk]; exact hfit)
  rw [hk, if_neg hne, hc] at hg
  have hH := take_padded_length d q
  have hS : (stamp (P ++ [42]) (D.drop p)).length = 8 * (P.length + 1) := by
    have := stamp_length (P ++ [42]) (D.drop p)
      (by simp only [List.length_drop, List.length_append, List.length_singleton]; omega)
    simpa using this
  refine ⟨⟨(padded d q).take q ++ stamp (P ++ [42]) (D.drop p)
    ++ (padded d q).drop (q + 8 * (P.length + 1)), q + 8 * (P.length + 1), e2⟩, ?_, rfl, ?_, ?_, ?_⟩
  · simp only [encode_secret_file_data, hr, List.drop_zero, List.take_length, lt_irrefl,
      if_false, hsep, hg, Nat.zero_add]
  · simp only [List.append_assoc]
    rw [List.drop_left' hH, List.take_left' hS]
  · intro i hi
    rw [List.append_assoc, List.getD_eq_getElem?_getD, List.getElem?_append_left (by omega),
      List.getElem?_take_of_lt hi, ← List.getD_eq_getElem?_getD, padded_getD]
  · have hHS : ((padded d q).take q ++ stamp (P ++ [42]) (D.drop p)).length
        = q + 8 * (P.length + 1) := by
      rw [List.length_append, hH, hS]
    rw [List.drop_left' hHS, padded_drop d q _ (by omega)]

/-- C24, an instance: the payload `hi` stamped from byte 70 of the 8 by 8
image. -/
theorem C24_encode_secret_file_data_witness :
    ∃ dest, encode_secret_file_data ([104, 105] : List Nat).length ⟨small_image, 70, false⟩
          ⟨small_image, 70, false⟩ ⟨[104, 105], 0, false⟩
        = some (Status.e_success, ⟨small_image, 70 + 8 * (([104, 105] : List Nat).length + 1), false⟩,
            dest, ⟨[104, 105], ([104, 105] : List Nat).length, false⟩) ∧
      dest.pos = 70 + 8 * (([104, 105] : List Nat).length + 1) ∧
      (dest.data.drop 70).take (8 * (([104, 105] : List Nat).length + 1))
        = stamp ([104, 105] ++ [42]) (small_image.drop 70) ∧
      (∀ i, i < 70 → dest.data.getD i 0 = small_image.getD i 0) ∧
      dest.data.drop (70 + 8 * (([104, 105] : List Nat).length + 1))
        = small_image.drop (70 + 8 * (([104, 105] : List Nat).length + 1)) :=
  C24_encode_secret_file_data [104, 105] small_image small_image 70 70 0 false false false
    (by decide) (by decide!)

/-- C24 as stated fails for a payload with a zero byte: for the 3 bytes `h`,
`0x00`, `i` the function stamps one block, the one of `h`, and leaves both
streams 8 bytes further, not 32: the buffer is stamped as a string, up to its
first zero byte, and the separator is not stamped at all. -/
theorem C24_zero_byte_counterexample :
    (encode_secret_file_data 3 ⟨small_image, 70, false⟩ ⟨small_image, 70, false⟩
        (fopen_rb [104, 0, 105])).map
        (fun r => (r.1, r.2.1.pos, r.2.2.1.pos, unpack_blocks 4 (r.2.2.1.data.drop 70)))
      = some (Status.e_success, 78, 78, [104, 255, 255, 255]) := by
  decide!

/-! ## The header copy, the capacity check and the size text -/

/-- C25 on the code: `copy_bmp_header` copies `width * height * 3` bytes, the
value of `get_image_size_for_bmp`. On the 8 by 8 image, whose pixel data offset
is 54, it writes the first 192 bytes of the source and leaves both streams at
byte 192. -/
theorem C25_header_copy_length :
    pixel_data_offset small_image = 54 ∧
    image_capacity (bmp_width small_image) (bmp_height small_image) = 192 ∧
    copy_bmp_header (fopen_rb small_image) fopen_wb
      = some (Status.e_success, ⟨small_image, 192, false⟩,
          ⟨small_image.take 192, 192, false⟩) := by
  decide!

/-- C29 on the code: for a payload of `2^29 - 15 = 536870897` bytes the product
`(n + 15) * 8` is `2^32`, zero in `uint` arithmetic, and the capacity check
accepts the 1 by 1 image, whose `width * height * 3` is 3. -/
theorem C29_capacity_check_wraps :
    image_capacity (bmp_width one_pixel_image) (bmp_height one_pixel_image) = 3 ∧
    capacity_check (image_capacity (bmp_width one_pixel_image) (bmp_height one_pixel_image))
      536870897 = true ∧
    bmp_width one_pixel_image * bmp_height one_pixel_image * 3 < (536870897 + 15) * 8 := by
  decide

theorem decimal_e7 : decimal 10000000 = [49, 48, 48, 48, 48, 48, 48, 48] := by
  norm_num [decimal]

theorem decimal_e8 : decimal 100000000 = [49, 48, 48, 48, 48, 48, 48, 48, 48] := by
  norm_num [decimal]

/-- The size text of a count below `10^7` has at most 7 digits. -/
theorem decimal_length_le (n : Nat) (h : n < 10000000) : (decimal n).length ≤ 7 := by
  simp only [decimal, List.length_reverse, List.length_map]
  by_contra hc
  have h8 : 8 ≤ (Nat.digits 10 n).length := by omega
  have hn0 : n ≠ 0 := by
    intro h0
    subst h0
    simp at h8
  have hlt := Nat.base_pow_length_digits_le 10 n (by decide) hn0
  have hp : 10 ^ 8 ≤ 10 ^ (Nat.digits 10 n).length := Nat.pow_le_pow_right (by decide) h8
  omega

theorem strlen_itoa (n : Nat) : strlen (itoa n) = (decimal n).length := by
  simp only [strlen, cstr_itoa]

theorem cstr_length_le : ∀ L : List Nat, (cstr (L ++ [0])).length ≤ L.length := by
  intro L
  induction L with
  | nil => simp [cstr]
  | cons c cs ih =>
    by_cases hc : c = 0
    · subst hc
      rw [List.cons_append, cstr_cons_zero]
      simp
    · rw [List.cons_append, cstr_cons_ne c _ hc]
      simp only [List.length_cons]
      omega

/-- C27, amended: for every payload byte count `n < 10^7`, every extension of
at most 3 characters and every payload of `n` bytes, the decimal size text
written by `itoa`, its separator and the terminator fit the 9 bytes of
`file_size_as_str`; the frame text has at most
`2 + len(ext) + 1 + digits(n) + 1 + n + 1` characters, which is at most
`n + 15`; and a capacity that passes the capacity check for `n` is at least 8
bytes per character of the frame. -/
theorem C27_frame_within_capacity (n cap : Nat) (ext P : List Nat)
    (h7 : n < 10000000) (hext : ext.length ≤ 3) (hP : P.length = n) :
    strlen (itoa n) + 2 ≤ 9 ∧
    (frame_text ext n P).length ≤ 2 + ext.length + 1 + strlen (itoa n) + 1 + n + 1 ∧
    2 + ext.length + 1 + strlen (itoa n) + 1 + n + 1 ≤ n + 15 ∧
    (capacity_check cap n = true → 8 * (frame_text ext n P).length ≤ cap) := by
  have hd := decimal_length_le n h7
  have hc : (cstr (P ++ [42, 0])).length ≤ n + 1 := by
    have := cstr_length_le (P ++ [42])
    simp only [List.append_assoc, List.singleton_append, List.length_append,
      List.length_singleton, hP] at this
    exact this
  have hf : (frame_text ext n P).length
      = 2 + (ext.length + 1) + ((decimal n).length + 1) + (cstr (P ++ [42, 0])).length := by
    simp only [frame_text, MAGIC_STRING, List.length_append, List.length_cons, List.length_nil]
  rw [strlen_itoa]
  refine ⟨by omega, by omega, by omega, ?_⟩
  intro hcap
  have hmg : strlen MAGIC_STRING = 2 := by decide
  simp only [capacity_check, hmg, MAX_FILE_SUFFIX, decide_eq_true_eq] at hcap
  omega

/-- C27, an instance: a payload of 2 bytes with the extension `txt` and a
capacity of 192. -/
theorem C27_frame_within_capacity_witness :
    strlen (itoa 2) + 2 ≤ 9 ∧
    (frame_text [116, 120, 116] 2 [104, 105]).length
      ≤ 2 + ([116, 120, 116] : List Nat).length + 1 + strlen (itoa 2) + 1 + 2 + 1 ∧
    2 + ([116, 120, 116] : List Nat).length + 1 + strlen (itoa 2) + 1 + 2 + 1 ≤ 2 + 15 ∧
    (capacity_check 192 2 = true → 8 * (frame_text [116, 120, 116] 2 [104, 105]).length ≤ 192) :=
  C27_frame_within_capacity 2 192 [116, 120, 116] [104, 105] (by decide) (by decide) (by decide)

/-- C27 as stated fails: for `n = 10^8`, below `2^32`, the size text written by
`itoa` has 9 digits, 10 characters with its separator; and already for
`n = 10^7` with an extension of 3 characters the frame has `n + 16`
characters, more than `n + 15`, while `encode_secret_file_size` needs 10 bytes
in the 9-byte array `file_size_as_str` (`none`). -/
theorem C27_size_text_counterexample :
    (100000000 : Nat) < 4294967296 ∧
    strlen (itoa 100000000) + 1 = 10 ∧
    strlen (itoa 10000000) + 1 = 9 ∧
    2 + 3 + 1 + strlen (itoa 10000000) + 1 + 10000000 + 1 = 10000000 + 16 ∧
    encode_secret_file_size 10000000 fopen_wb fopen_wb = none := by
  have h7 : strlen (itoa 10000000) = 8 := by rw [strlen_itoa, decimal_e7]; rfl
  have h8 : strlen (itoa 100000000) = 9 := by rw [strlen_itoa, decimal_e8]; rfl
  refine ⟨by decide, by rw [h8], by rw [h7], by rw [h7], ?_⟩
  simp only [encode_secret_file_size, h7]
  rw [if_neg (by decide), if_pos (by decide)]

theorem secret_size_e7 : secret_size (List.replicate 10000000 65) = 10000000 := by
  rw [secret_size, List.length_replicate]

/-- A payload whose size text needs more than the 9 bytes of `file_size_as_str`
is not encoded with success. -/
theorem do_encoding_long_size (D P fname : List Nat)
    (h : 9 < (decimal (secret_size P)).length + 2) :
    (do_encoding (some D) (some P) true fname).map (fun r => r.status)
      ≠ some Status.e_success := by
  intro hs
  cases hr : do_encoding (some D) (some P) true fname with
  | none => rw [hr] at hs; cases hs
  | some r =>
    rw [hr, Option.map_some', Option.some.injEq] at hs
    have hd := (do_encoding_success_bounds D P fname r hr hs).2.2.1
    omega

/-- C28 on the code: for a payload of `10^7` bytes the size text has 8 digits,
and with the separator and the terminator `encode_secret_file_size` needs 10
bytes in the 9-byte array `file_size_as_str`: the function writes past its end
(`none`) on every pair of streams, and `do_encoding` does not return success
for a payload of `10^7` bytes `A`, whatever the carrier and the file name. -/
theorem C28_size_text_overrun :
    strlen (itoa 10000000) + 2 = 10 ∧
    (∀ src dest, encode_secret_file_size 10000000 src dest = none) ∧
    (∀ D fname, (do_encoding (some D) (some (List.replicate 10000000 65)) true fname).map
        (fun r => r.status) ≠ some Status.e_success) := by
  have h7 : strlen (itoa 10000000) = 8 := by rw [strlen_itoa, decimal_e7]; rfl
  have hl : 9 < (decimal (secret_size (List.replicate 10000000 65))).length + 2 := by
    rw [secret_size_e7, decimal_e7]
    decide
  refine ⟨by rw [h7], ?_, fun D fname => do_encoding_long_size D _ fname hl⟩
  intro src dest
  simp only [encode_secret_file_size, h7]
  rw [if_neg (by decide), if_pos (by decide)]

/-! ## The decoder as a function of the carried characters -/

theorem unpack_blocks_length : ∀ (k : Nat) (bytes : List Nat), (unpack_blocks k bytes).length = k := by
  intro k
  induction k with
  | zero => intro _; rfl
  | succ k ih => intro bytes; simp only [unpack_blocks, List.length_cons, ih]

theorem pending_length_le (f : FILE) : (pending f).length ≤ f.data.length := by
  simp only [pending]
  split
  · simp
  · simp only [carried, unpack_blocks_length, List.length_drop]
    have := Nat.div_le_self (f.data.length - f.pos) 8
    omega

/-- One block read of the decoder, in terms of the pending characters: either
none is left and the read sets the end-of-file indicator, or the read obtains
the block of the first one. -/
theorem fread_pending (f : FILE) :
    (pending f = [] ∧ (fread MAX_IMAGE_BUF_SIZE f).2.eof = true) ∨
    (∃ c rest, pending f = c :: rest ∧ (fread MAX_IMAGE_BUF_SIZE f).2.eof = false ∧
      (get_data_from_byte_array (fread MAX_IMAGE_BUF_SIZE f).1).2 = c ∧
      pending (fread MAX_IMAGE_BUF_SIZE f).2 = rest) := by
  obtain ⟨X, p, e⟩ := f
  cases e with
  | true =>
    left
    exact ⟨by simp [pending], by simp [fread]⟩
  | false =>
    by_cases h : p + 8 ≤ X.length
    · right
      have hr := fread_block X p h
      obtain ⟨k, hk⟩ : ∃ k, (X.length - p) / 8 = k + 1 :=
        ⟨(X.length - p) / 8 - 1, by
          have : 1 ≤ (X.length - p) / 8 := (Nat.le_div_iff_mul_le (by decide)).2 (by omega)
          omega⟩
      have hk2 : (X.length - (p + 8)) / 8 = k := by omega
      refine ⟨(get_data_from_byte_array ((X.drop p).take 8)).2,
        unpack_blocks k (X.drop (p + 8)), ?_, by rw [hr], by rw [hr], ?_⟩
      · simp only [pending, Bool.false_eq_true, if_false, carried, List.length_drop, hk,
          unpack_blocks, List.drop_drop]
      · rw [hr]
        simp only [pending, Bool.false_eq_true, if_false, carried, List.length_drop, hk2]
    · left
      have h0 : (X.length - p) / 8 = 0 := Nat.div_eq_of_lt (by omega)
      refine ⟨?_, fread_short 8 ⟨X, p, false⟩ (by decide) (by simp only []; omega)⟩
      simp only [pending, Bool.false_eq_true, if_false, carried, List.length_drop, h0,
        unpack_blocks]

theorem pending_of_eof (f : FILE) (h : f.eof = true) : pending f = [] := by
  simp [pending, h]

/-- The separator loop in terms of the pending characters: it gathers those
before the first `*` and leaves the stream with those behind it. -/
theorem read_until_separator_pending : ∀ (fuel : Nat) (f : FILE) (buf : List Nat),
    (pending f).length < fuel →
    (read_until_separator fuel f buf).1 = buf ++ (pending f).takeWhile (fun c => c != 42) ∧
    pending (read_until_separator fuel f buf).2
      = ((pending f).dropWhile (fun c => c != 42)).drop 1 ∧
    (read_until_separator fuel f buf).2.data = f.data := by
  intro fuel
  induction fuel with
  | zero => intro f buf h; omega
  | succ k ih =>
    intro f buf h
    rcases fread_pending f with ⟨hp, he⟩ | ⟨c, rest, hp, he, hc, hr⟩
    · simp only [read_until_separator, he, if_true, hp, List.takeWhile_nil, List.append_nil,
        List.dropWhile_nil, List.drop_nil, pending_of_eof _ he, fread_data, and_self]
    · by_cases h42 : c = 42
      · subst h42
        simp only [read_until_separator, he, Bool.false_eq_true, if_false, hc, if_true, hp, hr,
          fread_data]
        simp
      · rw [hp, List.length_cons] at h
        obtain ⟨i1, i2, i3⟩ := ih (fread MAX_IMAGE_BUF_SIZE f).2 (buf ++ [c]) (by rw [hr]; omega)
        have hne : (c != 42) = true := by simp [h42]
        simp only [read_until_separator, he, Bool.false_eq_true, if_false, hc, h42, hp, i1, i2,
          i3, hr, fread_data, List.takeWhile_cons, hne, if_true, List.dropWhile_cons,
          List.append_assoc, List.singleton_append, and_self]

/-- The loop that reads the secret message in terms of the pending characters:
it gathers the first `k` of them. -/
theorem read_secret_msg_pending : ∀ (k : Nat) (f : FILE) (buf : List Nat),
    (read_secret_msg k f buf).1 = buf ++ (pending f).take k ∧
    pending (read_secret_msg k f buf).2 = (pending f).drop k := by
  intro k
  induction k with
  | zero => intro f buf; simp [read_secret_msg]
  | succ k ih =>
    intro f buf
    rcases fread_pending f with ⟨hp, he⟩ | ⟨c, rest, hp, he, hc, hr⟩
    · simp only [read_secret_msg, he, if_true, hp, List.take_nil, List.append_nil,
        List.drop_nil, pending_of_eof _ he, and_self]
    · obtain ⟨i1, i2⟩ := ih (fread MAX_IMAGE_BUF_SIZE f).2 (buf ++ [c])
      simp only [read_secret_msg, he, Bool.false_eq_true, if_false, hc, hp, i1, i2, hr,
        List.take_succ_cons, List.drop_succ_cons, List.append_assoc, List.singleton_append,
        and_self]

/-- The loop of `find_magic_string` in terms of the pending characters: the
first two replace the bytes of `magic_str`, as far as they exist. -/
theorem find_magic_string_loop_pending (f : FILE) (s0 s1 : Nat) :
    (find_magic_string_loop 2 0 [s0, s1] f).1 = [(pending f).getD 0 s0, (pending f).getD 1 s1] ∧
    pending (find_magic_string_loop 2 0 [s0, s1] f).2 = (pending f).drop 2 ∧
    (find_magic_string_loop 2 0 [s0, s1] f).2.data = f.data := by
  rcases fread_pending f with ⟨hp, he⟩ | ⟨c, rest, hp, he, hc, hr⟩
  · simp only [find_magic_string_loop, he, if_true, hp, List.getD_nil, List.drop_nil,
      pending_of_eof _ he, fread_data, and_self]
  · rcases fread_pending (fread MAX_IMAGE_BUF_SIZE f).2 with ⟨hp2, he2⟩ | ⟨c2, rest2, hp2, he2, hc2, hr2⟩
    · rw [hr] at hp2
      simp only [find_magic_string_loop, he, Bool.false_eq_true, if_false, hc, he2, if_true, hp,
        hp2, List.set_cons_zero, List.getD_cons_zero, List.getD_cons_succ, List.getD_nil,
        pending_of_eof _ he2, fread_data, and_self]
      simp
    · rw [hr] at hp2
      simp only [find_magic_string_loop, he, Bool.false_eq_true, if_false, hc, he2, hc2, hp,
        hp2, hr2, List.set_cons_zero, List.set_cons_succ, List.getD_cons_zero,
        List.getD_cons_succ, fread_data, and_self]
      simp

/-- The function `get_secret_data_file_extn` in terms of the pending
characters. -/
theorem get_secret_data_file_extn_pending (f : FILE) :
    ∃ f2, pending f2 = ((pending f).dropWhile (fun c => c != 42)).drop 1 ∧
      get_secret_data_file_extn f
        = if ((pending f).takeWhile (fun c => c != 42)).length ≥ MAX_FILE_SUFFIX then none
          else some (Status.e_success, (pending f).takeWhile (fun c => c != 42) ++ [0], f2) := by
  obtain ⟨h1, h2, _⟩ := read_until_separator_pending (f.data.length + 1) f []
    (by have := pending_length_le f; omega)
  refine ⟨(read_until_separator (f.data.length + 1) f []).2, h2, ?_⟩
  simp only [get_secret_data_file_extn, h1, List.nil_append]

/-- The function `copy_data_to_secret_data_file` on a fresh output file in
terms of the pending characters. -/
theorem copy_data_to_secret_data_file_pending (f : FILE) :
    (copy_data_to_secret_data_file f fopen_wb = none ∧ decode_payload (pending f) = none) ∨
    (∃ f2 w, copy_data_to_secret_data_file f fopen_wb
        = some (Status.e_success, f2, ⟨w, w.length, false⟩) ∧
      decode_payload (pending f) = some w) := by
  obtain ⟨h1, h2, _⟩ := read_until_separator_pending (f.data.length + 1) f []
    (by have := pending_length_le f; omega)
  simp only [copy_data_to_secret_data_file, decode_payload, h1, List.nil_append]
  by_cases hl : ((pending f).takeWhile (fun c => c != 42)).length ≥ 10
  · left
    simp only [hl, if_true, and_self]
  · simp only [hl, if_false]
    cases ha : atoi ((pending f).takeWhile (fun c => c != 42) ++ [0]) with
    | none => left; simp only [and_self]
    | some n =>
      by_cases hn : n < 0
      · left
        simp only [hn, if_true, and_self]
      · right
        obtain ⟨m1, _⟩ := read_secret_msg_pending n.toNat
          (read_until_separator (f.data.length + 1) f []).2 []
        rw [h2] at m1
        have hw := fwrite_at [] []
          (cstr ((((pending f).dropWhile (fun c => c != 42)).drop 1).take n.toNat ++ [0])) false
        simp only [List.nil_append, List.length_nil, List.drop_nil, List.append_nil,
          Nat.zero_add] at hw
        simp only [hn, if_false, m1, List.nil_append, fopen_wb, hw]
        exact ⟨_, _, rfl, rfl⟩

theorem magic_start_of_lt (X : List Nat) (h : pixel_data_offset X < 2147483648) :
    magic_start X = pixel_data_offset X := by
  simp only [magic_start, h, if_true]

theorem magic_start_of_ge (X : List Nat) (h : ¬ pixel_data_offset X < 2147483648) :
    magic_start X = 14 := by
  simp only [magic_start, h, if_false]

/-- The function `find_magic_string` in terms of the characters carried by the
image from the position `magic_start` on. -/
theorem find_magic_string_pending (X : List Nat) (stale : Nat × Nat) (h14 : 14 ≤ X.length) :
    ∃ f, pending f = (carried (X.drop (magic_start X))).drop 2 ∧
      find_magic_string stale (fopen_rb X)
        = some (is_magic_string [(carried (X.drop (magic_start X))).getD 0 stale.1,
            (carried (X.drop (magic_start X))).getD 1 stale.2], f) := by
  have hstr : strlen MAGIC_STRING = 2 := by decide
  have hpos : (if to_int (pixel_data_offset X) < 0 then (⟨X, 14, false⟩ : FILE)
      else fseek_set ⟨X, 14, false⟩ (to_int (pixel_data_offset X)).toNat)
      = ⟨X, magic_start X, false⟩ := by
    by_cases hoff : pixel_data_offset X < 2147483648
    · have hneg : ¬ to_int (pixel_data_offset X) < 0 := by rw [to_int_of_lt _ hoff]; omega
      have hnat : (to_int (pixel_data_offset X)).toNat = pixel_data_offset X := by
        rw [to_int_of_lt _ hoff]; simp
      simp only [hneg, if_false, hnat, fseek_set, magic_start, hoff, if_true]
    · have hlt := le32_lt ((X.drop 10).take 4)
      have hneg : to_int (pixel_data_offset X) < 0 :=
        to_int_neg _ (by omega) (by simp only [pixel_data_offset]; exact hlt)
      simp only [hneg, if_true, magic_start, hoff, if_false]
  obtain ⟨l1, l2, _⟩ := find_magic_string_loop_pending ⟨X, magic_start X, false⟩
    stale.1 stale.2
  have hp : pending ⟨X, magic_start X, false⟩ = carried (X.drop (magic_start X)) := by
    simp [pending]
  rw [hp] at l1 l2
  refine ⟨(find_magic_string_loop 2 0 [stale.1, stale.2] ⟨X, magic_start X, false⟩).2,
    l2, ?_⟩
  simp only [find_magic_string, get_image_data_offset_eq, fopen_rb, h14, if_true, hstr, hpos,
    l1]

/-- What `do_decoding` observably does on an image depends on the image through
its length being at least 14, the position `magic_start` given by its offset
field, and the characters carried from that position on. -/
theorem do_decoding_chars (X : List Nat) (creatable : Bool) (stale : Nat × Nat) :
    decode_outcome (do_decoding (some X) creatable stale)
      = if 14 ≤ X.length then
          decode_chars creatable stale (carried (X.drop (magic_start X)))
        else none := by
  by_cases h14 : 14 ≤ X.length
  · rw [if_pos h14]
    obtain ⟨f, hf, hm⟩ := find_magic_string_pending X stale h14
    generalize carried (X.drop (magic_start X)) = cs at hf hm
    cases hst : is_magic_string [cs.getD 0 stale.1, cs.getD 1 stale.2] with
    | e_failure =>
      simp only [do_decoding, hm, hst, if_true, decode_outcome, decode_chars, Option.map_some',
        Option.map_none']
    | e_success =>
      obtain ⟨f2, hf2, he⟩ := get_secret_data_file_extn_pending f
      rw [hf] at hf2 he
      by_cases hl : ((cs.drop 2).takeWhile (fun c => c != 42)).length ≥ MAX_FILE_SUFFIX
      · simp only [do_decoding, hm, hst, reduceCtorEq, if_false, he, hl, if_true,
          decode_outcome, decode_chars, Option.map_none']
      · cases creatable with
        | false =>
          simp only [do_decoding, hm, hst, reduceCtorEq, if_false, he, hl,
            create_secret_data_file, Bool.false_eq_true, decode_outcome, decode_chars,
            Option.map_some', Option.map_none', if_true]
        | true =>
          rcases copy_data_to_secret_data_file_pending f2 with ⟨hc, hd⟩ | ⟨f3, w, hc, hd⟩
          · rw [hf2] at hd
            simp only [fopen_wb] at hc
            simp only [do_decoding, hm, hst, reduceCtorEq, if_false, he, hl,
              create_secret_data_file, if_true, hc, decode_outcome, decode_chars,
              Option.map_none', hd, Bool.true_eq_false, fopen_wb]
          · rw [hf2] at hd
            simp only [fopen_wb] at hc
            simp only [do_decoding, hm, hst, reduceCtorEq, if_false, he, hl,
              create_secret_data_file, if_true, hc, decode_outcome, decode_chars,
              Option.map_some', hd, Bool.true_eq_false, fopen_wb]
  · rw [if_neg h14]
    simp only [do_decoding, find_magic_string, get_image_data_offset_eq, fopen_rb, h14,
      if_false, decode_outcome, Option.map_none']

/-! ## Low bits and header bits -/

/-- The byte unpacked from a block depends on the low bits of its bytes only. -/
theorem get_data_from_byte_array_lsb (b1 b2 : List Nat)
    (h : ∀ i, b1.getD i 0 % 2 = b2.getD i 0 % 2) :
    get_data_from_byte_array b1 = get_data_from_byte_array b2 := by
  simp only [get_data_from_byte_array, range_eight, List.foldl_cons, List.foldl_nil,
    get_data_from_byte_array_step, Nat.and_one_is_mod, h]

theorem getD_map_mod (l : List Nat) (i : Nat) :
    (l.map (fun c => c % 2)).getD i 0 = l.getD i 0 % 2 := by
  simp only [List.getD_eq_getElem?_getD, List.getElem?_map]
  cases l[i]? with
  | none => rfl
  | some v => rfl

theorem unpack_blocks_lsb : ∀ (k : Nat) (l1 l2 : List Nat),
    l1.map (fun c => c % 2) = l2.map (fun c => c % 2) →
    unpack_blocks k l1 = unpack_blocks k l2 := by
  intro k
  induction k with
  | zero => intro _ _ _; rfl
  | succ k ih =>
    intro l1 l2 h
    have ht : (l1.take 8).map (fun c => c % 2) = (l2.take 8).map (fun c => c % 2) := by
      rw [List.map_take, List.map_take, h]
    have hd : (l1.drop 8).map (fun c => c % 2) = (l2.drop 8).map (fun c => c % 2) := by
      rw [List.map_drop, List.map_drop, h]
    have hb : get_data_from_byte_array (l1.take 8) = get_data_from_byte_array (l2.take 8) := by
      apply get_data_from_byte_array_lsb
      intro i
      rw [← getD_map_mod, ← getD_map_mod, ht]
    simp only [unpack_blocks, hb, ih _ _ hd]

/-- The characters carried by a list of bytes depend on their low bits only. -/
theorem carried_lsb (l1 l2 : List Nat)
    (h : l1.map (fun c => c % 2) = l2.map (fun c => c % 2)) : carried l1 = carried l2 := by
  have hl : l1.length = l2.length := by
    have := congrArg List.length h
    simpa using this
  simp only [carried, hl]
  exact unpack_blocks_lsb _ l1 l2 h

/-- Two carrier images of the same length with the same offset field (bytes 10
to 13) whose bytes from the position `magic_start` on (the pixel data offset
when it fits an `int`) have the same low bits: `do_decoding` gives the same
status and message, the same extension and the same bytes written, for either
answer of the file system, when `magic_str` holds the same bytes before both
runs. -/
theorem decoding_depends_on_low_bits (X Y : List Nat) (creatable : Bool) (stale : Nat × Nat)
    (hlen : X.length = Y.length) (hfield : (X.drop 10).take 4 = (Y.drop 10).take 4)
    (hlsb : (X.drop (magic_start X)).map (fun c => c % 2)
      = (Y.drop (magic_start X)).map (fun c => c % 2)) :
    decode_outcome (do_decoding (some X) creatable stale)
      = decode_outcome (do_decoding (some Y) creatable stale) := by
  have hoff : magic_start Y = magic_start X := by
    simp only [magic_start, pixel_data_offset, hfield]
  rw [do_decoding_chars X, do_decoding_chars Y, hoff, hlen, carried_lsb _ _ hlsb]

/-- C30 on the code: what `do_decoding` gives depends on more than the offset
field and the low bits of the bytes from the offset on. The 1 by 1 image
`one_pixel_image` ends before one block is complete; the array `magic_str`,
never written, is compared, and the same image decodes with success when the
array holds `#*` from before and is reported to hold no data when it holds
zero bytes. The images `stray_frame_image` and `stray_blank_image` have the
same length of 70 bytes, the same offset field `FF FF FF FF` and no byte at or
behind that offset; the seek of `find_magic_string` fails, the test of `ferror`
passes, the blocks are read from byte 14 on, and the first image decodes with
success where the second is reported to hold no data. -/
theorem C30_result_depends_on_more :
    (decode_outcome (do_decoding (some one_pixel_image) true (35, 42))
        = some (Status.e_success, none, [0], some []) ∧
      decode_outcome (do_decoding (some one_pixel_image) true (0, 0))
        = some (Status.e_failure, some DecodeError.no_data_encoded, [], none)) ∧
    (stray_frame_image.length = stray_blank_image.length ∧
      (stray_frame_image.drop 10).take 4 = (stray_blank_image.drop 10).take 4 ∧
      stray_frame_image.length ≤ pixel_data_offset stray_frame_image ∧
      decode_outcome (do_decoding (some stray_frame_image) true (0, 0))
        = some (Status.e_success, none, [0], some []) ∧
      decode_outcome (do_decoding (some stray_blank_image) true (0, 0))
        = some (Status.e_failure, some DecodeError.no_data_encoded, [], none)) :=
  ⟨⟨by decide!, by decide!⟩, by decide!, by decide!, by decide!, by decide!, by decide!⟩

theorem pixel_data_offset_set (X : List Nat) (p v : Nat) (hp : p < 10 ∨ 14 ≤ p) :
    pixel_data_offset (X.set p v) = pixel_data_offset X := by
  have key : ((X.set p v).drop 10).take 4 = (X.drop 10).take 4 := by
    have e : ∀ l : List Nat, (l.drop 10).take 4 = (l.take 14).drop 10 := by
      intro l
      rw [List.drop_take]
    rcases hp with h | h
    · rw [List.drop_set_of_lt _ _ h]
    · have hl : (X.take 14).length ≤ p := by
        simp only [List.length_take]
        omega
      rw [e, e, List.set_take, List.set_eq_of_length_le hl]
  simp only [pixel_data_offset, key]

theorem flip_bit_mod_two (k b : Nat) (hk : 1 ≤ k) : flip_bit k b % 2 = b % 2 := by
  obtain ⟨j, rfl⟩ : ∃ j, k = j + 1 := ⟨k - 1, by omega⟩
  have h2 : 2 ^ (j + 1) % 2 = 0 := by
    rw [Nat.pow_succ]
    exact Nat.mul_mod_left _ _
  simp only [flip_bit, Nat.xor_mod_two_eq]
  omega

/-- Flipping a bit other than the lowest keeps the low bit of every byte. -/
theorem flip_at_map_mod (X : List Nat) (p k : Nat) (hk : 1 ≤ k) :
    (flip_at X p k).map (fun c => c % 2) = X.map (fun c => c % 2) := by
  apply List.ext_getElem?
  intro i
  simp only [flip_at, List.getElem?_map, List.getElem?_set]
  by_cases hi : p = i
  · subst hi
    by_cases hl : p < X.length
    · simp only [if_true, hl, Option.map_some', List.getD_eq_getElem?_getD,
        List.getElem?_eq_getElem hl, Option.getD_some, flip_bit_mod_two _ _ hk]
    · simp only [if_true, hl, if_false, Option.map_none',
        List.getElem?_eq_none (Nat.le_of_not_lt hl)]
  · simp only [hi, if_false]

/-- C21, amended: for every carrier image, every byte position `p` before the
pixel data offset other than the four bytes 10 to 13 of the offset field, and
every bit `k` from 1 to 7 (with an offset that fits an `int` also bit 0),
flipping bit `k` of byte `p` leaves the status and message of `do_decoding`,
the extension recovered and the bytes written unchanged. -/
theorem C21_header_bits (X : List Nat) (p k : Nat) (creatable : Bool) (stale : Nat × Nat)
    (hp : p < pixel_data_offset X) (hfield : p < 10 ∨ 14 ≤ p)
    (hk : 1 ≤ k ∨ pixel_data_offset X < 2147483648) :
    decode_outcome (do_decoding (some (flip_at X p k)) creatable stale)
      = decode_outcome (do_decoding (some X) creatable stale) := by
  have hoff : pixel_data_offset (flip_at X p k) = pixel_data_offset X := by
    simp only [flip_at]
    exact pixel_data_offset_set X p _ hfield
  have hms : magic_start (flip_at X p k) = magic_start X := by
    simp only [magic_start, hoff]
  have hlen : (flip_at X p k).length = X.length := by
    simp only [flip_at, List.length_set]
  rw [do_decoding_chars X, do_decoding_chars (flip_at X p k), hms, hlen]
  by_cases h31 : pixel_data_offset X < 2147483648
  · rw [magic_start_of_lt X h31]
    simp only [flip_at]
    rw [List.drop_set_of_lt _ _ hp]
  · have hk1 : 1 ≤ k := hk.resolve_right h31
    have hc : carried ((flip_at X p k).drop (magic_start X))
        = carried (X.drop (magic_start X)) := by
      apply carried_lsb
      rw [List.map_drop, List.map_drop, flip_at_map_mod X p k hk1]
    rw [hc]

/-- C21, an instance: bit 7 of byte 30 of the image that carries `#*t*2*hi`. -/
theorem C21_header_bits_witness :
    decode_outcome (do_decoding (some (flip_at counted_payload_image 30 7)) true (0, 0))
      = decode_outcome (do_decoding (some counted_payload_image) true (0, 0)) :=
  C21_header_bits counted_payload_image 30 7 true (0, 0) (by decide!) (by decide)
    (Or.inl (by decide))

/-- C21 as stated fails for the bytes of the offset field: in the image that
carries `#*t*2*hi` at offset 54, byte 10 lies before the pixel data offset and
holds 54; flipping its bit 1 makes it 52, the decoder looks for the magic
string two bytes early and reports that no data is encoded, where the image
itself decodes with success to `hi`. -/
theorem C21_offset_field_counterexample :
    10 < pixel_data_offset counted_payload_image ∧
    flip_at counted_payload_image 10 1 = counted_payload_image.set 10 52 ∧
    decode_outcome (do_decoding (some counted_payload_image) true (0, 0))
      = some (Status.e_success, none, [116, 0], some [104, 105]) ∧
    decode_outcome (do_decoding (some (flip_at counted_payload_image 10 1)) true (0, 0))
      = some (Status.e_failure, some DecodeError.no_data_encoded, [], none) :=
  ⟨by decide!, by decide!, by decide!, by decide!⟩

/-! ## The read loop of the extension -/

theorem flip_at_length (l : List Nat) (i j : Nat) : (flip_at l i j).length = l.length := by
  simp only [flip_at, List.length_set]

theorem flip_at_cons_zero (a : Nat) (l : List Nat) (j : Nat) :
    flip_at (a :: l) 0 j = flip_bit j a :: l := by
  simp only [flip_at, List.getD_cons_zero, List.set_cons_zero]

theorem flip_at_cons_succ (a : Nat) (l : List Nat) (i j : Nat) :
    flip_at (a :: l) (i + 1) j = a :: flip_at l i j := by
  simp only [flip_at, List.getD_cons_succ, List.set_cons_succ]

theorem flip_at_append_left (u t : List Nat) (i j : Nat) (h : i < u.length) :
    flip_at (u ++ t) i j = flip_at u i j ++ t := by
  simp only [flip_at, List.getD_eq_getElem?_getD]
  rw [List.set_append_left _ _ h, List.getElem?_append_left h]

theorem flip_at_append_right (u t : List Nat) (k j : Nat) :
    flip_at (u ++ t) (u.length + k) j = u ++ flip_at t k j := by
  simp only [flip_at, List.getD_eq_getElem?_getD]
  rw [List.set_append_right _ _ (by omega), List.getElem?_append_right (by omega)]
  simp only [Nat.add_sub_cancel_left]

theorem flip_bit_ne (k b : Nat) : flip_bit k b ≠ b := by
  intro h
  have h2 : b ^^^ (b ^^^ 2 ^ k) = b ^^^ b := by
    simp only [flip_bit] at h
    rw [h]
  rw [← Nat.xor_assoc, Nat.xor_self, Nat.zero_xor] at h2
  have := Nat.pos_pow_of_pos k (by decide : 0 < 2)
  omega

/-- Flipping the low bit of a byte changes its residue modulo 2. -/
theorem flip_low_bit_mod (x : Nat) : flip_bit 0 x % 2 = 1 - x % 2 := by
  simp only [flip_bit, pow_zero]
  rw [Nat.xor_mod_two_eq]
  omega

/-- Unpacking the eight bits of `m` of which bit `j` is complemented gives `m`
with bit `j` flipped. -/
theorem unpack_bits_flip : ∀ j < 8, ∀ m < 256,
    (get_data_from_byte_array ([m % 2, m / 2 % 2, m / 4 % 2, m / 8 % 2, m / 16 % 2,
        m / 32 % 2, m / 64 % 2, m / 128 % 2].set j
        (1 - [m % 2, m / 2 % 2, m / 4 % 2, m / 8 % 2, m / 16 % 2,
        m / 32 % 2, m / 64 % 2, m / 128 % 2].getD j 0))).2
      = flip_bit j (get_data_from_byte_array [m % 2, m / 2 % 2, m / 4 % 2, m / 8 % 2,
          m / 16 % 2, m / 32 % 2, m / 64 % 2, m / 128 % 2]).2 := by
  decide!

/-- Flipping the low bit of byte `j` of a block flips bit `j` of the byte it
carries. -/
theorem get_data_from_byte_array_flip (b : List Nat) (j : Nat) (hb : b.length = 8) (hj : j < 8) :
    (get_data_from_byte_array (flip_at b j 0)).2 = flip_bit j (get_data_from_byte_array b).2 := by
  obtain ⟨c0, c1, c2, c3, c4, c5, c6, c7, rfl⟩ := length_eq_eight hb
  obtain ⟨m, hm, e0, e1, e2, e3, e4, e5, e6, e7⟩ : ∃ m, m < 256 ∧ m % 2 = c0 % 2 ∧
      m / 2 % 2 = c1 % 2 ∧ m / 4 % 2 = c2 % 2 ∧ m / 8 % 2 = c3 % 2 ∧ m / 16 % 2 = c4 % 2 ∧
      m / 32 % 2 = c5 % 2 ∧ m / 64 % 2 = c6 % 2 ∧ m / 128 % 2 = c7 % 2 :=
    ⟨c0 % 2 + 2 * (c1 % 2) + 4 * (c2 % 2) + 8 * (c3 % 2) + 16 * (c4 % 2) + 32 * (c5 % 2)
      + 64 * (c6 % 2) + 128 * (c7 % 2), by omega, by omega, by omega, by omega, by omega,
      by omega, by omega, by omega, by omega⟩
  have hbits := unpack_bits_flip j hj m hm
  rw [e0, e1, e2, e3, e4, e5, e6, e7] at hbits
  have h1 : get_data_from_byte_array [c0, c1, c2, c3, c4, c5, c6, c7]
      = get_data_from_byte_array [c0 % 2, c1 % 2, c2 % 2, c3 % 2, c4 % 2, c5 % 2, c6 % 2, c7 % 2] := by
    apply get_data_from_byte_array_lsb
    intro i
    rw [← getD_map_mod, ← getD_map_mod]
    simp
  have h2 : get_data_from_byte_array (flip_at [c0, c1, c2, c3, c4, c5, c6, c7] j 0)
      = get_data_from_byte_array
          ([c0 % 2, c1 % 2, c2 % 2, c3 % 2, c4 % 2, c5 % 2, c6 % 2, c7 % 2].set j
            (1 - [c0 % 2, c1 % 2, c2 % 2, c3 % 2, c4 % 2, c5 % 2, c6 % 2, c7 % 2].getD j 0)) := by
    apply get_data_from_byte_array_lsb
    intro i
    simp only [flip_at]
    interval_cases j <;>
      rcases i with _ | _ | _ | _ | _ | _ | _ | _ | i <;>
      simp [flip_low_bit_mod] <;> omega
  rw [h2, hbits, h1]

theorem carried_block (b l : List Nat) (hb : b.length = 8) :
    carried (b ++ l) = (get_data_from_byte_array b).2 :: carried l := by
  have hk : (b ++ l).length / 8 = l.length / 8 + 1 := by
    rw [List.length_append, hb]
    omega
  simp only [carried, hk, unpack_blocks]
  rw [List.take_left' hb, List.drop_left' hb]

/-- The characters carried by a stamped text followed by further bytes. -/
theorem carried_stamp : ∀ (t carrier rest : List Nat), 8 * t.length ≤ carrier.length →
    carried (stamp t carrier ++ rest) = t.map (fun c => c % 256) ++ carried rest := by
  intro t
  induction t with
  | nil => intro _ _ _; simp [stamp]
  | cons c cs ih =>
    intro carrier rest h
    simp only [List.length_cons] at h
    have hl : (carrier.take 8).length = 8 := by
      simp only [List.length_take]; omega
    have hb : (encode_byte_to_lsb c (carrier.take 8)).2.length = 8 := by
      rw [encode_byte_to_lsb_length, hl]
    simp only [stamp, List.append_assoc, List.map_cons, List.cons_append]
    rw [carried_block _ _ hb, unpack_pack c _ hl,
      ih (carrier.drop 8) rest (by simp only [List.length_drop]; omega)]

/-- Flipping the low bit of byte `j` of block `i` flips bit `j` of character
`i`. -/
theorem carried_flip : ∀ (i : Nat) (L : List Nat) (j : Nat), j < 8 → 8 * i + 8 ≤ L.length →
    carried (flip_at L (8 * i + j) 0) = flip_at (carried L) i j := by
  intro i
  induction i with
  | zero =>
    intro L j hj hL
    have hb : (L.take 8).length = 8 := by simp only [List.length_take]; omega
    have hs : L = L.take 8 ++ L.drop 8 := (List.take_append_drop 8 L).symm
    rw [hs, Nat.mul_zero, Nat.zero_add, flip_at_append_left _ _ _ _ (by omega),
      carried_block _ _ (by rw [flip_at_length, hb]), carried_block _ _ hb, flip_at_cons_zero,
      get_data_from_byte_array_flip _ _ hb hj]
  | succ i ih =>
    intro L j hj hL
    have hb : (L.take 8).length = 8 := by simp only [List.length_take]; omega
    have hs : L = L.take 8 ++ L.drop 8 := (List.take_append_drop 8 L).symm
    have e1 : 8 * (i + 1) + j = (L.take 8).length + (8 * i + j) := by rw [hb]; ring
    rw [hs, e1, flip_at_append_right, carried_block _ _ hb, carried_block _ _ hb,
      flip_at_cons_succ, ih (L.drop 8) j hj (by simp only [List.length_drop]; omega)]

theorem takeWhile_separator (u v : List Nat) (h : 42 ∉ u) :
    (u ++ 42 :: v).takeWhile (fun c => c != 42) = u := by
  induction u with
  | nil => simp
  | cons c u ih =>
    have hc : c ≠ 42 := fun h0 => h (by simp [h0])
    have hne : (c != 42) = true := by simp [hc]
    rw [List.cons_append, List.takeWhile_cons, hne]
    simp only [if_true]
    rw [ih (fun hm => h (by simp [hm]))]

theorem dropWhile_separator (u v : List Nat) (h : 42 ∉ u) :
    ((u ++ 42 :: v).dropWhile (fun c => c != 42)).drop 1 = v := by
  induction u with
  | nil => simp
  | cons c u ih =>
    have hc : c ≠ 42 := fun h0 => h (by simp [h0])
    have hne : (c != 42) = true := by simp [hc]
    rw [List.cons_append, List.dropWhile_cons, hne]
    simp only [if_true]
    exact ih (fun hm => h (by simp [hm]))

theorem is_magic_string_magic : is_magic_string [35, 42] = Status.e_success := by decide

/-- The bytes written for a size text `s` without `*`, followed by the
separator and the characters `q`. -/
theorem decode_payload_frame (s q : List Nat) (hs : 42 ∉ s) (hl : s.length < 10) :
    decode_payload (s ++ 42 :: q)
      = (atoi (s ++ [0])).bind
          (fun n => if n < 0 then none else some (cstr (q.take n.toNat ++ [0]))) := by
  have hn : ¬ s.length ≥ 10 := by omega
  simp only [decode_payload, takeWhile_separator s q hs, dropWhile_separator s q hs, hn, if_false]
  cases atoi (s ++ [0]) with
  | none => rfl
  | some n => rfl

/-- The decoder on the characters of a frame: the magic string, an extension
`e` without `*`, the separator, then the size and the payload. -/
theorem decode_chars_frame (e rest : List Nat) (stale : Nat × Nat) (he : 42 ∉ e)
    (hl : e.length < MAX_FILE_SUFFIX) :
    decode_chars true stale (35 :: 42 :: (e ++ 42 :: rest))
      = (decode_payload rest).map (fun w => (Status.e_success, none, e ++ [0], some w)) := by
  have hn : ¬ e.length ≥ MAX_FILE_SUFFIX := by omega
  simp only [decode_chars, List.getD_cons_zero, List.getD_cons_succ, is_magic_string_magic,
    reduceCtorEq, if_false, List.drop_succ_cons, List.drop_zero, takeWhile_separator e rest he,
    dropWhile_separator e rest he, hn, Bool.true_eq_false]
  cases decode_payload rest with
  | none => rfl
  | some w => rfl

/-- When the decoder gets past the magic string, the extension it returns is
made of the characters before the first `*`. -/
theorem decode_chars_extension (l : List Nat) (c : Bool) (stale : Nat × Nat)
    (r : Status × Option DecodeError × List Nat × Option (List Nat))
    (h : decode_chars c stale (35 :: 42 :: l) = some r) :
    r.2.2.1 = l.takeWhile (fun c => c != 42) ++ [0] := by
  simp only [decode_chars, List.getD_cons_zero, List.getD_cons_succ, is_magic_string_magic,
    reduceCtorEq, if_false, List.drop_succ_cons, List.drop_zero] at h
  split at h
  · cases h
  · split at h
    · rw [Option.some.injEq] at h
      rw [← h]
    · split at h
      · cases h
      · rw [Option.some.injEq] at h
        rw [← h]

/-- The decoder does not get past a first character other than `#`. -/
theorem decode_chars_first (a : Nat) (l : List Nat) (c : Bool) (stale : Nat × Nat) (ha : a ≠ 35) :
    decode_chars c stale (a :: 42 :: l)
      = some (Status.e_failure, some DecodeError.no_data_encoded, [], none) := by
  have hm : is_magic_string [a, 42] = Status.e_failure := by
    cases h : is_magic_string [a, 42] with
    | e_failure => rfl
    | e_success =>
      have := (is_magic_string_pair a 42).1 h
      simp only [List.cons.injEq, and_true] at this
      exact absurd this ha
  simp only [decode_chars, List.getD_cons_zero, List.getD_cons_succ, hm, if_true]

/-- The decoder does not get past a second character other than `*`. -/
theorem decode_chars_second (b : Nat) (l : List Nat) (c : Bool) (stale : Nat × Nat) (hb : b ≠ 42) :
    decode_chars c stale (35 :: b :: l)
      = some (Status.e_failure, some DecodeError.no_data_encoded, [], none) := by
  have hm : is_magic_string [35, b] = Status.e_failure := by
    cases h : is_magic_string [35, b] with
    | e_failure => rfl
    | e_success =>
      have := (is_magic_string_pair 35 b).1 h
      simp only [List.cons.injEq, true_and, and_true] at this
      exact absurd this hb
  simp only [decode_chars, List.getD_cons_zero, List.getD_cons_succ, hm, if_true]

theorem digits_value_append (acc : Nat) (a b : List Nat) :
    digits_value acc (a ++ b) = digits_value (digits_value acc a) b := by
  simp only [digits_value, List.foldl_append]

theorem digits_value_cons (acc d : Nat) (ds : List Nat) :
    digits_value acc (d :: ds) = digits_value (acc * 10 + (d - 48)) ds := rfl

theorem digits_value_acc : ∀ (ds : List Nat) (acc : Nat),
    digits_value acc ds = acc * 10 ^ ds.length + digits_value 0 ds := by
  intro ds
  induction ds with
  | nil => intro acc; simp [digits_value]
  | cons d ds ih =>
    intro acc
    rw [digits_value_cons, digits_value_cons, ih (acc * 10 + (d - 48)), ih (0 * 10 + (d - 48)),
      List.length_cons, Nat.pow_succ]
    ring

/-- The loop of `atoi` over a run of digits that cannot overflow. -/
theorem atoi_loop_digits : ∀ (ds : List Nat) (acc : Nat) (tail : List Nat),
    (∀ x ∈ ds, 48 ≤ x ∧ x ≤ 57) → (acc + 1) * 10 ^ ds.length ≤ 2147483648 →
    atoi_loop (ds ++ tail) acc = atoi_loop tail (digits_value acc ds) := by
  intro ds
  induction ds with
  | nil => intro acc tail _ _; rfl
  | cons d ds ih =>
    intro acc tail hd hb
    have hdd := hd d (by simp)
    have hpos : 1 ≤ 10 ^ ds.length := Nat.one_le_two_pow.trans
      (Nat.pow_le_pow_left (by decide) _)
    rw [List.length_cons, Nat.pow_succ] at hb
    have h10 : (acc + 1) * 10 ≤ 2147483648 := by
      have : (acc + 1) * 10 * 1 ≤ (acc + 1) * (10 ^ ds.length * 10) := by
        rw [Nat.mul_assoc]
        exact Nat.mul_le_mul_left _ (by omega)
      omega
    have hnext : (acc * 10 + (d - 48) + 1) * 10 ^ ds.length ≤ 2147483648 := by
      have h1 : acc * 10 + (d - 48) + 1 ≤ (acc + 1) * 10 := by omega
      have h2 := Nat.mul_le_mul_right (10 ^ ds.length) h1
      have h3 : (acc + 1) * 10 * 10 ^ ds.length = (acc + 1) * (10 ^ ds.length * 10) := by ring
      omega
    have hd0 : d ≠ 0 := by omega
    have hov : ¬ acc * 10 + (d - 48) > 2147483647 := by omega
    rw [List.cons_append, atoi_loop]
    simp only [hd0, if_false, hdd, and_self, if_true, hov]
    rw [ih (acc * 10 + (d - 48)) tail (fun x hx => hd x (by simp [hx])) hnext, digits_value_cons]

/-- The loop of `atoi` stops at a character that is not a digit. -/
theorem atoi_loop_stop (ch acc : Nat) (rest : List Nat) (h : ¬ (48 ≤ ch ∧ ch ≤ 57)) :
    atoi_loop (ch :: rest) acc = some acc := by
  rw [atoi_loop]
  by_cases h0 : ch = 0
  · simp only [h0, if_true]
  · simp only [h0, if_false, h]

/-- The function `atoi` on a text that starts with a digit. -/
theorem atoi_of_digit (d : Nat) (rest : List Nat) (hd : 48 ≤ d ∧ d ≤ 57) :
    atoi (d :: rest) = (atoi_loop (d :: rest) 0).map (fun v => (v : Int)) := by
  have hs : ¬ d = 45 := by omega
  simp only [atoi, List.headD_cons, hd, and_self, decide_True, Bool.not_true, Bool.false_and,
    Bool.false_eq_true, if_false, if_true, List.drop_zero, hs, decide_False]
  cases atoi_loop (d :: rest) 0 with
  | none => rfl
  | some v => rfl

/-- The function `atoi` on a text that starts with a character that is neither
a digit nor a sign. -/
theorem atoi_of_other (ch : Nat) (rest : List Nat) (hd : ¬ (48 ≤ ch ∧ ch ≤ 57))
    (h43 : ch ≠ 43) (h45 : ch ≠ 45) : atoi (ch :: rest) = some 0 := by
  simp only [atoi, List.headD_cons, hd, decide_False, Bool.not_false, h43, h45, or_self,
    Bool.and_self, if_true]

/-- A digit with one bit flipped is neither the separator, nor a sign, nor
zero. -/
theorem flip_digit : ∀ c < 58, 48 ≤ c → ∀ j < 8,
    flip_bit j c ≠ 42 ∧ flip_bit j c ≠ 43 ∧ flip_bit j c ≠ 45 ∧ flip_bit j c ≠ 0 := by
  decide

theorem digits_value_decimal (n : Nat) (hn : n < 10000000) : digits_value 0 (decimal n) = n := by
  have hl := decimal_length_le n hn
  have hp : 10 ^ (decimal n).length ≤ 10 ^ 7 := Nat.pow_le_pow_right (by decide) hl
  have h1 := atoi_loop_digits (decimal n) 0 [0] (decimal_lt n) (by omega)
  have h2 := atoi_loop_decimal n (by omega) [0]
  rw [h2] at h1
  simp only [atoi_loop, if_true, Option.some.injEq] at h1
  exact h1.symm

theorem flip_at_ne : ∀ (l : List Nat) (i j : Nat), i < l.length → flip_at l i j ≠ l := by
  intro l
  induction l with
  | nil => intro i j h; simp at h
  | cons a l ih =>
    intro i j h he
    cases i with
    | zero =>
      rw [flip_at_cons_zero] at he
      exact flip_bit_ne j a (List.cons.inj he).1
    | succ i =>
      rw [flip_at_cons_succ] at he
      exact ih i j (by simpa using h) (List.cons.inj he).2

theorem split_at_index : ∀ (l : List Nat) (b : Nat), b < l.length →
    ∃ u c v, l = u ++ c :: v ∧ u.length = b := by
  intro l
  induction l with
  | nil => intro b h; simp at h
  | cons a l ih =>
    intro b h
    cases b with
    | zero => exact ⟨[], a, l, rfl, rfl⟩
    | succ b =>
      obtain ⟨u, c, v, e, hu⟩ := ih b (by simpa using h)
      exact ⟨a :: u, c, v, by rw [e]; rfl, by simp [hu]⟩

/-- The function `atoi` on a nonempty run of digits that cannot overflow. -/
theorem atoi_digits (ds : List Nat) (hne : ds ≠ []) (hd : ∀ x ∈ ds, 48 ≤ x ∧ x ≤ 57)
    (hb : 10 ^ ds.length ≤ 2147483648) :
    atoi (ds ++ [0]) = some (digits_value 0 ds : Int) := by
  cases ds with
  | nil => exact absurd rfl hne
  | cons d ds =>
    rw [List.cons_append, atoi_of_digit d _ (hd d (by simp)), ← List.cons_append,
      atoi_loop_digits (d :: ds) 0 [0] hd (by omega)]
    simp [atoi_loop]

/-- The function `atoi` on a text that starts with a nonempty run of digits
followed by a character that is not a digit. -/
theorem atoi_digits_stop (ds : List Nat) (ch : Nat) (rest : List Nat) (hne : ds ≠ [])
    (hd : ∀ x ∈ ds, 48 ≤ x ∧ x ≤ 57) (hb : 10 ^ ds.length ≤ 2147483648)
    (hch : ¬ (48 ≤ ch ∧ ch ≤ 57)) :
    atoi (ds ++ ch :: rest) = some (digits_value 0 ds : Int) := by
  cases ds with
  | nil => exact absurd rfl hne
  | cons d ds =>
    rw [List.cons_append, atoi_of_digit d _ (hd d (by simp)), ← List.cons_append,
      atoi_loop_digits (d :: ds) 0 _ hd (by omega), atoi_loop_stop _ _ _ hch]
    rfl

/-- Flipping one bit of one digit of the size text changes what `atoi` reads
from it, and does not make a separator. -/
theorem atoi_flip_ne (n b j : Nat) (hn1 : 1 ≤ n) (hn : n < 10000000)
    (hb : b < (decimal n).length) (hj : j < 8) :
    42 ∉ flip_at (decimal n) b j ∧ atoi (flip_at (decimal n) b j ++ [0]) ≠ some (n : Int) := by
  have hval := digits_value_decimal n hn
  have hdig := decimal_lt n
  have hl := decimal_length_le n hn
  generalize decimal n = dec at hval hdig hl hb
  obtain ⟨d1, c, d2, rfl, hd1⟩ := split_at_index dec b hb
  have hc : 48 ≤ c ∧ c ≤ 57 := hdig c (by simp)
  have hdig1 : ∀ x ∈ d1, 48 ≤ x ∧ x ≤ 57 := fun x hx => hdig x (by simp [hx])
  have hdig2 : ∀ x ∈ d2, 48 ≤ x ∧ x ≤ 57 := fun x hx => hdig x (by simp [hx])
  have hfl : flip_at (d1 ++ c :: d2) b j = d1 ++ flip_bit j c :: d2 := by
    have := flip_at_append_right d1 (c :: d2) 0 j
    rw [Nat.add_zero, hd1, flip_at_cons_zero] at this
    exact this
  have hne := flip_bit_ne j c
  obtain ⟨f42, f43, f45, f0⟩ := flip_digit c (by omega) hc.1 j hj
  simp only [List.length_append, List.length_cons] at hl
  have hK : 1 ≤ 10 ^ d2.length := Nat.one_le_two_pow.trans (Nat.pow_le_pow_left (by decide) _)
  rw [digits_value_append, digits_value_cons, digits_value_acc d2] at hval
  rw [hfl]
  refine ⟨?_, ?_⟩
  · intro hm
    rcases List.mem_append.mp hm with h | h
    · have := hdig1 42 h; omega
    · rcases List.mem_cons.mp h with h | h
      · exact f42 h.symm
      · have := hdig2 42 h; omega
  · by_cases hcd : 48 ≤ flip_bit j c ∧ flip_bit j c ≤ 57
    · have hall : ∀ x ∈ d1 ++ flip_bit j c :: d2, 48 ≤ x ∧ x ≤ 57 := by
        intro x hx
        rcases List.mem_append.mp hx with h | h
        · exact hdig1 x h
        · rcases List.mem_cons.mp h with h | h
          · rw [h]; exact hcd
          · exact hdig2 x h
      have hp : 10 ^ (d1 ++ flip_bit j c :: d2).length ≤ 10 ^ 7 :=
        Nat.pow_le_pow_right (by decide) (by simp only [List.length_append, List.length_cons]; omega)
      rw [atoi_digits _ (by simp) hall (by omega), digits_value_append, digits_value_cons,
        digits_value_acc d2]
      intro he
      have he2 : (digits_value 0 d1 * 10 + (flip_bit j c - 48)) * 10 ^ d2.length
          + digits_value 0 d2 = n := by
        have := Option.some.inj he
        exact_mod_cast this
      have he3 : (digits_value 0 d1 * 10 + (flip_bit j c - 48)) * 10 ^ d2.length
          = (digits_value 0 d1 * 10 + (c - 48)) * 10 ^ d2.length := by omega
      have := Nat.eq_of_mul_eq_mul_right (by omega) he3
      omega
    · cases d1 with
      | nil =>
        rw [List.nil_append, List.cons_append, atoi_of_other _ _ hcd f43 f45]
        intro he
        have := Option.some.inj he
        omega
      | cons a d1 =>
        have hp : 10 ^ (a :: d1).length ≤ 10 ^ 7 :=
          Nat.pow_le_pow_right (by decide) (by simp only [List.length_cons] at hl ⊢; omega)
        rw [List.append_assoc, List.cons_append (flip_bit j c),
          atoi_digits_stop (a :: d1) _ _ (by simp) hdig1 (by omega) hcd]
        intro he
        have he2 : digits_value 0 (a :: d1) = n := by
          have := Option.some.inj he
          exact_mod_cast this
        have h1 : (digits_value 0 (a :: d1) * 10 + (c - 48)) * 1
            ≤ (digits_value 0 (a :: d1) * 10 + (c - 48)) * 10 ^ d2.length :=
          Nat.mul_le_mul_left _ hK
        omega

/-- The string of `m` characters counted from `P ++ * ...` is `P` only when
`m` is the length of `P`. -/
theorem counted_string_eq (P w : List Nat) (m : Nat) (hz : ∀ x ∈ P, x ≠ 0)
    (h : cstr ((P ++ 42 :: w).take m ++ [0]) = P) : m = P.length := by
  by_cases hm : m ≤ P.length
  · rw [List.take_append_of_le_length hm,
      cstr_append_zero (P.take m) [] (fun x hx => hz x (List.mem_of_mem_take hx))] at h
    have := congrArg List.length h
    simp only [List.length_take] at this
    omega
  · obtain ⟨k, rfl⟩ : ∃ k, m = P.length + (k + 1) := ⟨m - P.length - 1, by omega⟩
    rw [List.take_append, List.take_succ_cons, List.append_assoc,
      cstr_append_of_no_zero P _ hz, List.cons_append, cstr_cons_ne 42 _ (by decide)] at h
    have := congrArg List.length h
    simp only [List.length_append, List.length_cons] at this
    omega

theorem cstr_same_length : ∀ (L P : List Nat), cstr (L ++ [0]) = P → P.length = L.length →
    L = P := by
  intro L
  induction L with
  | nil => intro P h _; rw [← h]; rfl
  | cons a L ih =>
    intro P h hl
    by_cases ha : a = 0
    · subst ha
      rw [List.cons_append, cstr_cons_zero] at h
      rw [← h] at hl
      simp at hl
    · rw [List.cons_append, cstr_cons_ne a _ ha] at h
      cases P with
      | nil => cases h
      | cons b P =>
        obtain ⟨h1, h2⟩ := List.cons.inj h
        rw [h1, ih P h2 (by simpa using hl)]

theorem takeWhile_append_all (u v : List Nat) (h : 42 ∉ u) :
    (u ++ v).takeWhile (fun c => c != 42) = u ++ v.takeWhile (fun c => c != 42) := by
  induction u with
  | nil => rfl
  | cons c u ih =>
    have hc : c ≠ 42 := fun h0 => h (by simp [h0])
    have hne : (c != 42) = true := by simp [hc]
    rw [List.cons_append, List.takeWhile_cons, hne]
    simp only [if_true]
    rw [ih (fun hm => h (by simp [hm]))]
    rfl

/-- A flipped bit in a character of the extension: the decoder does not give
the extension back. -/
theorem decode_chars_flip_extension (ext rest P : List Nat) (stale : Nat × Nat) (a j : Nat)
    (ha : a < ext.length) :
    decode_chars true stale (35 :: 42 :: (flip_at ext a j ++ rest))
      ≠ some (Status.e_success, none, ext ++ [0], some P) := by
  intro h
  have he := decode_chars_extension _ _ _ _ h
  simp only [] at he
  have he2 := List.append_cancel_right he
  have hpre : (flip_at ext a j ++ rest).takeWhile (fun c => c != 42) <+: flip_at ext a j ++ rest :=
    List.takeWhile_prefix _
  obtain ⟨t, ht⟩ := hpre
  rw [← he2] at ht
  have := (List.append_inj ht (by rw [flip_at_length])).1
  exact flip_at_ne ext a j ha this.symm

/-- A flipped bit in the separator behind the extension: the decoder does not
give the extension back. -/
theorem decode_chars_flip_separator (ext rest P : List Nat) (stale : Nat × Nat) (ch : Nat)
    (hext : 42 ∉ ext) (hch : ch ≠ 42) :
    decode_chars true stale (35 :: 42 :: (ext ++ ch :: rest))
      ≠ some (Status.e_success, none, ext ++ [0], some P) := by
  intro h
  have he := decode_chars_extension _ _ _ _ h
  simp only [] at he
  have he2 := List.append_cancel_right he
  have hne : (ch != 42) = true := by simp [hch]
  rw [takeWhile_append_all ext _ hext, List.takeWhile_cons, hne] at he2
  simp only [if_true] at he2
  have := congrArg List.length he2
  simp only [List.length_append, List.length_cons] at this
  omega

/-- A flipped bit in a digit of the size: the decoder does not write the
payload. -/
theorem decode_payload_flip_size (P w : List Nat) (b j : Nat) (hz : ∀ x ∈ P, x ≠ 0)
    (hP1 : 1 ≤ P.length) (hP7 : P.length < 10000000) (hb : b < (decimal P.length).length)
    (hj : j < 8) :
    decode_payload (flip_at (decimal P.length) b j ++ 42 :: (P ++ 42 :: w)) ≠ some P := by
  obtain ⟨h42, hat⟩ := atoi_flip_ne P.length b j hP1 hP7 hb hj
  have hl := decimal_length_le P.length hP7
  rw [decode_payload_frame _ _ h42 (by rw [flip_at_length]; omega)]
  intro h
  cases hv : atoi (flip_at (decimal P.length) b j ++ [0]) with
  | none => rw [hv] at h; cases h
  | some v =>
    rw [hv] at h hat
    simp only [Option.some_bind] at h
    by_cases hneg : v < 0
    · rw [if_pos hneg] at h; cases h
    · rw [if_neg hneg] at h
      have := counted_string_eq P w v.toNat hz (Option.some.inj h)
      apply hat
      congr 1
      omega

/-- A flipped bit in a byte of the payload: the decoder does not write the
payload. -/
theorem decode_payload_flip_payload (P w : List Nat) (m j : Nat) (hP7 : P.length < 10000000)
    (hm : m < P.length) :
    decode_payload (decimal P.length ++ 42 :: (flip_at P m j ++ 42 :: w)) ≠ some P := by
  have h42 : 42 ∉ decimal P.length := by
    intro hx
    have := decimal_lt _ _ hx
    omega
  have hl : (decimal P.length).length < 10 := by
    have := decimal_length_le _ hP7
    omega
  rw [decode_payload_frame _ _ h42 hl, atoi_decimal _ (by omega)]
  simp only [Option.some_bind, Int.toNat_ofNat]
  rw [if_neg (by omega)]
  intro h
  have hlen : (flip_at P m j).length = P.length := flip_at_length P m j
  rw [List.take_append_of_le_length (by omega), List.take_of_length_le (by omega)] at h
  have := cstr_same_length _ _ (Option.some.inj h) hlen.symm
  exact flip_at_ne P m j hm this

/-- The decoder on the characters of a frame whose payload has no zero byte
and fewer than `10^7` bytes, whatever follows the frame. -/
theorem decode_chars_frame_payload (ext P w : List Nat) (stale : Nat × Nat) (hext : 42 ∉ ext)
    (hextl : ext.length < MAX_FILE_SUFFIX) (hz : ∀ x ∈ P, x ≠ 0) (hP7 : P.length < 10000000) :
    decode_chars true stale (35 :: 42 :: (ext ++ 42 :: (decimal P.length ++ 42 :: (P ++ 42 :: w))))
      = some (Status.e_success, none, ext ++ [0], some P) := by
  have h42 : 42 ∉ decimal P.length := by
    intro hx
    have := decimal_lt _ _ hx
    omega
  have hl : (decimal P.length).length < 10 := by
    have := decimal_length_le _ hP7
    omega
  rw [decode_chars_frame _ _ _ hext hextl, decode_payload_frame _ _ h42 hl,
    atoi_decimal _ (by omega)]
  simp only [Option.some_bind, Int.toNat_ofNat, Option.map]
  rw [if_neg (by omega), List.take_append_of_le_length (by omega),
    List.take_of_length_le (by omega), cstr_append_zero P [] hz]

/-- A flipped bit in a character of the frame other than the two separators
behind the size and behind the payload: the decoder does not give the
extension and the payload back. -/
theorem decode_chars_flip (ext P w : List Nat) (stale : Nat × Nat) (i j : Nat)
    (hext : 42 ∉ ext) (hextl : ext.length < MAX_FILE_SUFFIX) (hz : ∀ x ∈ P, x ≠ 0)
    (hP1 : 1 ≤ P.length) (hP7 : P.length < 10000000) (hj : j < 8)
    (hi : i < 2 + ext.length + 1 + (decimal P.length).length + 1 + P.length)
    (hsep : i ≠ 2 + ext.length + 1 + (decimal P.length).length) :
    decode_chars true stale
        (flip_at (35 :: 42 :: (ext ++ 42 :: (decimal P.length ++ 42 :: (P ++ 42 :: w)))) i j)
      ≠ some (Status.e_success, none, ext ++ [0], some P) := by
  have h42 : 42 ∉ decimal P.length := by
    intro hx
    have := decimal_lt _ _ hx
    omega
  rcases i with _ | _ | a
  · rw [flip_at_cons_zero, decode_chars_first _ _ _ _ (flip_bit_ne j 35)]
    intro h
    cases h
  · rw [flip_at_cons_succ, flip_at_cons_zero, decode_chars_second _ _ _ _ (flip_bit_ne j 42)]
    intro h
    cases h
  · rw [flip_at_cons_succ, flip_at_cons_succ]
    by_cases ha : a < ext.length
    · rw [flip_at_append_left _ _ _ _ ha]
      exact decode_chars_flip_extension ext _ P stale a j ha
    · obtain ⟨k, rfl⟩ : ∃ k, a = ext.length + k := ⟨a - ext.length, by omega⟩
      rw [flip_at_append_right]
      cases k with
      | zero =>
        rw [flip_at_cons_zero]
        exact decode_chars_flip_separator ext _ P stale _ hext (flip_bit_ne j 42)
      | succ k =>
        rw [flip_at_cons_succ, decode_chars_frame _ _ _ hext hextl]
        intro h
        have hp : decode_payload
            (flip_at (decimal P.length ++ 42 :: (P ++ 42 :: w)) k j) = some P := by
          cases hv : decode_payload (flip_at (decimal P.length ++ 42 :: (P ++ 42 :: w)) k j) with
          | none => rw [hv] at h; cases h
          | some v =>
            rw [hv] at h
            simp only [Option.map, Option.some.injEq, Prod.mk.injEq, true_and] at h
            rw [h]
        by_cases hk : k < (decimal P.length).length
        · rw [flip_at_append_left _ _ _ _ hk] at hp
          exact decode_payload_flip_size P w k j hz hP1 hP7 hk hj hp
        · obtain ⟨m, rfl⟩ : ∃ m, k = (decimal P.length).length + m :=
            ⟨k - (decimal P.length).length, by omega⟩
          rw [flip_at_append_right] at hp
          cases m with
          | zero => exact hsep (by omega)
          | succ m =>
            rw [flip_at_cons_succ, flip_at_append_left _ _ _ _ (by omega)] at hp
            exact decode_payload_flip_payload P w m j hP7 (by omega) hp

theorem flip_at_drop (X : List Nat) (p k j : Nat) (hk : k ≤ X.length) (hp : k ≤ p) :
    (flip_at X p j).drop k = flip_at (X.drop k) (p - k) j := by
  have hl : (X.take k).length = k := by simp only [List.length_take]; omega
  have h := flip_at_append_right (X.take k) (X.drop k) (p - k) j
  rw [List.take_append_drop, hl, Nat.add_sub_cancel' hp] at h
  rw [h, List.drop_left' hl]

/-- The frame stamped by `do_encoding` for a payload without zero byte: the
payload counted by `secret_size` is stamped whole, with its separator. -/
theorem encoder_frame_counted (P fname : List Nat) (hz : ∀ x ∈ P, x ≠ 0) :
    (P.take (secret_size P)).length = secret_size P ∧
    encoder_frame P fname
      = 35 :: 42 :: ((get_file_extension fname).2
          ++ 42 :: (decimal (secret_size P) ++ 42 :: (P.take (secret_size P) ++ [42]))) := by
  have hle : secret_size P ≤ P.length := Nat.mod_le _ _
  have hz2 : ∀ x ∈ P.take (secret_size P) ++ [42], x ≠ 0 := by
    intro x hx
    rcases List.mem_append.mp hx with h | h
    · exact hz x (List.mem_of_mem_take h)
    · simp only [List.mem_singleton] at h; omega
  have hc : cstr (P.take (secret_size P) ++ [42, 0]) = P.take (secret_size P) ++ [42] := by
    have := cstr_append_zero (P.take (secret_size P) ++ [42]) [] hz2
    simpa using this
  refine ⟨by simp only [List.length_take]; omega, ?_⟩
  simp only [encoder_frame, frame_text, hc, MAGIC_STRING, List.append_assoc, List.cons_append,
    List.nil_append]

/-- The characters carried by the output of a successful run from the pixel
data offset on: the frame, then what the rest of the source carries. -/
theorem carried_encoded_image (D P fname : List Nat) (hc : encode_conditions D P fname)
    (hz : ∀ x ∈ P, x ≠ 0) (hb : ∀ x ∈ P, x < 256)
    (hexb : ∀ x ∈ (get_file_extension fname).2, x ≠ 42 ∧ x < 256) :
    carried ((encoded_image D (encoder_frame P fname)).drop (pixel_data_offset D))
      = 35 :: 42 :: ((get_file_extension fname).2
          ++ 42 :: (decimal (secret_size P) ++ 42 :: (P.take (secret_size P)
            ++ 42 :: carried (D.drop (pixel_data_offset D
                + 8 * (encoder_frame P fname).length))))) := by
  obtain ⟨_, hfr⟩ := encoder_frame_counted P fname hz
  have hfit := hc.2.2.2.2.2.2.2.2
  have hlt : ∀ x ∈ encoder_frame P fname, x < 256 := by
    rw [hfr]
    intro x hx
    simp only [List.mem_cons, List.mem_append, List.mem_singleton, List.not_mem_nil,
      or_false] at hx
    rcases hx with h | h | h | h | h | h | h | h
    · omega
    · omega
    · exact (hexb x h).2
    · omega
    · have := decimal_lt _ x h; omega
    · omega
    · exact hb x (List.mem_of_mem_take h)
    · omega
  rw [drop_encoded_image, carried_stamp _ _ _ (by simp only [List.length_drop]; omega),
    map_mod_of_lt _ hlt]
  generalize carried (D.drop (pixel_data_offset D + 8 * (encoder_frame P fname).length)) = w
  rw [hfr]
  simp only [List.append_assoc, List.cons_append, List.nil_append]

/-- C22, amended: for every carrier image on which the encoder runs to the end
(`encode_conditions`: at least 26 bytes, the capacity check passes, the image
holds `width * height * 3` bytes and the whole frame from its pixel data
offset on, `width * height * 3` and the offset are below `2^31`, the extension
is accepted and the size text fits its array of 9 bytes) with a pixel data
offset of 14 or more, every payload of fewer than `2^32` bytes, none of them
zero, and every file name whose extension has no `*` (bytes below 256),
`do_encoding` succeeds, `do_decoding` on the image it writes gives the
extension and the payload back, and for every byte position `p` in the frame
region of the image other than the block of the separator behind the size
digits and the block of the trailing separator, flipping the least-significant
bit of byte `p` changes what `do_decoding` gives: its status and message, the
extension, the bytes written, or whether it stays within its arrays. -/
theorem C22_frame_bit_flip (D P fname : List Nat) (stale : Nat × Nat) (p : Nat)
    (hc : encode_conditions D P fname) (hlen : P.length < 4294967296)
    (hz : ∀ x ∈ P, x ≠ 0) (hb : ∀ x ∈ P, x < 256)
    (hexb : ∀ x ∈ (get_file_extension fname).2, x ≠ 42 ∧ x < 256)
    (h14 : 14 ≤ pixel_data_offset D) (hlo : pixel_data_offset D ≤ p)
    (hhi : p < pixel_data_offset D + 8 * ((encoder_frame P fname).length - 1))
    (hsep : (p - pixel_data_offset D) / 8
      ≠ 2 + (get_file_extension fname).2.length + 1 + (decimal (secret_size P)).length) :
    ∃ r out, do_encoding (some D) (some P) true fname = some r ∧
      r.status = Status.e_success ∧
      r.encInfo.fptr_stego_image = some out ∧
      decode_outcome (do_decoding (some out.data) true stale)
        = some (Status.e_success, none, (get_file_extension fname).2 ++ [0], some P) ∧
      decode_outcome (do_decoding (some (flip_at out.data p 0)) true stale)
        ≠ decode_outcome (do_decoding (some out.data) true stale) := by
  obtain ⟨e, he, hout⟩ := (do_encoding_yields D P fname hc.2.2.2.2.2.1).1 hc
  refine ⟨_, _, he, rfl, hout, ?_⟩
  simp only []
  have htake : P.take (secret_size P) = P := by
    rw [secret_size, Nat.mod_eq_of_lt hlen, List.take_length]
  suffices hgoal : decode_outcome
        (do_decoding (some (encoded_image D (encoder_frame P fname))) true stale)
        = some (Status.e_success, none, (get_file_extension fname).2 ++ [0],
            some (P.take (secret_size P))) ∧
      decode_outcome
          (do_decoding (some (flip_at (encoded_image D (encoder_frame P fname)) p 0)) true stale)
        ≠ decode_outcome
          (do_decoding (some (encoded_image D (encoder_frame P fname))) true stale) by
    rw [htake] at hgoal
    exact hgoal
  have hcar := carried_encoded_image D P fname hc hz hb hexb
  have hoffX := pixel_data_offset_encoded D P fname hc h14
  obtain ⟨hlenP, hfr⟩ := encoder_frame_counted P fname hz
  obtain ⟨hn0, h26, _, _, _, hoff31, hext, hdec, hfit⟩ := hc
  have hlenX := encoded_image_length D (encoder_frame P fname) hfit
  have hF : (encoder_frame P fname).length
      = 2 + (get_file_extension fname).2.length + 1 + (decimal (secret_size P)).length + 1
        + secret_size P + 1 := by
    rw [hfr]
    simp only [List.length_cons, List.length_append, List.length_nil, hlenP]
    omega
  have hextl := (get_file_extension_success fname hext).1
  have hstar : 42 ∉ (get_file_extension fname).2 := fun h => (hexb 42 h).1 rfl
  have hz2 : ∀ x ∈ P.take (secret_size P), x ≠ 0 := fun x hx => hz x (List.mem_of_mem_take hx)
  have hP7 := lt_of_decimal_length _ hdec
  generalize encoded_image D (encoder_frame P fname) = X at hcar hoffX hlenX ⊢
  generalize carried (D.drop (pixel_data_offset D + 8 * (encoder_frame P fname).length)) = w
    at hcar
  obtain ⟨Q, hQ, hQlen⟩ : ∃ Q, P.take (secret_size P) = Q ∧ Q.length = secret_size P :=
    ⟨_, rfl, hlenP⟩
  rw [hQ] at hcar hz2 ⊢
  rw [← hQlen] at hcar hsep hP7 hn0 hF
  have hmsX : magic_start X = pixel_data_offset D := by
    rw [magic_start_of_lt X (by rw [hoffX]; exact hoff31), hoffX]
  have horig : decode_outcome (do_decoding (some X) true stale)
      = some (Status.e_success, none, (get_file_extension fname).2 ++ [0], some Q) := by
    rw [do_decoding_chars X, hmsX, hlenX, if_pos (by omega), hcar]
    exact decode_chars_frame_payload _ Q w stale hstar hextl hz2 hP7
  refine ⟨horig, ?_⟩
  rw [horig, do_decoding_chars (flip_at X p 0)]
  have hoffF : pixel_data_offset (flip_at X p 0) = pixel_data_offset D := by
    simp only [flip_at]
    rw [pixel_data_offset_set X p _ (Or.inr (by omega)), hoffX]
  have hmsF : magic_start (flip_at X p 0) = pixel_data_offset D := by
    rw [magic_start_of_lt _ (by rw [hoffF]; exact hoff31), hoffF]
  have hp8 : p - pixel_data_offset D
      = 8 * ((p - pixel_data_offset D) / 8) + (p - pixel_data_offset D) % 8 :=
    (Nat.div_add_mod _ 8).symm
  rw [hmsF, flip_at_length, hlenX, if_pos (by omega),
    flip_at_drop X p _ 0 (by omega) hlo, hp8,
    carried_flip _ _ _ (Nat.mod_lt _ (by decide)) (by simp only [List.length_drop]; omega),
    hcar]
  exact decode_chars_flip _ Q w stale _ _ hstar hextl hz2 (by omega) hP7
    (Nat.mod_lt _ (by decide)) (by omega) hsep

/-- The image written by a successful run of `do_encoding` on a source image
whose pixel data offset fits an `int`. -/
theorem stego_image_of_run (D P fname : List Nat)
    (h31 : pixel_data_offset D < 2147483648)
    (hrun : (do_encoding (some D) (some P) true fname).map (fun r => r.status)
      = some Status.e_success) :
    ∃ r out, do_encoding (some D) (some P) true fname = some r ∧
      r.status = Status.e_success ∧ r.encInfo.fptr_stego_image = some out ∧
      out.data = encoded_image D (encoder_frame P fname) := by
  cases hr : do_encoding (some D) (some P) true fname with
  | none => rw [hr] at hrun; cases hrun
  | some r =>
    rw [hr] at hrun
    obtain ⟨_, hout⟩ := do_encoding_success D P fname r h31 hr (Option.some.inj hrun)
    exact ⟨r, _, rfl, Option.some.inj hrun, hout, rfl⟩

/-- C22, an instance: the payload `hi` of the file `a.txt` in an 8 by 8 image;
byte 126 is the first byte of the block of the character `i`. -/
theorem C22_frame_bit_flip_witness :
    ∃ r out, do_encoding (some small_image) (some [104, 105]) true [97, 46, 116, 120, 116]
        = some r ∧
      r.status = Status.e_success ∧
      r.encInfo.fptr_stego_image = some out ∧
      decode_outcome (do_decoding (some out.data) true (0, 0))
        = some (Status.e_success, none, (get_file_extension [97, 46, 116, 120, 116]).2 ++ [0],
            some [104, 105]) ∧
      decode_outcome (do_decoding (some (flip_at out.data 126 0)) true (0, 0))
        ≠ decode_outcome (do_decoding (some out.data) true (0, 0)) :=
  C22_frame_bit_flip small_image [104, 105] [97, 46, 116, 120, 116] (0, 0) 126
    encode_conditions_small (by decide)
    (by decide) (by decide) (by decide!) (by decide!) (by decide!)
    (by rw [show encoder_frame [104, 105] [97, 46, 116, 120, 116]
        = [35, 42, 116, 120, 116, 42, 50, 42, 104, 105, 42] from by
          simp only [encoder_frame, frame_text, show secret_size [104, 105] = 2 from by decide,
            decimal_two]
          decide!]
        decide!)
    (by rw [show secret_size [104, 105] = 2 from by decide, decimal_two]; decide!)

/-- C22 as stated fails in the block of the trailing separator, which the
decoder never reads: `do_encoding` of the payload `hi` of the file `a.txt` in
an 8 by 8 image succeeds and stamps 11 characters from byte 54 on, byte 134 is
the first byte of the last block, and `do_decoding` gives the same result on
the image and on the image with the low bit of byte 134 flipped. It fails in
the block of the separator behind the size: with the one byte `0xFF` as
payload, flipping the low bit of byte 110 turns the separator into `+`, the
size text runs to the trailing separator and the decoder writes the `0xFF`
carried by the next source block. It fails for an extension with `*` (file
`a.b*c`, the payload byte at 118) and for a payload with a zero byte (`h`,
`0x00` in an image of zero pixel bytes, the size digit at byte 102): the
result of the decoder does not depend on the flipped character. -/
theorem C22_separator_counterexample :
    (∃ r out, do_encoding (some small_image) (some [104, 105]) true [97, 46, 116, 120, 116]
        = some r ∧
      r.status = Status.e_success ∧ r.encInfo.fptr_stego_image = some out ∧
      pixel_data_offset small_image = 54 ∧
      encoder_frame [104, 105] [97, 46, 116, 120, 116]
        = [35, 42, 116, 120, 116, 42, 50, 42, 104, 105, 42] ∧
      decode_outcome (do_decoding (some out.data) true (0, 0))
        = some (Status.e_success, none, [116, 120, 116, 0], some [104, 105]) ∧
      decode_outcome (do_decoding (some (flip_at out.data 134 0)) true (0, 0))
        = some (Status.e_success, none, [116, 120, 116, 0], some [104, 105])) ∧
    (∃ r out, do_encoding (some small_image) (some [255]) true [97, 46, 116, 120, 116]
        = some r ∧
      r.status = Status.e_success ∧ r.encInfo.fptr_stego_image = some out ∧
      pixel_data_offset small_image = 54 ∧
      encoder_frame [255] [97, 46, 116, 120, 116]
        = [35, 42, 116, 120, 116, 42, 49, 42, 255, 42] ∧
      decode_outcome (do_decoding (some out.data) true (0, 0))
        = some (Status.e_success, none, [116, 120, 116, 0], some [255]) ∧
      decode_outcome (do_decoding (some (flip_at out.data 110 0)) true (0, 0))
        = some (Status.e_success, none, [116, 120, 116, 0], some [255])) ∧
    (∃ r out, do_encoding (some small_image) (some [104, 105]) true [97, 46, 98, 42, 99]
        = some r ∧
      r.status = Status.e_success ∧ r.encInfo.fptr_stego_image = some out ∧
      pixel_data_offset small_image = 54 ∧
      encoder_frame [104, 105] [97, 46, 98, 42, 99]
        = [35, 42, 98, 42, 99, 42, 50, 42, 104, 105, 42] ∧
      decode_outcome (do_decoding (some out.data) true (0, 0))
        = some (Status.e_success, none, [98, 0], some []) ∧
      decode_outcome (do_decoding (some (flip_at out.data 118 0)) true (0, 0))
        = some (Status.e_success, none, [98, 0], some [])) ∧
    (∃ r out, do_encoding (some dark_image) (some [104, 0]) true [97, 46, 116, 120, 116]
        = some r ∧
      r.status = Status.e_success ∧ r.encInfo.fptr_stego_image = some out ∧
      pixel_data_offset dark_image = 54 ∧
      encoder_frame [104, 0] [97, 46, 116, 120, 116]
        = [35, 42, 116, 120, 116, 42, 50, 42, 104] ∧
      decode_outcome (do_decoding (some out.data) true (0, 0))
        = some (Status.e_success, none, [116, 120, 116, 0], some [104]) ∧
      decode_outcome (do_decoding (some (flip_at out.data 102 0)) true (0, 0))
        = some (Status.e_success, none, [116, 120, 116, 0], some [104])) := by
  have d1 : decimal 1 = [49] := decimal_one
  have d2 : decimal 2 = [50] := decimal_two
  have s1 : secret_size [255] = 1 := by decide
  have s2 : secret_size [104, 105] = 2 := by decide
  have s3 : secret_size [104, 0] = 2 := by decide
  have f1 : encoder_frame [104, 105] [97, 46, 116, 120, 116]
      = [35, 42, 116, 120, 116, 42, 50, 42, 104, 105, 42] := by
    simp only [encoder_frame, frame_text, s2, d2]
    decide!
  have c1 := stego_image_of_run small_image [104, 105] [97, 46, 116, 120, 116] (by decide!)
    (by decide!)
  rw [f1] at c1
  obtain ⟨r1, out1, a1, b1, e1, g1⟩ := c1
  have f2 : encoder_frame [255] [97, 46, 116, 120, 116]
      = [35, 42, 116, 120, 116, 42, 49, 42, 255, 42] := by
    simp only [encoder_frame, frame_text, s1, d1]
    decide!
  have c2 := stego_image_of_run small_image [255] [97, 46, 116, 120, 116] (by decide!)
    (by decide!)
  rw [f2] at c2
  obtain ⟨r2, out2, a2, b2, e2, g2⟩ := c2
  have f3 : encoder_frame [104, 105] [97, 46, 98, 42, 99]
      = [35, 42, 98, 42, 99, 42, 50, 42, 104, 105, 42] := by
    simp only [encoder_frame, frame_text, s2, d2]
    decide!
  have c3 := stego_image_of_run small_image [104, 105] [97, 46, 98, 42, 99] (by decide!)
    (by decide!)
  rw [f3] at c3
  obtain ⟨r3, out3, a3, b3, e3, g3⟩ := c3
  have f4 : encoder_frame [104, 0] [97, 46, 116, 120, 116]
      = [35, 42, 116, 120, 116, 42, 50, 42, 104] := by
    simp only [encoder_frame, frame_text, s3, d2]
    decide!
  have c4 := stego_image_of_run dark_image [104, 0] [97, 46, 116, 120, 116] (by decide!)
    (by decide!)
  rw [f4] at c4
  obtain ⟨r4, out4, a4, b4, e4, g4⟩ := c4
  exact ⟨⟨r1, out1, a1, b1, e1, by decide!, f1, by rw [g1]; decide!, by rw [g1]; decide!⟩,
    ⟨r2, out2, a2, b2, e2, by decide!, f2, by rw [g2]; decide!, by rw [g2]; decide!⟩,
    ⟨r3, out3, a3, b3, e3, by decide!, f3, by rw [g3]; decide!, by rw [g3]; decide!⟩,
    ⟨r4, out4, a4, b4, e4, by decide!, f4, by rw [g4]; decide!, by rw [g4]; decide!⟩⟩

/-! ## `itoa` then `atoi`, and a block stamped with its own byte -/

/-- The bytes left by `itoa` for a positive number: the decimal digits, most
significant first, then the terminator. -/
theorem itoa_of_pos (n : Nat) (hpos : 0 < n) : itoa n = decimal n ++ [0] := by
  have hL : itoa_loop n n = (Nat.digits 10 n).map (fun d => d + 48) := itoa_loop_eq n n (le_refl _)
  have hnz : ∀ x ∈ (Nat.digits 10 n).map (fun d => d + 48), x ≠ 0 := by
    intro x hx
    simp only [List.mem_map] at hx
    obtain ⟨d, _, rfl⟩ := hx
    omega
  have h0 : n ≠ 0 := by omega
  simp only [itoa, hL, h0, if_false, List.drop_nil, List.append_nil]
  have hstr : strlen ((Nat.digits 10 n).map (fun d => d + 48) ++ [0])
      = ((Nat.digits 10 n).map (fun d => d + 48)).length := by
    simp only [strlen, List.singleton_append]
    rw [cstr_append_zero _ _ hnz]
  rw [hstr]
  have h := itoa_reverse_loop _ ((Nat.digits 10 n).map (fun d => d + 48)) rfl [] [] [0] rfl
  simp only [List.length_nil, Nat.zero_add, Nat.add_zero, List.nil_append] at h
  rw [← List.range_eq_range'] at h
  rw [h]
  rfl

/-- The bytes left by `itoa` for 0: the store of the terminator at index 0
follows the stores of `'0'` and of a terminator at indices 0 and 1. -/
theorem itoa_zero : itoa 0 = [0, 0] := by decide

/-- C31: for every `n` with `0 ≤ n ≤ 2^31 - 1`, `atoi` applied to the bytes
left by `itoa n` returns `n`, and so does `atoi` applied to the string of
`itoa n` copied into another buffer and terminated, which is how the decoder
gets the size text; `n = 0` is included. -/
theorem C31_atoi_itoa (n : Nat) (hn : n ≤ 2147483647) :
    atoi (itoa n) = some (n : Int) ∧ atoi (cstr (itoa n) ++ [0]) = some (n : Int) := by
  refine ⟨?_, ?_⟩
  · by_cases h0 : n = 0
    · subst h0
      rw [itoa_zero]
      rfl
    · rw [itoa_of_pos n (Nat.pos_of_ne_zero h0)]
      exact atoi_decimal n hn
  · rw [cstr_itoa]
    exact atoi_decimal n hn

/-- C31, an instance: the largest `int`. -/
theorem C31_atoi_itoa_witness :
    atoi (itoa 2147483647) = some (2147483647 : Int) ∧
    atoi (cstr (itoa 2147483647) ++ [0]) = some (2147483647 : Int) :=
  C31_atoi_itoa 2147483647 (by decide)

/-- Bit `i` of the byte unpacked from a block is the low bit of byte `i` of the
block. -/
theorem unpacked_bit (c : List Nat) (h : c.length = 8) (i : Nat) (hi : i < 8) :
    (get_data_from_byte_array c).2 / 2 ^ i % 2 = c.getD i 0 % 2 := by
  obtain ⟨c0, c1, c2, c3, c4, c5, c6, c7, rfl⟩ := length_eq_eight h
  rw [get_data_from_byte_array_eight]
  interval_cases i <;>
    simp only [List.getD_cons_zero, List.getD_cons_succ, Nat.reducePow] <;>
    omega

/-- A byte is twice its upper seven bits plus its low bit. -/
theorem byte_of_halves (x : Nat) (hx : x < 256) : (2 * (x / 2) + x % 2) % 256 = x := by
  omega

/-- C32: for every block `c` of 8 bytes, `encode_byte_to_lsb` of the byte that
`get_data_from_byte_array` reads from `c`, applied to `c`, returns success and
leaves the block `c`, equal in all 8 bytes. -/
theorem C32_repack_unchanged (c : List Nat) (h : c.length = 8) (hb : ∀ x ∈ c, x < 256) :
    encode_byte_to_lsb (get_data_from_byte_array c).2 c = (Status.e_success, c) := by
  have t0 := unpacked_bit c h 0 (by decide)
  have t1 := unpacked_bit c h 1 (by decide)
  have t2 := unpacked_bit c h 2 (by decide)
  have t3 := unpacked_bit c h 3 (by decide)
  have t4 := unpacked_bit c h 4 (by decide)
  have t5 := unpacked_bit c h 5 (by decide)
  have t6 := unpacked_bit c h 6 (by decide)
  have t7 := unpacked_bit c h 7 (by decide)
  generalize (get_data_from_byte_array c).2 = d at t0 t1 t2 t3 t4 t5 t6 t7
  obtain ⟨c0, c1, c2, c3, c4, c5, c6, c7, rfl⟩ := length_eq_eight h
  simp only [List.getD_cons_zero, List.getD_cons_succ] at t0 t1 t2 t3 t4 t5 t6 t7
  rw [encode_byte_to_lsb_eight, t0, t1, t2, t3, t4, t5, t6, t7,
    byte_of_halves c0 (hb c0 (by simp)), byte_of_halves c1 (hb c1 (by simp)),
    byte_of_halves c2 (hb c2 (by simp)), byte_of_halves c3 (hb c3 (by simp)),
    byte_of_halves c4 (hb c4 (by simp)), byte_of_halves c5 (hb c5 (by simp)),
    byte_of_halves c6 (hb c6 (by simp)), byte_of_halves c7 (hb c7 (by simp))]

/-- C32, an instance: a block of eight different bytes. -/
theorem C32_repack_unchanged_witness :
    encode_byte_to_lsb (get_data_from_byte_array [0, 1, 2, 3, 128, 129, 254, 255]).2
        [0, 1, 2, 3, 128, 129, 254, 255]
      = (Status.e_success, [0, 1, 2, 3, 128, 129, 254, 255]) :=
  C32_repack_unchanged [0, 1, 2, 3, 128, 129, 254, 255] (by decide) (by decide)

/-- C33 on the code: for 0 the function `itoa` leaves a terminator at index 0,
so the string in `str` is empty and not the single character `0`; the stores
`str[0] = '0'` and `str[1] = 0` of the branch for `!num` are followed by
`str[i] = 0` with `i = 0`. -/
theorem C33_itoa_zero_empty :
    itoa 0 = [0, 0] ∧ cstr (itoa 0) = [] ∧ strlen (itoa 0) = 0 ∧ cstr (itoa 0) ≠ [48] := by
  decide

end Stego
